import Mathlib

/-!
# Verification of the CLD-Engine graph-evaluation core

A shallow embedding of the causal-loop-diagram execution engine:
the graph data model (`Graph.ts`, `Edge.ts`, `Node.ts`, `Port.ts`),
the SCC-based topology analyzer (`modifiedTopologicalSort.ts`),
the execution strategies (`MultiPassStrategy.ts`, `ConvergenceStrategy.ts`)
and the engine (`CLDEngine.ts`).

Modelling conventions:
* JavaScript numbers are modelled as rationals (`ℚ`); `NaN`/`Infinity`
  and other exotic numerics are out of scope.
* JavaScript values discriminated by the engine (`typeof x === "number"`,
  `x && typeof x === "object"`) are modelled by the inductive `Value`:
  `num` for finite numbers, `obj` for plain objects (string-keyed records
  in insertion order with distinct keys), and `prim` for the remaining
  primitives carrying only their truthiness.
* A JavaScript `Map` (and a plain object record) is modelled as an
  insertion-ordered association list with unique keys; `Map.set`
  overwrites in place, `Map.get` looks up the first (only) binding.
* A throw is modelled with `Except`; the engine's error messages are
  modelled structurally by `EngineError`, each constructor holding the
  id interpolated into the corresponding message string.
* A node's `calculate` function together with its execution context is
  abstracted as a pure function from the gathered inputs, the iteration
  number and the node's own state slot to the output record and the
  final state slot, which is faithful because `BasicExecutionContext`
  scopes `getState`/`setState` to that one slot.
* The `while` loops of `CLDEngine.execute`, Tarjan's `strongConnect`
  and Kahn's algorithm are modelled with an explicit fuel argument
  (`none` = fuel exhausted); adequacy lemmas below discharge the fuel
  for the actual entry points.
-/

set_option maxHeartbeats 1000000

namespace CLD

abbrev NodeId := String
abbrev PortId := String

/-- JavaScript runtime values as discriminated by this engine. -/
inductive Value where
  | num (q : ℚ)
  | obj (fields : List (String × Value))
  | prim (truthy : Bool)

/-- JS truthiness, for the checks `if (sourceOutputs)` / `if (!previousOutputs)`. -/
def Value.truthy : Value → Bool
  | .num q => q ≠ 0
  | .obj _ => true
  | .prim b => b

/-- Models `typeof v === "number"`. -/
def Value.isNum : Value → Bool
  | .num _ => true
  | _ => false

/-- Insertion-ordered map lookup (`Map.get` / object property read). -/
def jsGet {α β : Type} [DecidableEq α] (m : List (α × β)) (k : α) : Option β :=
  match m with
  | [] => none
  | (k', v) :: rest => if k' = k then some v else jsGet rest k

/-- Insertion-ordered map update (`Map.set` / object property write):
overwrite in place, else append. -/
def jsSet {α β : Type} [DecidableEq α] (m : List (α × β)) (k : α) (v : β) : List (α × β) :=
  match m with
  | [] => [(k, v)]
  | (k', v') :: rest => if k' = k then (k, v) :: rest else (k', v') :: jsSet rest k v

/-- Membership test (`Map.has`). -/
def jsHas {α β : Type} [DecidableEq α] (m : List (α × β)) (k : α) : Bool :=
  (jsGet m k).isSome

/-- Property read on an arbitrary value: only objects have properties here. -/
def Value.getField : Value → String → Option Value
  | .obj fields, k => jsGet fields k
  | _, _ => none

/-- Port descriptor from `Port.ts`: id, display name and kind. -/
structure PortDescriptor where
  id : PortId
  name : String
  isInput : Bool
deriving DecidableEq

/-- Directed edge from an output port to an input port (`Edge.ts`). -/
structure Edge where
  id : String
  fromNodeId : NodeId
  fromPortId : PortId
  toNodeId : NodeId
  toPortId : PortId
deriving DecidableEq

/--
Node definition from `Node.ts`.  The fields `inputs`/`outputs` list the
port descriptors in `Object.values` order.  `calculate` abstracts the
node's compute function together with its use of the execution context
(see the module docstring).  `state` is the node's default state
(`none` models `undefined`, resolved by `node.state ?? {}`).
-/
structure NodeDefinition where
  id : NodeId
  inputs : List PortDescriptor
  outputs : List PortDescriptor
  state : Option Value
  calculate : List (String × ℚ) → Nat → Value → Value × Value

/-- Graph from `Graph.ts`: insertion-ordered node map plus edge list. -/
structure Graph where
  nodes : List (NodeId × NodeDefinition)
  edges : List Edge

/-- Node ids of a graph in insertion order (`graph.nodes.keys()`). -/
def Graph.nodeIds (g : Graph) : List NodeId := g.nodes.map Prod.fst

/-- The key-uniqueness invariant every graph built through the JS `Map`
satisfies by construction. -/
def Graph.KeysNodup (g : Graph) : Prop := g.nodeIds.Nodup

instance (g : Graph) : Decidable g.KeysNodup := by
  unfold Graph.KeysNodup; infer_instance

/-- Models `createGraph()`. -/
def createGraph : Graph := ⟨[], []⟩

/-- Models `addNode(graph, node)` from `Graph.ts` lines 54-67: copy the
node map, fail on a duplicate id, insert, copy the edge list. -/
def addNode (g : Graph) (node : NodeDefinition) : Except String Graph :=
  if jsHas g.nodes node.id then
    .error ("Node with id \"" ++ node.id ++ "\" already exists in graph")
  else
    .ok ⟨g.nodes ++ [(node.id, node)], g.edges⟩

/-- Models `addEdge(graph, edge)`: append, no validation. -/
def addEdge (g : Graph) (edge : Edge) : Graph :=
  ⟨g.nodes, g.edges ++ [edge]⟩

/-- The engine's throw sites, each carrying the id named in the message. -/
inductive EngineError where
  | nodeNotFoundInGraph (id : NodeId)        -- `Node "${nodeId}" not found in graph`
  | nodeNotFoundInOrder (id : NodeId)        -- `Node "${nodeId}" not found in execution order`
  | sourceNotFoundInOrder (id : NodeId)      -- `Source node "${edge.fromNodeId}" not found in execution order`
deriving DecidableEq

/-- Models `array.indexOf` (position of first occurrence, `-1` as `none`). -/
def indexOf (xs : List NodeId) (x : NodeId) : Option Nat :=
  match xs with
  | [] => none
  | y :: rest => if y = x then some 0 else (indexOf rest x).map (· + 1)

/--
Per-edge value resolution inside `CLDEngine.gatherInputs`
(`CLDEngine.ts` lines 160-200), for an edge whose target port exists and
whose source node sits at `srcIdx` while the destination sits at `idx`:
back edges (`srcIdx > idx`) read `backEdgeValues` (default 0); forward
edges read the source's current-iteration output field (default 0).
-/
def resolveEdge (g : Graph) (currentOutputs : List (NodeId × Value))
    (backEdgeValues : List (String × ℚ)) (idx srcIdx : Nat) (edge : Edge) : ℚ :=
  if srcIdx > idx then
    (jsGet backEdgeValues (edge.fromNodeId ++ "." ++ edge.fromPortId)).getD 0
  else
    match jsGet currentOutputs edge.fromNodeId with
    | some sourceOutputs =>
      if sourceOutputs.truthy then
        match jsGet g.nodes edge.fromNodeId with
        | some sourceNode =>
          match sourceNode.outputs.find? (fun port => port.id = edge.fromPortId) with
          | some outputPort =>
            match sourceOutputs.getField outputPort.name with
            | some (.num q) => q
            | _ => 0
          | none => 0
        | none => 0
      else 0
    | none => 0

/-- Accumulation step of `gatherInputs`: missing key initialised to 0, then `+=`. -/
def accumInput (inputValues : List (String × ℚ)) (key : String) (v : ℚ) :
    List (String × ℚ) :=
  jsSet inputValues key ((jsGet inputValues key).getD 0 + v)

/-- The edge loop of `gatherInputs` over the incoming edges. -/
def gatherLoop (g : Graph) (node : NodeDefinition) (currentOutputs : List (NodeId × Value))
    (backEdgeValues : List (String × ℚ)) (order : List NodeId) (idx : Nat) :
    List Edge → List (String × ℚ) → Except EngineError (List (String × ℚ))
  | [], inputValues => .ok inputValues
  | edge :: rest, inputValues =>
    match node.inputs.find? (fun port => port.id = edge.toPortId) with
    | none => gatherLoop g node currentOutputs backEdgeValues order idx rest inputValues
    | some inputPort =>
      match indexOf order edge.fromNodeId with
      | none => .error (.sourceNotFoundInOrder edge.fromNodeId)
      | some srcIdx =>
        gatherLoop g node currentOutputs backEdgeValues order idx rest
          (accumInput inputValues inputPort.name
            (resolveEdge g currentOutputs backEdgeValues idx srcIdx edge))

/-- Models `CLDEngine.gatherInputs` (`CLDEngine.ts` lines 128-210). -/
def gatherInputs (nodeId : NodeId) (node : NodeDefinition) (g : Graph)
    (currentOutputs : List (NodeId × Value)) (backEdgeValues : List (String × ℚ))
    (order : List NodeId) : Except EngineError (List (String × ℚ)) :=
  let incomingEdges := g.edges.filter (fun edge => edge.toNodeId = nodeId)
  match indexOf order nodeId with
  | none => .error (.nodeNotFoundInOrder nodeId)
  | some idx => gatherLoop g node currentOutputs backEdgeValues order idx incomingEdges []

/-- The resolved value of an edge, with the source position read off the
order (only used where the position is known to exist). -/
def resolvedValueAt (g : Graph) (currentOutputs : List (NodeId × Value))
    (backEdgeValues : List (String × ℚ)) (order : List NodeId) (idx : Nat)
    (edge : Edge) : ℚ :=
  resolveEdge g currentOutputs backEdgeValues idx
    ((indexOf order edge.fromNodeId).getD 0) edge

/-- Name of the input port an edge is matched to by `gatherInputs`, if any. -/
def matchedPortName (node : NodeDefinition) (edge : Edge) : Option String :=
  (node.inputs.find? (fun port => port.id = edge.toPortId)).map PortDescriptor.name

/-! ## Topology analyzer: `modifiedTopologicalSort.ts` -/

/-- Models `getSuccessors`: targets of the edges leaving a node, in edge order. -/
def getSuccessors (g : Graph) (nodeId : NodeId) : List NodeId :=
  (g.edges.filter (fun e => e.fromNodeId = nodeId)).map Edge.toNodeId

/-- Tarjan bookkeeping per node (`index`/`lowLink`/`onStack`); `-1` = unvisited. -/
structure TData where
  index : Int
  lowLink : Int
  onStack : Bool
deriving DecidableEq

/-- State threaded through Tarjan's algorithm: the `index` counter, the
explicit stack (head = top), the bookkeeping map, and the emitted SCCs. -/
structure TarjanSt where
  counter : Int
  stack : List NodeId
  nodeData : List (NodeId × TData)
  sccs : List (List NodeId)

/-- Initial Tarjan state: all nodes unvisited. -/
def initTarjan (g : Graph) : TarjanSt :=
  ⟨0, [], g.nodes.map (fun p => (p.1, ⟨-1, -1, false⟩)), []⟩

/-- Pop the stack down to and including `v`, collecting in pop order
(the `do…while (w !== nodeId)` loop). -/
def popToNode (v : NodeId) : List NodeId → List NodeId × List NodeId
  | [] => ([], [])
  | w :: rest =>
    if w = v then ([w], rest)
    else
      let p := popToNode v rest
      (w :: p.1, p.2)

/-- Set `onStack := false` for every member of a popped SCC. -/
def markOffStack (nodeData : List (NodeId × TData)) (scc : List NodeId) :
    List (NodeId × TData) :=
  scc.foldl (fun nd w =>
    match jsGet nd w with
    | some d => jsSet nd w { d with onStack := false }
    | none => nd) nodeData

/-- The successor loop of `strongConnect`, parametrized by the recursive
call (which carries one unit less fuel). -/
def visitSuccessors (recur : NodeId → TarjanSt → Option TarjanSt) (v : NodeId) :
    List NodeId → TarjanSt → Option TarjanSt
  | [], st => some st
  | w :: rest, st =>
    match jsGet st.nodeData w with
    | none => visitSuccessors recur v rest st      -- successor absent from the graph: skip
    | some dw =>
      if dw.index = -1 then
        match recur w st with
        | none => none
        | some st' =>
          -- node.lowLink = Math.min(node.lowLink, successor.lowLink), re-read after recursion
          match jsGet st'.nodeData v, jsGet st'.nodeData w with
          | some dv, some dw' =>
            visitSuccessors recur v rest
              { st' with nodeData := jsSet st'.nodeData v { dv with lowLink := min dv.lowLink dw'.lowLink } }
          | _, _ => none        -- unreachable: v and w are tracked in nodeData
      else if dw.onStack then
        match jsGet st.nodeData v with
        | some dv =>
          visitSuccessors recur v rest
            { st with nodeData := jsSet st.nodeData v { dv with lowLink := min dv.lowLink dw.index } }
        | none => none          -- unreachable: v is tracked in nodeData
      else visitSuccessors recur v rest st

/-- Models `strongConnect`, with fuel bounding the recursion depth. -/
def strongConnect (g : Graph) : Nat → NodeId → TarjanSt → Option TarjanSt
  | 0, _, _ => none
  | fuel + 1, v, st =>
    let st1 : TarjanSt :=
      { counter := st.counter + 1,
        stack := v :: st.stack,
        nodeData := jsSet st.nodeData v ⟨st.counter, st.counter, true⟩,
        sccs := st.sccs }
    match visitSuccessors (strongConnect g fuel) v (getSuccessors g v) st1 with
    | none => none
    | some st2 =>
      match jsGet st2.nodeData v with
      | none => none                               -- unreachable: v is tracked in nodeData
      | some dv =>
        if dv.lowLink = dv.index then
          let p := popToNode v st2.stack
          some { counter := st2.counter,
                 stack := p.2,
                 nodeData := markOffStack st2.nodeData p.1,
                 sccs := st2.sccs ++ [p.1] }
        else some st2

/-- The root loop of `findSCCs`: run `strongConnect` on every unvisited node. -/
def tarjanLoop (g : Graph) (fuel : Nat) : List NodeId → TarjanSt → Option TarjanSt
  | [], st => some st
  | v :: rest, st =>
    match jsGet st.nodeData v with
    | none => tarjanLoop g fuel rest st            -- unreachable for graph keys
    | some d =>
      if d.index = -1 then
        match strongConnect g fuel v st with
        | none => none
        | some st' => tarjanLoop g fuel rest st'
      else tarjanLoop g fuel rest st

/-- Models `findSCCs` (`modifiedTopologicalSort.ts` lines 20-95).  The
fuel `g.nodes.length + 1` strictly dominates the recursion depth, which
is bounded by the number of unvisited nodes (adequacy is proved below). -/
def findSCCs (g : Graph) : List (List NodeId) :=
  match tarjanLoop g (g.nodes.length + 1) g.nodeIds (initTarjan g) with
  | some st => st.sccs
  | none => []

/-- Insertion-ordered set insertion (JS `Set.add`). -/
def addToSet (s : List Nat) (x : Nat) : List Nat := if x ∈ s then s else s ++ [x]

/-- Models the `nodeToComponent` map built inside `buildComponentGraph`. -/
def nodeToComponent (sccs : List (List NodeId)) : List (NodeId × Nat) :=
  sccs.enum.foldl (fun acc p =>
    p.2.foldl (fun acc2 nid => jsSet acc2 nid p.1) acc) []

/-- One edge-processing step of `buildComponentGraph` (lines 117-133). -/
def bcgStep (n2c : List (NodeId × Nat)) (cg : List (Nat × List Nat)) (e : Edge) :
    List (Nat × List Nat) :=
  match jsGet n2c e.fromNodeId, jsGet n2c e.toNodeId with
  | some fromComponent, some toComponent =>
    if fromComponent ≠ toComponent then
      match jsGet cg fromComponent with
      | some succs => jsSet cg fromComponent (addToSet succs toComponent)
      | none => cg
    else cg
  | _, _ => cg

/-- Models `buildComponentGraph` (lines 101-136): one vertex per SCC,
an edge between distinct components for each crossing original edge. -/
def buildComponentGraph (sccs : List (List NodeId)) (g : Graph) :
    List (Nat × List Nat) :=
  let base : List (Nat × List Nat) := sccs.enum.map (fun p => (p.1, []))
  g.edges.foldl (bcgStep (nodeToComponent sccs)) base

/-- In-degree computation of `topologicalSortComponents` (lines 145-157). -/
def computeInDegrees (cg : List (Nat × List Nat)) : List (Nat × Int) :=
  cg.foldl (fun deg p =>
      p.2.foldl (fun deg2 s => jsSet deg2 s ((jsGet deg2 s).getD 0 + 1)) deg)
    (cg.map (fun p => (p.1, (0 : Int))))

/-- Initial zero-in-degree frontier, in map iteration order (lines 160-165). -/
def initQueue (deg : List (Nat × Int)) : List Nat :=
  (deg.filter (fun p => p.2 = 0)).map Prod.fst

/-- One dequeue step's successor processing: decrement each successor's
in-degree and enqueue it when the new degree is exactly zero. -/
def kahnStep (succs : List Nat) (deg : List (Nat × Int)) (queue : List Nat) :
    List (Nat × Int) × List Nat :=
  succs.foldl (fun p s =>
      let nd := (jsGet p.1 s).getD 0 - 1
      (jsSet p.1 s nd, if nd = 0 then p.2 ++ [s] else p.2))
    (deg, queue)

/-- The Kahn while-loop (lines 168-180), fueled by the dequeue count. -/
def kahnLoop (cg : List (Nat × List Nat)) :
    Nat → List Nat → List (Nat × Int) → List Nat → Option (List Nat)
  | _, [], _, result => some result
  | 0, _ :: _, _, _ => none
  | fuel + 1, c :: queue, deg, result =>
    let p := kahnStep ((jsGet cg c).getD []) deg queue
    kahnLoop cg fuel p.2 p.1 (result ++ [c])

/-- Models `topologicalSortComponents` (lines 142-183).  The fuel
`cg.length + 1` strictly dominates the dequeue count (adequacy below). -/
def topologicalSortComponents (cg : List (Nat × List Nat)) : List Nat :=
  let deg := computeInDegrees cg
  match kahnLoop cg (cg.length + 1) (initQueue deg) deg [] with
  | some r => r
  | none => []

/-- Models `modifiedTopologicalSort` (lines 197-218). -/
def modifiedTopologicalSort (g : Graph) : List NodeId :=
  let sccs := findSCCs g
  let componentOrder := topologicalSortComponents (buildComponentGraph sccs g)
  componentOrder.foldl (fun nodeOrder cid =>
    match sccs.get? cid with
    | some scc => nodeOrder ++ scc
    | none => nodeOrder) []

/-! ## Strategies: `MultiPassStrategy.ts` -/

/-- An execution strategy with internal state `σ` (the `IExecutionStrategy`
interface; `shouldContinue` may mutate internal state, so it returns the
new state alongside its verdict). -/
structure StrategyImpl (σ : Type) where
  determineExecutionOrder : Graph → List NodeId
  shouldContinue : σ → Nat → List (NodeId × Value) → Bool × σ
  getBackEdgeValues : Nat → Option (List (NodeId × Value)) → List (String × ℚ)

/-- The field scan shared by the multi-pass and convergence strategies:
for every node of the previous results whose output is an object, bind
key `nodeId.fieldName` to every numeric field value. -/
def extractBackEdgeValues (previousResults : List (NodeId × Value)) :
    List (String × ℚ) :=
  previousResults.foldl (fun acc p =>
    match p.2 with
    | .obj fields =>
      fields.foldl (fun acc2 f =>
        match f.2 with
        | .num q => jsSet acc2 (p.1 ++ "." ++ f.1) q
        | _ => acc2) acc
    | _ => acc) []

/-- Models `MultiPassStrategy.getBackEdgeValues` (lines 47-146). -/
def multiPassGetBackEdgeValues (iteration : Nat)
    (previousResults : Option (List (NodeId × Value))) : List (String × ℚ) :=
  match previousResults with
  | none => []
  | some m => if iteration = 1 then [] else extractBackEdgeValues m

/-- Models `ConvergenceStrategy.getBackEdgeValues` (lines 335-362), whose
body duplicates the multi-pass field scan. -/
def convergenceGetBackEdgeValues (iteration : Nat)
    (previousResults : Option (List (NodeId × Value))) : List (String × ℚ) :=
  match previousResults with
  | none => []
  | some m => if iteration = 1 then [] else extractBackEdgeValues m

/-- Models `MultiPassStrategy` (constructor argument `maxIterations`). -/
def MultiPassStrategy (maxIterations : Nat) : StrategyImpl Unit where
  determineExecutionOrder := modifiedTopologicalSort
  shouldContinue := fun s iteration _ => (decide (iteration < maxIterations), s)
  getBackEdgeValues := multiPassGetBackEdgeValues

/-- Models `SinglePassStrategy`. -/
def SinglePassStrategy : StrategyImpl Unit where
  determineExecutionOrder := modifiedTopologicalSort
  shouldContinue := fun s iteration _ => (decide (iteration < 1), s)
  getBackEdgeValues := fun _ _ => []

/-- Models `ConvergenceStrategy.checkConvergence` (lines 279-322). -/
def checkConvergence (threshold : ℚ) (previous current : List (NodeId × Value)) :
    Bool :=
  (current.all (fun p =>
    match jsGet previous p.1 with
    | none => false
    | some pv =>
      if pv.truthy = false then false
      else
        match p.2, pv with
        | .obj curFields, .obj prevFields =>
          curFields.all (fun f =>
            match f.2 with
            | .num cq =>
              match jsGet prevFields f.1 with
              | some (.num pq) => decide (|cq - pq| < threshold)
              | _ => false
            | _ => true)
        | _, _ => false))
  && decide (previous.length = current.length)

/-- Models `ConvergenceStrategy.shouldContinue` (lines 248-269); the
internal `previousResults` snapshot is the strategy state. -/
def convergenceShouldContinue (threshold : ℚ) (maxIterations : Nat)
    (st : Option (List (NodeId × Value))) (iteration : Nat)
    (results : List (NodeId × Value)) : Bool × Option (List (NodeId × Value)) :=
  if maxIterations ≤ iteration then (false, st)
  else
    match st with
    | none => (true, some results)
    | some prev => (!(checkConvergence threshold prev results), some results)

/-- Models `ConvergenceStrategy(threshold, maxIterations)`. -/
def ConvergenceStrategy (threshold : ℚ) (maxIterations : Nat) :
    StrategyImpl (Option (List (NodeId × Value))) where
  determineExecutionOrder := modifiedTopologicalSort
  shouldContinue := convergenceShouldContinue threshold maxIterations
  getBackEdgeValues := convergenceGetBackEdgeValues

/-! ## Engine: `CLDEngine.ts` -/

/-- Result of `CLDEngine.execute`. -/
structure ExecutionResult where
  state : List (NodeId × Value)
  outputs : List (NodeId × Value)
  iterations : Nat

/-- Initial state map (`CLDEngine.ts` lines 41-49): caller-provided
initial state when present, else the node's default state (`?? {}`). -/
def initStateMap (g : Graph) (initialState : Option (List (NodeId × Value))) :
    List (NodeId × Value) :=
  g.nodes.foldl (fun stateMap p =>
    match initialState with
    | some init =>
      match jsGet init p.1 with
      | some v => jsSet stateMap p.1 v
      | none => jsSet stateMap p.1 (p.2.state.getD (.obj []))
    | none => jsSet stateMap p.1 (p.2.state.getD (.obj []))) []

/-- The per-iteration node loop of `execute` (lines 68-95): look the node
up, gather its inputs, run `calculate` on its state slot, record the
outputs in both result maps. -/
def runNodes (g : Graph) (iteration : Nat) (backVals : List (String × ℚ))
    (order : List NodeId) :
    List NodeId → List (NodeId × Value) → List (NodeId × Value) →
    List (NodeId × Value) →
    Except EngineError
      (List (NodeId × Value) × List (NodeId × Value) × List (NodeId × Value))
  | [], stateMap, currentResults, outputs => .ok (stateMap, currentResults, outputs)
  | nodeId :: rest, stateMap, currentResults, outputs =>
    match jsGet g.nodes nodeId with
    | none => .error (.nodeNotFoundInGraph nodeId)
    | some node =>
      match gatherInputs nodeId node g currentResults backVals order with
      | .error e => .error e
      | .ok inputValues =>
        let r := node.calculate inputValues iteration
          ((jsGet stateMap nodeId).getD (.prim false))
        runNodes g iteration backVals order rest
          (jsSet stateMap nodeId r.2)
          (jsSet currentResults nodeId r.1)
          (jsSet outputs nodeId r.1)

/-- The main `while (true)` loop of `execute` (lines 57-104), fueled by
the iteration count.  `none` means the fuel ran out before the strategy
stopped the loop. -/
def runLoop {σ : Type} (strat : StrategyImpl σ) (g : Graph) :
    Nat → Nat → σ → List (NodeId × Value) → List (NodeId × Value) →
    Option (List (NodeId × Value)) → Option (Except EngineError ExecutionResult)
  | 0, _, _, _, _, _ => none
  | fuel + 1, iteration, sst, stateMap, outputs, previousResults =>
    let iter := iteration + 1
    let order := strat.determineExecutionOrder g
    let backVals := strat.getBackEdgeValues iter previousResults
    match runNodes g iter backVals order order stateMap [] outputs with
    | .error e => some (.error e)
    | .ok r =>
      let c := strat.shouldContinue sst iter r.2.1
      if c.1 then
        runLoop strat g fuel iter c.2 r.1 r.2.2 (some r.2.1)
      else
        some (.ok ⟨r.1, r.2.2, iter⟩)

/-- Models `CLDEngine.execute` (with strategy state `s0` and fuel). -/
def execute {σ : Type} (strat : StrategyImpl σ) (s0 : σ) (g : Graph)
    (initialState : Option (List (NodeId × Value))) (fuel : Nat) :
    Option (Except EngineError ExecutionResult) :=
  runLoop strat g fuel 0 s0 (initStateMap g initialState) [] none

/--
The deterministic per-iteration trace of the engine under the shared
multi-pass/convergence back-edge rule: iteration `k` maps the state map
and cumulative outputs to their successors together with iteration `k`'s
results.  The strategy's continuation decisions do not influence this
trace, so the engine's run is a prefix of it.
-/
def iterTrace (g : Graph) (initialState : Option (List (NodeId × Value))) :
    Nat → Except EngineError
      (List (NodeId × Value) × List (NodeId × Value) × List (NodeId × Value) ×
        Option (List (NodeId × Value)))
  | 0 => .ok (initStateMap g initialState, [], [], none)
  | k + 1 =>
    match iterTrace g initialState k with
    | .error e => .error e
    | .ok r =>
      let order := modifiedTopologicalSort g
      match runNodes g (k + 1) (convergenceGetBackEdgeValues (k + 1) r.2.2.2)
          order order r.1 [] r.2.2.1 with
      | .error e => .error e
      | .ok s => .ok (s.1, s.2.1, s.2.2, some s.2.1)

/-- Results of iteration `k ≥ 1` along the trace. -/
def iterResults (g : Graph) (initialState : Option (List (NodeId × Value)))
    (k : Nat) : Except EngineError (List (NodeId × Value)) :=
  (iterTrace g initialState k).map (fun r => r.2.1)

/-! ## Concrete artifacts used by counterexamples and witnesses -/

/-- A generic input port named like its id. -/
def mkInPort (pid : String) : PortDescriptor := ⟨pid, pid, true⟩

/-- A generic output port named like its id. -/
def mkOutPort (pid : String) : PortDescriptor := ⟨pid, pid, false⟩

/-- A node with one input port `in`, one output port `out`, that echoes
a constant object `{ out: 1 }` and keeps its state. -/
def nodeA : NodeDefinition :=
  ⟨"A", [mkInPort "in"], [mkOutPort "out"], none,
    fun _ _ st => (.obj [("out", .num 1)], st)⟩

/-- The self-loop edge on node `A`. -/
def edgeAA : Edge := ⟨"e1", "A", "out", "A", "in"⟩

/-- The one-node graph with a self-loop. -/
def graphA : Graph := ⟨[("A", nodeA)], [edgeAA]⟩

/-- The numeric pairs contributed by one output record's fields. -/
def fieldPairs (nid : NodeId) (fields : List (String × Value)) : List (String × ℚ) :=
  fields.filterMap (fun f =>
    match f.2 with
    | .num q => some (nid ++ "." ++ f.1, q)
    | _ => none)

/-- The numeric pairs contributed by one node of the previous results. -/
def nodePairs (p : NodeId × Value) : List (String × ℚ) :=
  match p.2 with
  | .obj fields => fieldPairs p.1 fields
  | _ => []

/--
Specification-side description of the back-edge mapping (for the
refinement claim about `getBackEdgeValues`): for every node of the
previous results and every numeric field of its output record, one pair
binding key `nodeId.fieldName` to that field's value, and nothing else.
-/
def backEdgePairs (m : List (NodeId × Value)) : List (String × ℚ) :=
  (m.map nodePairs).flatten

instance {ε α : Type} [DecidableEq ε] [DecidableEq α] : DecidableEq (Except ε α) :=
  fun x y =>
    match x, y with
    | .ok a, .ok b =>
      if h : a = b then isTrue (by rw [h]) else isFalse (by intro hh; cases hh; exact h rfl)
    | .error a, .error b =>
      if h : a = b then isTrue (by rw [h]) else isFalse (by intro hh; cases hh; exact h rfl)
    | .ok _, .error _ => isFalse (by intro hh; cases hh)
    | .error _, .ok _ => isFalse (by intro hh; cases hh)

/-- A source node with output port `o` producing `{ o: 3 }`. -/
def nodeX : NodeDefinition :=
  ⟨"X", [], [mkOutPort "o"], none, fun _ _ st => (.obj [("o", .num 3)], st)⟩

/-- A sink node with the single input port `i`. -/
def nodeY : NodeDefinition :=
  ⟨"Y", [mkInPort "i"], [], none, fun _ _ st => (.obj [], st)⟩

/-- First of two parallel edges feeding port `i` of `Y` from `X.o`. -/
def e1W : Edge := ⟨"w1", "X", "o", "Y", "i"⟩

/-- Second of two parallel edges feeding port `i` of `Y` from `X.o`. -/
def e2W : Edge := ⟨"w2", "X", "o", "Y", "i"⟩

/-- The two-node fan-in graph used by witnesses. -/
def graphW : Graph := ⟨[("X", nodeX), ("Y", nodeY)], [e1W, e2W]⟩

/-- Current-iteration outputs with `X` already evaluated to `{ o: 3 }`. -/
def coW : List (NodeId × Value) := [("X", .obj [("o", .num 3)])]

/-- A previous-results map exercising the field scan: numeric fields on
two nodes, one non-numeric field, one non-object output. -/
def mW : List (NodeId × Value) :=
  [("N", .obj [("x", .num 3), ("s", .prim true), ("y", .num 4)]),
   ("M", .obj [("z", .num 5)]),
   ("K", .num 7)]

/-- An edge whose source `Z` is absent from the graph, feeding the
existing port `i` of `Y`. -/
def eZY : Edge := ⟨"b1", "Z", "o", "Y", "i"⟩

/-- A graph whose single edge has a dangling source while its
destination node and port exist. -/
def gDangSrc : Graph := ⟨[("Y", nodeY)], [eZY]⟩

/-- An edge whose destination `Z` is absent from the graph. -/
def eXZ : Edge := ⟨"c1", "X", "o", "Z", "i"⟩

/-- A graph whose single edge has a dangling destination. -/
def gDangDst : Graph := ⟨[("X", nodeX)], [eXZ]⟩

/-- A node whose output record carries no numeric field, so consecutive
identical outputs trivially pass the convergence check. -/
def nodeP : NodeDefinition :=
  ⟨"P", [], [mkOutPort "o"], none, fun _ _ st => (.obj [("o", .prim true)], st)⟩

/-- The one-node graph emitting a non-numeric output record. -/
def gConv : Graph := ⟨[("P", nodeP)], []⟩

/-- A node whose output is not a record, which the convergence check
always rejects. -/
def nodeQ : NodeDefinition :=
  ⟨"Q", [], [mkOutPort "o"], none, fun _ _ st => (.num 3, st)⟩

/-- The one-node graph emitting a non-record output. -/
def gNConv : Graph := ⟨[("Q", nodeQ)], []⟩

/-- A node whose numeric output grows by 1 each iteration until
iteration 5 and is constant afterwards. -/
def nodeC6 : NodeDefinition :=
  ⟨"N", [], [mkOutPort "o"], none,
    fun _ it st => (.obj [("o", .num ((min it 5 : Nat) : ℚ))], st)⟩

/-- The one-node graph stabilizing only from iteration 5 on. -/
def gC6 : Graph := ⟨[("N", nodeC6)], []⟩

/-- The results map produced by iteration `k` on `gC6`. -/
def c6res (k : Nat) : List (NodeId × Value) :=
  [("N", .obj [("o", .num ((min k 5 : Nat) : ℚ))])]

/-! ## Graph-theoretic notions used to specify the topology analyzer -/

/-- The edge relation between nodes present in the graph. -/
def edgeRelIn (g : Graph) (u w : NodeId) : Prop :=
  u ∈ g.nodeIds ∧ w ∈ g.nodeIds ∧ ∃ e ∈ g.edges, e.fromNodeId = u ∧ e.toNodeId = w

/-- Reachability along edges of the graph (reflexive-transitive closure). -/
def Reach (g : Graph) : NodeId → NodeId → Prop :=
  Relation.ReflTransGen (edgeRelIn g)

/-- Mutual reachability: the strongly-connected-component equivalence. -/
def MutReach (g : Graph) (u w : NodeId) : Prop := Reach g u w ∧ Reach g w u

/-- A graph is acyclic when no node lies on a nonempty directed cycle
(self-loops included). -/
def Acyclic (g : Graph) : Prop := ∀ v, ¬ Relation.TransGen (edgeRelIn g) v v

/-- The Tarjan index of a node (`-1` when unvisited or untracked). -/
def tIdx (st : TarjanSt) (x : NodeId) : Int :=
  match jsGet st.nodeData x with
  | some d => d.index
  | none => -1

/-- The Tarjan low-link of a node (`-1` when untracked). -/
def tLow (st : TarjanSt) (x : NodeId) : Int :=
  match jsGet st.nodeData x with
  | some d => d.lowLink
  | none => -1

/-- The Tarjan on-stack flag of a node. -/
def tOn (st : TarjanSt) (x : NodeId) : Bool :=
  match jsGet st.nodeData x with
  | some d => d.onStack
  | none => false

/-- Visitedness in the Tarjan bookkeeping. -/
def tVisited (st : TarjanSt) (x : NodeId) : Prop := tIdx st x ≠ -1

/-- Number of distinct graph nodes not yet visited by Tarjan's
bookkeeping; the decreasing measure justifying the fuel bound. -/
def unvisitedCount (g : Graph) (st : TarjanSt) : Nat :=
  (g.nodeIds.dedup.filter (fun x => decide (tIdx st x = -1))).length

/--
The Tarjan state invariant, relative to the chain `G` of still-active
ancestors (innermost first).  It packages the stack discipline, the
index/low-link arithmetic facts, the reachability facts (`L1`, `SR`),
the per-finished-node successor facts (`F`), and the properties of the
emitted components (nonempty, mutually reachable, maximal, and in
reverse-topological emission order).
-/
structure TInv (g : Graph) (G : List NodeId) (st : TarjanSt) : Prop where
  keys : st.nodeData.map Prod.fst = g.nodeIds
  stack_keys : ∀ x ∈ st.stack, x ∈ g.nodeIds
  flat_keys : ∀ x ∈ st.sccs.flatten, x ∈ g.nodeIds
  visited_iff : ∀ x, tVisited st x ↔ (x ∈ st.stack ∨ x ∈ st.sccs.flatten)
  onStack_iff : ∀ x, tOn st x = true ↔ x ∈ st.stack
  stack_nodup : st.stack.Nodup
  flat_nodup : st.sccs.flatten.Nodup
  disj : ∀ x ∈ st.stack, x ∉ st.sccs.flatten
  sorted : st.stack.Pairwise (fun a b => tIdx st b < tIdx st a)
  idx_bounds : ∀ x, tVisited st x → 0 ≤ tIdx st x ∧ tIdx st x < st.counter
  low_le : ∀ x, tVisited st x → tLow st x ≤ tIdx st x
  low_nonneg : ∀ x, tVisited st x → 0 ≤ tLow st x
  idx_inj : ∀ x y, tVisited st x → tVisited st y → tIdx st x = tIdx st y → x = y
  low_wit : ∀ x ∈ st.stack, tLow st x < tIdx st x →
    ∃ y ∈ st.stack, tIdx st y = tLow st x ∧ Reach g x y
  stack_reach : ∀ u ∈ st.stack, ∀ x ∈ st.stack, tIdx st u ≤ tIdx st x → Reach g u x
  fin_edges : ∀ u, tVisited st u → u ∉ G → ∀ w, edgeRelIn g u w →
    tVisited st w ∧ (w ∈ st.sccs.flatten ∨ tLow st u ≤ tIdx st w)
  fin_low : ∀ x ∈ st.stack, x ∉ G → tLow st x < tIdx st x
  sccs_ne : ∀ l ∈ st.sccs, l ≠ []
  sccs_mutual : ∀ l ∈ st.sccs, ∀ x ∈ l, ∀ y ∈ l, Reach g x y
  sccs_max : ∀ l ∈ st.sccs, ∀ x ∈ l, ∀ y, Reach g x y → Reach g y x → y ∈ l
  rank : ∀ u w, edgeRelIn g u w → ∀ i li, st.sccs.get? i = some li → u ∈ li →
    ∃ j lj, j ≤ i ∧ st.sccs.get? j = some lj ∧ w ∈ lj
  g_stack : ∀ x ∈ G, x ∈ st.stack
  g_last : ∀ b, st.stack.getLast? = some b → b ∈ G
  counter_nonneg : 0 ≤ st.counter

/--
Post-condition of one completed `strongConnect g fuel v st = some st'`
call, entered with ancestor chain `G` (so the call itself ran under
`v :: G`).
-/
structure SCPost (g : Graph) (G : List NodeId) (v : NodeId)
    (st st' : TarjanSt) : Prop where
  inv : TInv g G st'
  visited_mono : ∀ x, tVisited st x → tVisited st' x
  v_visited : tVisited st' v
  v_idx : tIdx st' v = st.counter
  counter_gt : st.counter < st'.counter
  frame : ∀ x, tVisited st x → jsGet st'.nodeData x = jsGet st.nodeData x
  new_reach : ∀ x, tVisited st' x → tVisited st x ∨ Reach g v x
  sccs_mono : ∃ tail, st'.sccs = st.sccs ++ tail ∧
    ∀ l ∈ tail, ∀ x ∈ l, ¬ tVisited st x
  new_idx : ∀ x, tVisited st' x → ¬ tVisited st x → st.counter ≤ tIdx st' x
  fate : (st'.stack = st.stack ∧ v ∈ st'.sccs.flatten ∧ tLow st' v = tIdx st' v) ∨
    (∃ kept, st'.stack = kept ++ st.stack ∧ v ∈ kept ∧
      tLow st' v < tIdx st' v ∧
      ∀ x ∈ kept, ¬ tVisited st x ∧ tLow st' v ≤ tLow st' x ∧ st.counter ≤ tIdx st' x)

/-- Loop invariant of the successor scan of `strongConnect` for the
active node `v` under ancestor chain `G`. -/
structure MidInv (g : Graph) (G : List NodeId) (v : NodeId) (st : TarjanSt) : Prop where
  inv : TInv g (v :: G) st
  v_stack : v ∈ st.stack
  reach_v : ∀ u ∈ st.stack, Reach g u v

/-- Post-condition of `visitSuccessors recur v succs st = some st'`. -/
structure VPost (g : Graph) (G : List NodeId) (v : NodeId) (succs : List NodeId)
    (st st' : TarjanSt) : Prop where
  mid : MidInv g G v st'
  visited_mono : ∀ x, tVisited st x → tVisited st' x
  counter_mono : st.counter ≤ st'.counter
  frame : ∀ x, tVisited st x → x ≠ v → jsGet st'.nodeData x = jsGet st.nodeData x
  v_idx_frame : tIdx st' v = tIdx st v
  v_low_mono : tLow st' v ≤ tLow st v
  new_reach : ∀ x, tVisited st' x → tVisited st x ∨ Reach g v x
  new_idx : ∀ x, tVisited st' x → ¬ tVisited st x → st.counter ≤ tIdx st' x
  sccs_mono : ∃ tail, st'.sccs = st.sccs ++ tail ∧ ∀ l ∈ tail, ∀ x ∈ l, ¬ tVisited st x
  stack_ext : ∃ new, st'.stack = new ++ st.stack ∧
    ∀ x ∈ new, ¬ tVisited st x ∧ tLow st' v ≤ tLow st' x ∧ st.counter ≤ tIdx st' x
  succ_facts : ∀ w ∈ succs, w ∈ g.nodeIds →
    tVisited st' w ∧ (w ∈ st'.sccs.flatten ∨ tLow st' v ≤ tIdx st' w)

/-- Successor list of a component in the component graph. -/
def kahnSuccs (cg : List (Nat × List Nat)) (c : Nat) : List Nat :=
  (jsGet cg c).getD []

/-- Predecessor list of a component in the component graph: the keys of
the entries whose successor list contains `c`. -/
def kahnPreds (cg : List (Nat × List Nat)) (c : Nat) : List Nat :=
  (cg.filter (fun p => decide (c ∈ p.2))).map Prod.fst

/--
Loop invariant of the Kahn while-loop: emitted and queued components are
distinct and valid, the in-degree map carries exactly the number of
not-yet-emitted predecessors, every emitted component's predecessors are
emitted before it, every queued component has all predecessors emitted,
and a component whose predecessors are all emitted is emitted or queued.
-/
structure KInv (cg : List (Nat × List Nat)) (deg : List (Nat × Int))
    (queue result : List Nat) : Prop where
  rq_nodup : (result ++ queue).Nodup
  rq_keys : ∀ c ∈ result ++ queue, c ∈ cg.map Prod.fst
  deg_keys : deg.map Prod.fst = cg.map Prod.fst
  deg_val : ∀ c ∈ cg.map Prod.fst, jsGet deg c =
    some (((kahnPreds cg c).length : Int) -
      ((kahnPreds cg c).countP (fun d => decide (d ∈ result)) : Int))
  emit_ok : ∀ i c, result.get? i = some c → ∀ d ∈ kahnPreds cg c,
    ∃ j, j < i ∧ result.get? j = some d
  queue_ok : ∀ c ∈ queue, ∀ d ∈ kahnPreds cg c, d ∈ result
  zero_in : ∀ c ∈ cg.map Prod.fst,
    (kahnPreds cg c).countP (fun d => decide (d ∈ result)) = (kahnPreds cg c).length →
    c ∈ result ++ queue

/-!
# Lemmas

First the association-list model, then the input-gathering loop, the
topology analyzer, and the engine loop.
-/

/-! ## Association-list lemmas -/

theorem jsGet_eq_none_iff {α β : Type} [DecidableEq α] (m : List (α × β)) (k : α) :
    jsGet m k = none ↔ k ∉ m.map Prod.fst := by
  induction m with
  | nil => simp [jsGet]
  | cons p rest ih =>
    obtain ⟨k', v⟩ := p
    by_cases h : k' = k
    · subst h
      simp [jsGet]
    · have h2 : k ≠ k' := fun hh => h hh.symm
      simp [jsGet, h, h2, ih]

theorem jsGet_isSome_iff {α β : Type} [DecidableEq α] (m : List (α × β)) (k : α) :
    (jsGet m k).isSome = true ↔ k ∈ m.map Prod.fst := by
  cases hk : jsGet m k with
  | none => simpa using (jsGet_eq_none_iff m k).mp hk
  | some v =>
    have : ¬ jsGet m k = none := by simp [hk]
    rw [jsGet_eq_none_iff] at this
    simpa using not_not.mp this

theorem jsGet_jsSet {α β : Type} [DecidableEq α] (m : List (α × β)) (k k' : α) (v : β) :
    jsGet (jsSet m k v) k' = if k = k' then some v else jsGet m k' := by
  induction m with
  | nil => by_cases h : k = k' <;> simp [jsSet, jsGet, h]
  | cons p rest ih =>
    obtain ⟨k₀, v₀⟩ := p
    by_cases h0 : k₀ = k
    · subst h0
      by_cases h : k₀ = k' <;> simp [jsSet, jsGet, h]
    · by_cases h : k₀ = k'
      · subst h
        have hk : ¬ k = k₀ := fun hh => h0 hh.symm
        simp [jsSet, jsGet, h0, hk]
      · simp [jsSet, jsGet, h0, h, ih]

theorem jsSet_keys {α β : Type} [DecidableEq α] (m : List (α × β)) (k : α) (v : β) :
    (jsSet m k v).map Prod.fst =
      if k ∈ m.map Prod.fst then m.map Prod.fst else m.map Prod.fst ++ [k] := by
  induction m with
  | nil => simp [jsSet]
  | cons p rest ih =>
    obtain ⟨k₀, v₀⟩ := p
    by_cases h0 : k₀ = k
    · simp [jsSet, h0]
    · by_cases hk : k ∈ rest.map Prod.fst <;>
        simp [jsSet, h0, Ne.symm h0, hk, ih]

theorem jsSet_of_not_mem {α β : Type} [DecidableEq α] (m : List (α × β)) (k : α) (v : β)
    (h : k ∉ m.map Prod.fst) : jsSet m k v = m ++ [(k, v)] := by
  induction m with
  | nil => simp [jsSet]
  | cons p rest ih =>
    obtain ⟨k₀, v₀⟩ := p
    simp only [List.map_cons, List.mem_cons] at h
    push_neg at h
    have h1 : ¬ k₀ = k := fun hh => h.1 hh.symm
    simp [jsSet, h1, ih h.2]

theorem jsGet_append_right {α β : Type} [DecidableEq α] (m m' : List (α × β)) (k : α)
    (h : jsGet m k = none) : jsGet (m ++ m') k = jsGet m' k := by
  induction m with
  | nil => simp [jsGet]
  | cons p rest ih =>
    obtain ⟨k₀, v₀⟩ := p
    by_cases h0 : k₀ = k <;> simp_all [jsGet]

/-! ## Lemmas about `indexOf` -/

theorem indexOf_eq_none_iff (xs : List NodeId) (x : NodeId) :
    indexOf xs x = none ↔ x ∉ xs := by
  induction xs with
  | nil => simp [indexOf]
  | cons y rest ih =>
    by_cases h : y = x
    · simp [indexOf, h]
    · have h2 : x ≠ y := fun hh => h hh.symm
      simp [indexOf, h, h2, ih]

theorem indexOf_isSome_iff (xs : List NodeId) (x : NodeId) :
    (indexOf xs x).isSome = true ↔ x ∈ xs := by
  cases hk : indexOf xs x with
  | none => simpa using (indexOf_eq_none_iff xs x).mp hk
  | some i =>
    have : ¬ indexOf xs x = none := by simp [hk]
    rw [indexOf_eq_none_iff] at this
    simpa using not_not.mp this

theorem indexOf_spec (xs : List NodeId) (x : NodeId) (i : Nat)
    (h : indexOf xs x = some i) : i < xs.length ∧ xs.get? i = some x := by
  induction xs generalizing i with
  | nil => simp [indexOf] at h
  | cons y rest ih =>
    by_cases hy : y = x
    · simp [indexOf, hy] at h
      subst hy h
      simp
    · simp only [indexOf, hy, if_false, Option.map_eq_some'] at h
      obtain ⟨j, hj, rfl⟩ := h
      obtain ⟨h1, h2⟩ := ih j hj
      constructor
      · simpa using Nat.succ_lt_succ h1
      · simpa using h2

theorem indexOf_of_get? (xs : List NodeId) (x : NodeId) (i : Nat)
    (hnd : xs.Nodup) (h : xs.get? i = some x) : indexOf xs x = some i := by
  induction xs generalizing i with
  | nil => simp at h
  | cons y rest ih =>
    cases i with
    | zero =>
      simp at h
      simp [indexOf, h]
    | succ j =>
      simp only [List.get?_cons_succ] at h
      have hmem : x ∈ rest := List.get?_mem h
      have hy : y ≠ x := by
        rintro rfl
        exact (List.nodup_cons.mp hnd).1 hmem
      simp [indexOf, hy, ih j (List.nodup_cons.mp hnd).2 h]

/-! ## Lemmas about the input-gathering loop -/

theorem accumInput_getD (iv : List (String × ℚ)) (k key : String) (v : ℚ) :
    (jsGet (accumInput iv k v) key).getD 0 =
      (jsGet iv key).getD 0 + if k = key then v else 0 := by
  unfold accumInput
  rw [jsGet_jsSet]
  by_cases h : k = key
  · subst h
    simp
  · simp [h]

theorem accumInput_isSome (iv : List (String × ℚ)) (k key : String) (v : ℚ) :
    (jsGet (accumInput iv k v) key).isSome = true ↔
      k = key ∨ (jsGet iv key).isSome = true := by
  unfold accumInput
  rw [jsGet_jsSet]
  by_cases h : k = key <;> simp [h]

theorem gatherLoop_ok_getD (g : Graph) (node : NodeDefinition)
    (co : List (NodeId × Value)) (bv : List (String × ℚ)) (order : List NodeId)
    (idx : Nat) (edges : List Edge) (iv0 iv : List (String × ℚ))
    (h : gatherLoop g node co bv order idx edges iv0 = .ok iv) (key : String) :
    (jsGet iv key).getD 0 = (jsGet iv0 key).getD 0 +
      ((edges.filter (fun e => matchedPortName node e = some key)).map
        (fun e => resolvedValueAt g co bv order idx e)).sum := by
  induction edges generalizing iv0 with
  | nil =>
    simp only [gatherLoop] at h
    cases h
    simp
  | cons e rest ih =>
    simp only [gatherLoop] at h
    cases hfind : node.inputs.find? (fun port => port.id = e.toPortId) with
    | none =>
      rw [hfind] at h
      have : matchedPortName node e ≠ some key := by
        simp [matchedPortName, hfind]
      simp only [List.filter_cons, this, decide_eq_true_eq, if_neg, decide_False]
      simpa using ih iv0 h
    | some p =>
      rw [hfind] at h
      cases hio : indexOf order e.fromNodeId with
      | none => rw [hio] at h; cases h
      | some srcIdx =>
        rw [hio] at h
        have step := ih _ h
        rw [step, accumInput_getD]
        have hm : matchedPortName node e = some p.name := by
          simp [matchedPortName, hfind]
        by_cases hname : p.name = key
        · subst hname
          simp only [List.filter_cons, hm, decide_True, if_pos, Option.some.injEq,
            decide_eq_true_eq, List.map_cons, List.sum_cons]
          have : resolvedValueAt g co bv order idx e =
              resolveEdge g co bv idx srcIdx e := by
            simp [resolvedValueAt, hio]
          rw [this]
          ring
        · have : matchedPortName node e ≠ some key := by
            rw [hm]
            simpa using hname
          simp only [List.filter_cons, this, if_neg, decide_False]
          simp [hname]

theorem gatherLoop_ok_isSome (g : Graph) (node : NodeDefinition)
    (co : List (NodeId × Value)) (bv : List (String × ℚ)) (order : List NodeId)
    (idx : Nat) (edges : List Edge) (iv0 iv : List (String × ℚ))
    (h : gatherLoop g node co bv order idx edges iv0 = .ok iv) (key : String) :
    (jsGet iv key).isSome = true ↔
      (jsGet iv0 key).isSome = true ∨
        ∃ e ∈ edges, matchedPortName node e = some key := by
  induction edges generalizing iv0 with
  | nil =>
    simp only [gatherLoop] at h
    cases h
    simp
  | cons e rest ih =>
    simp only [gatherLoop] at h
    cases hfind : node.inputs.find? (fun port => port.id = e.toPortId) with
    | none =>
      rw [hfind] at h
      have hm : matchedPortName node e ≠ some key := by
        simp [matchedPortName, hfind]
      rw [ih iv0 h]
      constructor
      · rintro (hh | hh)
        · exact Or.inl hh
        · exact Or.inr (by obtain ⟨e', he', hm'⟩ := hh; exact ⟨e', List.mem_cons_of_mem _ he', hm'⟩)
      · rintro (hh | hh)
        · exact Or.inl hh
        · obtain ⟨e', he', hm'⟩ := hh
          rcases List.mem_cons.mp he' with rfl | he''
          · exact absurd hm' hm
          · exact Or.inr ⟨e', he'', hm'⟩
    | some p =>
      rw [hfind] at h
      cases hio : indexOf order e.fromNodeId with
      | none => rw [hio] at h; cases h
      | some srcIdx =>
        rw [hio] at h
        rw [ih _ h, accumInput_isSome]
        have hm : matchedPortName node e = some p.name := by
          simp [matchedPortName, hfind]
        constructor
        · rintro ((rfl | hh) | hh)
          · exact Or.inr ⟨e, List.mem_cons_self _ _, hm⟩
          · exact Or.inl hh
          · obtain ⟨e', he', hm'⟩ := hh
            exact Or.inr ⟨e', List.mem_cons_of_mem _ he', hm'⟩
        · rintro (hh | hh)
          · exact Or.inl (Or.inr hh)
          · obtain ⟨e', he', hm'⟩ := hh
            rcases List.mem_cons.mp he' with rfl | he''
            · rw [hm] at hm'
              exact Or.inl (Or.inl (by simpa using hm'))
            · exact Or.inr ⟨e', he'', hm'⟩

theorem gatherInputs_ok_getD (nodeId : NodeId) (node : NodeDefinition) (g : Graph)
    (co : List (NodeId × Value)) (bv : List (String × ℚ)) (order : List NodeId)
    (idx : Nat) (iv : List (String × ℚ))
    (hidx : indexOf order nodeId = some idx)
    (h : gatherInputs nodeId node g co bv order = .ok iv) (key : String) :
    (jsGet iv key).getD 0 =
      (((g.edges.filter (fun e => e.toNodeId = nodeId)).filter
          (fun e => matchedPortName node e = some key)).map
        (fun e => resolvedValueAt g co bv order idx e)).sum := by
  unfold gatherInputs at h
  rw [hidx] at h
  simpa [jsGet] using gatherLoop_ok_getD g node co bv order idx _ [] iv h key

theorem gatherInputs_ok_isSome (nodeId : NodeId) (node : NodeDefinition) (g : Graph)
    (co : List (NodeId × Value)) (bv : List (String × ℚ)) (order : List NodeId)
    (idx : Nat) (iv : List (String × ℚ))
    (hidx : indexOf order nodeId = some idx)
    (h : gatherInputs nodeId node g co bv order = .ok iv) (key : String) :
    (jsGet iv key).isSome = true ↔
      ∃ e ∈ g.edges.filter (fun e => e.toNodeId = nodeId),
        matchedPortName node e = some key := by
  unfold gatherInputs at h
  rw [hidx] at h
  have := gatherLoop_ok_isSome g node co bv order idx _ [] iv h key
  simpa [jsGet] using this

/-- When the node's input-port names are pairwise distinct, an edge is
matched to the name of port `p` exactly when `find?` selects `p` itself. -/
theorem matchedPortName_eq_iff (node : NodeDefinition) (p : PortDescriptor)
    (hnames : (node.inputs.map PortDescriptor.name).Nodup) (hp : p ∈ node.inputs)
    (e : Edge) :
    matchedPortName node e = some p.name ↔
      node.inputs.find? (fun q => q.id = e.toPortId) = some p := by
  constructor
  · intro h
    cases hfind : node.inputs.find? (fun q => q.id = e.toPortId) with
    | none => rw [matchedPortName, hfind] at h; cases h
    | some q =>
      have hq : q ∈ node.inputs := List.mem_of_find?_eq_some hfind
      have hname : q.name = p.name := by
        rw [matchedPortName, hfind] at h
        simpa using h
      have : q = p := List.inj_on_of_nodup_map hnames hq hp hname
      rw [this]
  · intro h
    simp [matchedPortName, h]

/-!
## Claim C1

The spec classifies an edge as a back edge when `srcIdx ≥ idx`
(self-loops included) and resolves it from `backEdgeDefaults`.  The code
(`CLDEngine.ts` line 167) tests `sourceNodeIndex > currentNodeIndex`
strictly, so an edge with `srcIdx = idx` (a self-loop) takes the forward
branch; and because the node's own outputs are not yet in the
current-iteration results while its inputs are being gathered, the edge
resolves to 0, not to `backEdgeDefaults["sourceNodeId.sourcePortId"]`.
-/

/--
Claim C1, counterexample.  On the one-node self-loop graph with
`srcIdx = idx = 0` and `backEdgeDefaults = {"A.out" ↦ 5}`, the claim
predicts resolved value 5, but the engine resolves the self-loop edge to
0, both at the single-edge level and in the gathered input record.
-/
theorem cld_C1_counterexample :
    resolveEdge graphA [] [("A.out", 5)] 0 0 edgeAA = 0 ∧
    (jsGet [("A.out", (5 : ℚ))] (edgeAA.fromNodeId ++ "." ++ edgeAA.fromPortId)).getD 0 = 5 ∧
    gatherInputs "A" nodeA graphA [] [("A.out", 5)] ["A"] = .ok [("in", 0)] := by
  refine ⟨rfl, rfl, ?_⟩
  norm_num [gatherInputs, gatherLoop, graphA, nodeA, edgeAA, mkInPort, mkOutPort,
    indexOf, accumInput, resolveEdge, jsGet, jsSet, Value.truthy, Value.getField]

/--
Claim C1 (amended): during input gathering, an edge is treated as a back
edge exactly when `srcIdx > idx` strictly, and then its resolved value is
`backEdgeDefaults["sourceNodeId.sourcePortId"]`, defaulting to 0 when the
key is absent; an edge with `srcIdx = idx` (a self-loop) is treated as a
forward edge, and since the source node's outputs are not yet recorded in
the current-iteration results, it resolves to 0.
-/
theorem cld_C1_theorem (g : Graph) (co : List (NodeId × Value))
    (bv : List (String × ℚ)) (idx : Nat) (e : Edge) :
    (∀ srcIdx : Nat, idx < srcIdx →
        resolveEdge g co bv idx srcIdx e =
          (jsGet bv (e.fromNodeId ++ "." ++ e.fromPortId)).getD 0) ∧
    (jsGet co e.fromNodeId = none → resolveEdge g co bv idx idx e = 0) := by
  constructor
  · intro srcIdx h
    simp [resolveEdge, h]
  · intro h
    simp [resolveEdge, h]

/--
Claim C1, witness: on the self-loop graph, a strict back edge
(`srcIdx = 1 > idx = 0`) reads the default 5, and the self-positioned
edge (`srcIdx = idx = 0`) resolves to 0.
-/
theorem cld_C1_witness :
    resolveEdge graphA [] [("A.out", 5)] 0 1 edgeAA = 5 ∧
    resolveEdge graphA [] [("A.out", 5)] 0 0 edgeAA = 0 := by
  constructor
  · rw [(cld_C1_theorem graphA [] [("A.out", 5)] 0 edgeAA).1 1 (by decide)]
    rfl
  · exact (cld_C1_theorem graphA [] [("A.out", 5)] 0 edgeAA).2 rfl

/--
Claim C7: for every node whose input-port names are pairwise distinct
and every input port of that node fed by at least one edge, the value
delivered for that port in the gathered input record is the sum of the
individually resolved edge values (each resolved by the forward/back-edge
rule with default 0).
-/
theorem cld_C7_theorem (nodeId : NodeId) (node : NodeDefinition) (g : Graph)
    (co : List (NodeId × Value)) (bv : List (String × ℚ)) (order : List NodeId)
    (iv : List (String × ℚ)) (idx : Nat)
    (hnames : (node.inputs.map PortDescriptor.name).Nodup)
    (hidx : indexOf order nodeId = some idx)
    (hok : gatherInputs nodeId node g co bv order = .ok iv)
    (p : PortDescriptor) (hp : p ∈ node.inputs) (es : List Edge)
    (hes : es = (g.edges.filter (fun e => e.toNodeId = nodeId)).filter
        (fun e => node.inputs.find? (fun q => q.id = e.toPortId) = some p))
    (hne : es ≠ []) :
    jsGet iv p.name =
      some ((es.map (fun e => resolvedValueAt g co bv order idx e)).sum) := by
  have hfilter :
      (g.edges.filter (fun e => e.toNodeId = nodeId)).filter
          (fun e => matchedPortName node e = some p.name) = es := by
    rw [hes]
    exact List.filter_congr (fun e _ => by
      simp [matchedPortName_eq_iff node p hnames hp e])
  have hval := gatherInputs_ok_getD nodeId node g co bv order idx iv hidx hok p.name
  rw [hfilter] at hval
  have hsome : (jsGet iv p.name).isSome = true := by
    rw [gatherInputs_ok_isSome nodeId node g co bv order idx iv hidx hok p.name]
    obtain ⟨e0, he0⟩ := List.exists_mem_of_ne_nil es hne
    refine ⟨e0, ?_, ?_⟩
    · rw [hes] at he0
      exact List.mem_of_mem_filter he0
    · rw [← hfilter] at he0
      have hm := (List.mem_filter.mp he0).2
      simpa using hm
  cases hjs : jsGet iv p.name with
  | none => rw [hjs] at hsome; cases hsome
  | some v =>
    rw [hjs] at hval
    simp only [Option.getD_some] at hval
    rw [hval]

/--
Claim C7, witness: in the fan-in graph where two forward edges carry 3
each into port `i` of `Y`, the gathered record binds `i` to their sum 6.
-/
theorem cld_C7_witness :
    gatherInputs "Y" nodeY graphW coW [] ["X", "Y"] = .ok [("i", 6)] ∧
    jsGet [("i", (6 : ℚ))] "i" =
      some ((((graphW.edges.filter (fun e => e.toNodeId = "Y")).filter
          (fun e => nodeY.inputs.find? (fun q => q.id = e.toPortId) =
            some (mkInPort "i"))).map
        (fun e => resolvedValueAt graphW coW [] ["X", "Y"] 1 e)).sum) := by
  have hok : gatherInputs "Y" nodeY graphW coW [] ["X", "Y"] = .ok [("i", 6)] := by
    norm_num +decide [gatherInputs, gatherLoop, graphW, nodeX, nodeY, e1W, e2W, coW,
      mkInPort, mkOutPort, indexOf, accumInput, resolveEdge, jsGet, jsSet, Value.truthy,
      Value.getField]
  refine ⟨hok, ?_⟩
  exact cld_C7_theorem "Y" nodeY graphW coW [] ["X", "Y"] [("i", 6)] 1
    (by decide) (by decide) hok (mkInPort "i") (by decide) _ rfl (by decide)

/--
Claim C10: in a successfully gathered input record (for a node whose
input-port names are pairwise distinct), a key for an input port is
present iff at least one edge of the graph targets that port (the port
existing on the node), and every present key is the name of some input
port — a port with no incoming edge gets no entry at all.
-/
theorem cld_C10_theorem (nodeId : NodeId) (node : NodeDefinition) (g : Graph)
    (co : List (NodeId × Value)) (bv : List (String × ℚ)) (order : List NodeId)
    (iv : List (String × ℚ)) (idx : Nat)
    (hnames : (node.inputs.map PortDescriptor.name).Nodup)
    (hidx : indexOf order nodeId = some idx)
    (hok : gatherInputs nodeId node g co bv order = .ok iv) :
    (∀ p ∈ node.inputs,
        ((jsGet iv p.name).isSome = true ↔
          ∃ e ∈ g.edges, e.toNodeId = nodeId ∧
            node.inputs.find? (fun q => q.id = e.toPortId) = some p)) ∧
    (∀ key, (jsGet iv key).isSome = true → ∃ p ∈ node.inputs, p.name = key) := by
  constructor
  · intro p hp
    rw [gatherInputs_ok_isSome nodeId node g co bv order idx iv hidx hok p.name]
    constructor
    · rintro ⟨e, he, hm⟩
      obtain ⟨he', ht⟩ := List.mem_filter.mp he
      exact ⟨e, he', by simpa using ht,
        (matchedPortName_eq_iff node p hnames hp e).mp hm⟩
    · rintro ⟨e, he, ht, hf⟩
      exact ⟨e, List.mem_filter.mpr ⟨he, by simpa using ht⟩,
        (matchedPortName_eq_iff node p hnames hp e).mpr hf⟩
  · intro key hkey
    rw [gatherInputs_ok_isSome nodeId node g co bv order idx iv hidx hok key] at hkey
    obtain ⟨e, _, hm⟩ := hkey
    cases hfind : node.inputs.find? (fun q => q.id = e.toPortId) with
    | none => rw [matchedPortName, hfind] at hm; cases hm
    | some q =>
      refine ⟨q, List.mem_of_find?_eq_some hfind, ?_⟩
      rw [matchedPortName, hfind] at hm
      simpa using hm

/--
Claim C10, witness: in the fan-in graph the record `{i: 6}` has a key
for port `i` (which two edges target), and its only key names a port.
-/
theorem cld_C10_witness :
    ((jsGet [("i", (6 : ℚ))] "i").isSome = true ↔
      ∃ e ∈ graphW.edges, e.toNodeId = "Y" ∧
        nodeY.inputs.find? (fun q => q.id = e.toPortId) = some (mkInPort "i")) ∧
    (∀ key, (jsGet [("i", (6 : ℚ))] key).isSome = true →
      ∃ p ∈ nodeY.inputs, p.name = key) := by
  have hok : gatherInputs "Y" nodeY graphW coW [] ["X", "Y"] = .ok [("i", 6)] := by
    norm_num +decide [gatherInputs, gatherLoop, graphW, nodeX, nodeY, e1W, e2W, coW,
      mkInPort, mkOutPort, indexOf, accumInput, resolveEdge, jsGet, jsSet, Value.truthy,
      Value.getField]
  have h := cld_C10_theorem "Y" nodeY graphW coW [] ["X", "Y"] [("i", 6)] 1
    (by decide) (by decide) hok
  exact ⟨h.1 (mkInPort "i") (by decide), h.2⟩

/--
Claim C9: the pure embedding of `addNode` leaves the argument graph
untouched by construction; when the id is free it returns a graph with
exactly one more node (and the same edges), and when the id is already
present it fails with the duplicate-id error naming the id.
-/
theorem cld_C9_theorem (g : Graph) (n : NodeDefinition) :
    (n.id ∉ g.nodes.map Prod.fst →
        ∃ g', addNode g n = .ok g' ∧
          g'.nodes.length = g.nodes.length + 1 ∧ g'.edges = g.edges) ∧
    (n.id ∈ g.nodes.map Prod.fst →
        addNode g n =
          .error ("Node with id \"" ++ n.id ++ "\" already exists in graph")) := by
  constructor
  · intro hmem
    have h1 : jsGet g.nodes n.id = none := (jsGet_eq_none_iff _ _).mpr hmem
    refine ⟨⟨g.nodes ++ [(n.id, n)], g.edges⟩, ?_, by simp, rfl⟩
    simp [addNode, jsHas, h1]
  · intro hmem
    have h1 : (jsGet g.nodes n.id).isSome = true := (jsGet_isSome_iff _ _).mpr hmem
    simp [addNode, jsHas, h1]

/--
Claim C9, witness: adding node `A` to the empty graph yields a one-node
graph; adding it again to `graphA` (which already holds id `A`) fails
with the duplicate-id error.
-/
theorem cld_C9_witness :
    (∃ g', addNode createGraph nodeA = .ok g' ∧
        g'.nodes.length = createGraph.nodes.length + 1 ∧
        g'.edges = createGraph.edges) ∧
    addNode graphA nodeA =
      .error ("Node with id \"" ++ nodeA.id ++ "\" already exists in graph") := by
  exact ⟨(cld_C9_theorem createGraph nodeA).1 (by decide),
    (cld_C9_theorem graphA nodeA).2 (by decide)⟩

/-! ## Topology analyzer: basic lemmas -/

theorem getSuccessors_iff (g : Graph) (u w : NodeId) :
    w ∈ getSuccessors g u ↔ ∃ e ∈ g.edges, e.fromNodeId = u ∧ e.toNodeId = w := by
  unfold getSuccessors
  simp only [List.mem_map, List.mem_filter, decide_eq_true_eq]
  constructor
  · rintro ⟨e, ⟨he, hf⟩, rfl⟩
    exact ⟨e, he, hf, rfl⟩
  · rintro ⟨e, he, hf, rfl⟩
    exact ⟨e, ⟨he, hf⟩, rfl⟩

theorem edgeRelIn_iff (g : Graph) (u w : NodeId) :
    edgeRelIn g u w ↔ u ∈ g.nodeIds ∧ w ∈ g.nodeIds ∧ w ∈ getSuccessors g u := by
  rw [edgeRelIn, getSuccessors_iff]

theorem Reach.refl {g : Graph} (x : NodeId) : Reach g x x :=
  Relation.ReflTransGen.refl

theorem Reach.single {g : Graph} {u w : NodeId} (h : edgeRelIn g u w) : Reach g u w :=
  Relation.ReflTransGen.single h

theorem Reach.trans {g : Graph} {u v w : NodeId} (h1 : Reach g u v)
    (h2 : Reach g v w) : Reach g u w :=
  Relation.ReflTransGen.trans h1 h2

theorem tIdx_set_nodeData (c : Int) (stk : List NodeId) (nd : List (NodeId × TData))
    (sccs : List (List NodeId)) (v : NodeId) (d : TData) (x : NodeId) :
    tIdx ⟨c, stk, jsSet nd v d, sccs⟩ x =
      if v = x then d.index else tIdx ⟨c, stk, nd, sccs⟩ x := by
  simp only [tIdx, jsGet_jsSet]
  by_cases h : v = x <;> simp [h]

theorem tLow_set_nodeData (c : Int) (stk : List NodeId) (nd : List (NodeId × TData))
    (sccs : List (List NodeId)) (v : NodeId) (d : TData) (x : NodeId) :
    tLow ⟨c, stk, jsSet nd v d, sccs⟩ x =
      if v = x then d.lowLink else tLow ⟨c, stk, nd, sccs⟩ x := by
  simp only [tLow, jsGet_jsSet]
  by_cases h : v = x <;> simp [h]

theorem tOn_set_nodeData (c : Int) (stk : List NodeId) (nd : List (NodeId × TData))
    (sccs : List (List NodeId)) (v : NodeId) (d : TData) (x : NodeId) :
    tOn ⟨c, stk, jsSet nd v d, sccs⟩ x =
      if v = x then d.onStack else tOn ⟨c, stk, nd, sccs⟩ x := by
  simp only [tOn, jsGet_jsSet]
  by_cases h : v = x <;> simp [h]

theorem markOffStack_get_not_mem (nd : List (NodeId × TData)) (scc : List NodeId)
    (x : NodeId) (hx : x ∉ scc) : jsGet (markOffStack nd scc) x = jsGet nd x := by
  induction scc generalizing nd with
  | nil => rfl
  | cons w rest ih =>
    simp only [List.mem_cons, not_or] at hx
    show jsGet (markOffStack (match jsGet nd w with
      | some d => jsSet nd w { d with onStack := false }
      | none => nd) rest) x = jsGet nd x
    rw [ih _ hx.2]
    cases hw : jsGet nd w with
    | none => rfl
    | some d =>
      rw [jsGet_jsSet]
      have hne : w ≠ x := fun h => hx.1 h.symm
      simp [hne]

theorem markOffStack_get_mem (nd : List (NodeId × TData)) (scc : List NodeId)
    (x : NodeId) (hx : x ∈ scc) :
    jsGet (markOffStack nd scc) x =
      (jsGet nd x).map (fun d => { d with onStack := false }) := by
  induction scc generalizing nd with
  | nil => cases hx
  | cons w rest ih =>
    show jsGet (markOffStack (match jsGet nd w with
      | some d => jsSet nd w { d with onStack := false }
      | none => nd) rest) x =
      (jsGet nd x).map (fun d => { d with onStack := false })
    by_cases hr : x ∈ rest
    · rw [ih _ hr]
      cases hw : jsGet nd w with
      | none => rfl
      | some d =>
        rw [jsGet_jsSet]
        by_cases hwx : w = x
        · subst hwx
          rw [hw]
          simp
        · simp [hwx]
    · have hwx : w = x := by
        rcases List.mem_cons.mp hx with h | h
        · exact h.symm
        · exact absurd h hr
      subst hwx
      rw [markOffStack_get_not_mem _ _ _ hr]
      cases hw : jsGet nd w with
      | none => simp [hw]
      | some d => rw [jsGet_jsSet]; simp [hw]

theorem markOffStack_keys (nd : List (NodeId × TData)) (scc : List NodeId) :
    (markOffStack nd scc).map Prod.fst = nd.map Prod.fst := by
  induction scc generalizing nd with
  | nil => rfl
  | cons w rest ih =>
    show (markOffStack (match jsGet nd w with
      | some d => jsSet nd w { d with onStack := false }
      | none => nd) rest).map Prod.fst = nd.map Prod.fst
    rw [ih]
    cases hw : jsGet nd w with
    | none => rfl
    | some d =>
      rw [jsSet_keys]
      have : w ∈ nd.map Prod.fst := by
        rw [← jsGet_isSome_iff, hw]
        rfl
      simp [this]

theorem jsSet_keys_mem {α β : Type} [DecidableEq α] (m : List (α × β)) (k : α) (v : β)
    (h : k ∈ m.map Prod.fst) : (jsSet m k v).map Prod.fst = m.map Prod.fst := by
  rw [jsSet_keys]
  simp [h]

theorem popToNode_eq (v : NodeId) (s : List NodeId) (h : v ∈ s) :
    ∃ pre post, s = pre ++ v :: post ∧ v ∉ pre ∧
      popToNode v s = (pre ++ [v], post) := by
  induction s with
  | nil => cases h
  | cons w rest ih =>
    by_cases hw : w = v
    · subst hw
      exact ⟨[], rest, rfl, by simp, by simp [popToNode]⟩
    · have hv : v ∈ rest := by
        rcases List.mem_cons.mp h with h' | h'
        · exact absurd h'.symm hw
        · exact h'
      obtain ⟨pre, post, hs, hpre, hpop⟩ := ih hv
      refine ⟨w :: pre, post, by rw [hs]; rfl, ?_, ?_⟩
      · simp only [List.mem_cons, not_or]
        exact ⟨fun hh => hw hh.symm, hpre⟩
      · simp [popToNode, hw, hpop]

/-! ## Descent arguments along low-link witnesses -/

/--
Descent along low-link witnesses: if every stack node at index `≥ C` has
a strictly smaller low-link, and every stack node below `C` reaches `t`,
then every stack node reaches `t`.
-/
theorem descent_reach (g : Graph) (G : List NodeId) (st : TarjanSt)
    (hinv : TInv g G st) (t : NodeId) (C : Int)
    (hlow : ∀ x ∈ st.stack, C ≤ tIdx st x → tLow st x < tIdx st x)
    (hbase : ∀ y ∈ st.stack, tIdx st y < C → Reach g y t) :
    ∀ x ∈ st.stack, Reach g x t := by
  intro x hx
  have hv : tVisited st x := (hinv.visited_iff x).mpr (Or.inl hx)
  have hn : 0 ≤ tIdx st x := (hinv.idx_bounds x hv).1
  generalize hfix : (tIdx st x).toNat = n
  induction n using Nat.strong_induction_on generalizing x with
  | _ n ih =>
    by_cases hc : tIdx st x < C
    · exact hbase x hx hc
    · push_neg at hc
      have hlt := hlow x hx hc
      obtain ⟨y, hy, hidxy, hreach⟩ := hinv.low_wit x hx hlt
      have hvy : tVisited st y := (hinv.visited_iff y).mpr (Or.inl hy)
      have hny : 0 ≤ tIdx st y := (hinv.idx_bounds y hvy).1
      have hlty : tIdx st y < tIdx st x := by rw [hidxy]; exact hlt
      have : (tIdx st y).toNat < n := by
        rw [← hfix]
        omega
      exact Reach.trans hreach (ih _ this y hy hvy hny rfl)

/--
Descent toward a stack node `w`: if every stack node strictly above `w`
has a low-link at least `tIdx st w` and strictly below its own index,
then every stack node at index `≥ tIdx st w` reaches `w`.
-/
theorem descent_to (g : Graph) (G : List NodeId) (st : TarjanSt)
    (hinv : TInv g G st) (w : NodeId) (hw : w ∈ st.stack)
    (hge : ∀ x ∈ st.stack, tIdx st w < tIdx st x → tIdx st w ≤ tLow st x)
    (hlt : ∀ x ∈ st.stack, tIdx st w < tIdx st x → tLow st x < tIdx st x) :
    ∀ x ∈ st.stack, tIdx st w ≤ tIdx st x → Reach g x w := by
  intro x hx hxw
  have hv : tVisited st x := (hinv.visited_iff x).mpr (Or.inl hx)
  have hn : 0 ≤ tIdx st x := (hinv.idx_bounds x hv).1
  generalize hfix : (tIdx st x).toNat = n
  induction n using Nat.strong_induction_on generalizing x with
  | _ n ih =>
    by_cases hc : tIdx st x = tIdx st w
    · have hvw : tVisited st w := (hinv.visited_iff w).mpr (Or.inl hw)
      have : x = w := hinv.idx_inj x w hv hvw (by rw [hc])
      subst this
      exact Reach.refl x
    · have hgt : tIdx st w < tIdx st x := lt_of_le_of_ne hxw (Ne.symm hc)
      have hlt' := hlt x hx hgt
      obtain ⟨y, hy, hidxy, hreach⟩ := hinv.low_wit x hx hlt'
      have hvy : tVisited st y := (hinv.visited_iff y).mpr (Or.inl hy)
      have hny : 0 ≤ tIdx st y := (hinv.idx_bounds y hvy).1
      have hywge : tIdx st w ≤ tIdx st y := by
        rw [hidxy]
        exact hge x hx hgt
      have hlty : tIdx st y < tIdx st x := by rw [hidxy]; exact hlt'
      have : (tIdx st y).toNat < n := by
        rw [← hfix]
        omega
      exact Reach.trans hreach (ih _ this y hy hywge hvy hny rfl)

/-! ## Tarjan invariant preservation -/

theorem pairwise_rel_getLast {α : Type} {R : α → α → Prop} :
    ∀ (l : List α) (b : α), l.Pairwise R → l.getLast? = some b →
      ∀ y ∈ l, y = b ∨ R y b := by
  intro l
  induction l with
  | nil => intro b _ hb; cases hb
  | cons a l ih =>
    intro b hp hb y hy
    cases l with
    | nil =>
      simp only [List.getLast?_singleton, Option.some.injEq] at hb
      rcases List.mem_singleton.mp hy with rfl
      exact Or.inl hb
    | cons a' l' =>
      rw [List.getLast?_cons_cons] at hb
      rcases List.mem_cons.mp hy with rfl | hy'
      · refine Or.inr ?_
        have hmem : b ∈ a' :: l' := List.mem_of_mem_getLast? hb
        exact (List.pairwise_cons.mp hp).1 b hmem
      · exact ih b (List.pairwise_cons.mp hp).2 hb y hy'

/-- Every stack node's low-link is at least the index of the stack bottom. -/
theorem stack_bottom_le (g : Graph) (G : List NodeId) (st : TarjanSt)
    (hinv : TInv g G st) (b : NodeId) (hb : st.stack.getLast? = some b) :
    ∀ x ∈ st.stack, tIdx st b ≤ tLow st x := by
  intro x hx
  have hidxle : ∀ y ∈ st.stack, tIdx st b ≤ tIdx st y := by
    intro y hy
    rcases pairwise_rel_getLast st.stack b hinv.sorted hb y hy with rfl | hr
    · exact le_refl _
    · exact le_of_lt hr
  have hvx : tVisited st x := (hinv.visited_iff x).mpr (Or.inl hx)
  by_cases hlt : tLow st x < tIdx st x
  · obtain ⟨y, hy, hidxy, _⟩ := hinv.low_wit x hx hlt
    rw [← hidxy]
    exact hidxle y hy
  · push_neg at hlt
    have h1 := hinv.low_le x hvx
    have h2 := hidxle x hx
    omega

/-- Pushing an unvisited node establishes the successor-loop invariant. -/
theorem midinv_push (g : Graph) (G : List NodeId) (v : NodeId) (st : TarjanSt)
    (hinv : TInv g G st) (hvmem : v ∈ g.nodeIds) (hunv : ¬ tVisited st v)
    (hreach : ∀ u ∈ st.stack, Reach g u v) :
    MidInv g G v ⟨st.counter + 1, v :: st.stack,
      jsSet st.nodeData v ⟨st.counter, st.counter, true⟩, st.sccs⟩ := by
  obtain ⟨c, stk, nd, sc⟩ := st
  simp only at hreach hunv hvmem ⊢
  have hc0 : (0 : Int) ≤ c := hinv.counter_nonneg
  have hvkeys : v ∈ nd.map Prod.fst := by rw [hinv.keys]; exact hvmem
  set st1 : TarjanSt := ⟨c + 1, v :: stk, jsSet nd v ⟨c, c, true⟩, sc⟩ with hst1
  have hcounter : st1.counter = c + 1 := rfl
  have hstack : st1.stack = v :: stk := rfl
  have hsccs : st1.sccs = sc := rfl
  have hidx1v : tIdx st1 v = c := by
    rw [hst1, tIdx_set_nodeData, if_pos rfl]
  have hlow1v : tLow st1 v = c := by
    rw [hst1, tLow_set_nodeData, if_pos rfl]
  have hon1v : tOn st1 v = true := by
    rw [hst1, tOn_set_nodeData, if_pos rfl]
  have hidx1 : ∀ x, x ≠ v → tIdx st1 x = tIdx ⟨c, stk, nd, sc⟩ x := by
    intro x hx
    rw [hst1, tIdx_set_nodeData, if_neg (Ne.symm hx)]
    rfl
  have hlow1 : ∀ x, x ≠ v → tLow st1 x = tLow ⟨c, stk, nd, sc⟩ x := by
    intro x hx
    rw [hst1, tLow_set_nodeData, if_neg (Ne.symm hx)]
    rfl
  have hon1 : ∀ x, x ≠ v → tOn st1 x = tOn ⟨c, stk, nd, sc⟩ x := by
    intro x hx
    rw [hst1, tOn_set_nodeData, if_neg (Ne.symm hx)]
    rfl
  have hvis1v : tVisited st1 v := by
    unfold tVisited
    rw [hidx1v]
    omega
  have hvis1 : ∀ x, x ≠ v → (tVisited st1 x ↔ tVisited ⟨c, stk, nd, sc⟩ x) := by
    intro x hx
    unfold tVisited
    rw [hidx1 x hx]
  have hvnstk : v ∉ stk := fun hmem => hunv ((hinv.visited_iff v).mpr (Or.inl hmem))
  have hvnflat : v ∉ sc.flatten :=
    fun hmem => hunv ((hinv.visited_iff v).mpr (Or.inr hmem))
  have hstkne : ∀ x ∈ stk, x ≠ v := fun x hx hh => hvnstk (hh ▸ hx)
  have hflatne : ∀ x ∈ sc.flatten, x ≠ v := fun x hx hh => hvnflat (hh ▸ hx)
  have holdbound : ∀ x, tVisited ⟨c, stk, nd, sc⟩ x →
      0 ≤ tIdx ⟨c, stk, nd, sc⟩ x ∧ tIdx ⟨c, stk, nd, sc⟩ x < c :=
    fun x hx => hinv.idx_bounds x hx
  refine ⟨⟨?_, ?_, ?_, ?_, ?_, ?_, ?_, ?_, ?_, ?_, ?_, ?_, ?_, ?_, ?_, ?_, ?_, ?_,
    ?_, ?_, ?_, ?_, ?_, ?_⟩, ?_, ?_⟩
  · show (jsSet nd v _).map Prod.fst = g.nodeIds
    rw [jsSet_keys_mem nd v _ hvkeys]
    exact hinv.keys
  · intro x hx
    rcases List.mem_cons.mp hx with rfl | hx'
    · exact hvmem
    · exact hinv.stack_keys x hx'
  · exact hinv.flat_keys
  · intro x
    by_cases hx : x = v
    · subst hx
      rw [hstack, hsccs]
      constructor
      · intro _
        exact Or.inl (List.mem_cons_self _ _)
      · intro _
        exact hvis1v
    · rw [hvis1 x hx, hinv.visited_iff x, hstack, hsccs]
      constructor
      · rintro (h | h)
        · exact Or.inl (List.mem_cons_of_mem _ h)
        · exact Or.inr h
      · rintro (h | h)
        · rcases List.mem_cons.mp h with rfl | h'
          · exact absurd rfl hx
          · exact Or.inl h'
        · exact Or.inr h
  · intro x
    by_cases hx : x = v
    · subst hx
      rw [hon1v, hstack]
      simp
    · rw [hon1 x hx, hinv.onStack_iff x, hstack]
      simp [hx]
  · rw [hstack]
    exact List.nodup_cons.mpr ⟨hvnstk, hinv.stack_nodup⟩
  · rw [hsccs]
    exact hinv.flat_nodup
  · intro x hx
    rw [hstack] at hx
    rw [hsccs]
    rcases List.mem_cons.mp hx with rfl | hx'
    · exact hvnflat
    · exact hinv.disj x hx'
  · rw [hstack]
    refine List.pairwise_cons.mpr ⟨?_, ?_⟩
    · intro b hb
      have hbne : b ≠ v := hstkne b hb
      rw [hidx1 b hbne, hidx1v]
      have hvb : tVisited ⟨c, stk, nd, sc⟩ b := (hinv.visited_iff b).mpr (Or.inl hb)
      exact (holdbound b hvb).2
    · refine List.Pairwise.imp_of_mem ?_ hinv.sorted
      intro a b ha hb hlt
      rw [hidx1 a (hstkne a ha), hidx1 b (hstkne b hb)]
      exact hlt
  · intro x hx
    rw [hcounter]
    by_cases hxv : x = v
    · subst hxv
      rw [hidx1v]
      omega
    · rw [hidx1 x hxv]
      have := holdbound x ((hvis1 x hxv).mp hx)
      omega
  · intro x hx
    by_cases hxv : x = v
    · subst hxv
      rw [hidx1v, hlow1v]
    · rw [hidx1 x hxv, hlow1 x hxv]
      exact hinv.low_le x ((hvis1 x hxv).mp hx)
  · intro x hx
    by_cases hxv : x = v
    · subst hxv
      rw [hlow1v]
      exact hc0
    · rw [hlow1 x hxv]
      exact hinv.low_nonneg x ((hvis1 x hxv).mp hx)
  · intro x y hx hy hxy
    by_cases hxv : x = v <;> by_cases hyv : y = v
    · rw [hxv, hyv]
    · exfalso
      rw [hxv, hidx1v, hidx1 y hyv] at hxy
      have := holdbound y ((hvis1 y hyv).mp hy)
      omega
    · exfalso
      rw [hyv, hidx1v, hidx1 x hxv] at hxy
      have := holdbound x ((hvis1 x hxv).mp hx)
      omega
    · rw [hidx1 x hxv, hidx1 y hyv] at hxy
      exact hinv.idx_inj x y ((hvis1 x hxv).mp hx) ((hvis1 y hyv).mp hy) hxy
  · intro x hx hlt
    rw [hstack] at hx
    rcases List.mem_cons.mp hx with rfl | hx'
    · rw [hlow1v, hidx1v] at hlt
      omega
    · have hxv : x ≠ v := hstkne x hx'
      rw [hlow1 x hxv, hidx1 x hxv] at hlt
      obtain ⟨y, hy, hidxy, hr⟩ := hinv.low_wit x hx' hlt
      refine ⟨y, by rw [hstack]; exact List.mem_cons_of_mem _ hy, ?_, hr⟩
      rw [hidx1 y (hstkne y hy), hlow1 x hxv]
      exact hidxy
  · intro u hu x hx hle
    rw [hstack] at hu hx
    rcases List.mem_cons.mp hu with rfl | hu' <;> rcases List.mem_cons.mp hx with rfl | hx'
    · exact Reach.refl _
    · exfalso
      rw [hidx1v, hidx1 x (hstkne x hx')] at hle
      have := holdbound x ((hinv.visited_iff x).mpr (Or.inl hx'))
      omega
    · exact hreach u hu'
    · rw [hidx1 u (hstkne u hu'), hidx1 x (hstkne x hx')] at hle
      exact hinv.stack_reach u hu' x hx' hle
  · intro u hu hnG w hw
    have hunev : u ≠ v := fun hh => hnG (hh ▸ List.mem_cons_self v G)
    have hu' : tVisited ⟨c, stk, nd, sc⟩ u := (hvis1 u hunev).mp hu
    have hnG' : u ∉ G := fun hh => hnG (List.mem_cons_of_mem _ hh)
    obtain ⟨hwv, hrest⟩ := hinv.fin_edges u hu' hnG' w hw
    by_cases hwveq : w = v
    · exact absurd (hwveq ▸ hwv) hunv
    · constructor
      · exact (hvis1 w hwveq).mpr hwv
      · rw [hsccs]
        rcases hrest with h | h
        · exact Or.inl h
        · refine Or.inr ?_
          rw [hlow1 u hunev, hidx1 w hwveq]
          exact h
  · intro x hx hnG
    rw [hstack] at hx
    rcases List.mem_cons.mp hx with rfl | hx'
    · exact absurd (List.mem_cons_self x G) hnG
    · have hxv : x ≠ v := hstkne x hx'
      have hnG' : x ∉ G := fun hh => hnG (List.mem_cons_of_mem _ hh)
      rw [hlow1 x hxv, hidx1 x hxv]
      exact hinv.fin_low x hx' hnG'
  · rw [hsccs]
    exact hinv.sccs_ne
  · rw [hsccs]
    exact hinv.sccs_mutual
  · rw [hsccs]
    exact hinv.sccs_max
  · rw [hsccs]
    exact hinv.rank
  · intro x hx
    rw [hstack]
    rcases List.mem_cons.mp hx with rfl | hx'
    · exact List.mem_cons_self _ _
    · exact List.mem_cons_of_mem _ (hinv.g_stack x hx')
  · intro b hb
    rw [hstack] at hb
    cases hstk : stk with
    | nil =>
      subst hstk
      simp only [List.getLast?_singleton, Option.some.injEq] at hb
      rw [← hb]
      exact List.mem_cons_self _ _
    | cons a l =>
      subst hstk
      rw [List.getLast?_cons_cons] at hb
      exact List.mem_cons_of_mem _ (hinv.g_last b hb)
  · rw [hcounter]
    omega
  · rw [hstack]
    exact List.mem_cons_self _ _
  · intro u hu
    rw [hstack] at hu
    rcases List.mem_cons.mp hu with rfl | hu'
    · exact Reach.refl u
    · exact hreach u hu'

/-- Lowering the active node's low-link to `min` with a witnessed value
preserves the successor-loop invariant. -/
theorem midinv_lower (g : Graph) (G : List NodeId) (v : NodeId) (st : TarjanSt)
    (hmid : MidInv g G v st) (dv : TData) (hdv : jsGet st.nodeData v = some dv)
    (m : Int) (hm : 0 ≤ m)
    (hwit : m < dv.lowLink → ∃ y ∈ st.stack, tIdx st y = m ∧ Reach g v y) :
    MidInv g G v ⟨st.counter, st.stack,
      jsSet st.nodeData v { dv with lowLink := min dv.lowLink m }, st.sccs⟩ := by
  obtain ⟨c, stk, nd, sc⟩ := st
  simp only at hdv hwit ⊢
  have hinv := hmid.inv
  have hvstk : v ∈ stk := hmid.v_stack
  have hvkeys : v ∈ nd.map Prod.fst := by
    rw [← jsGet_isSome_iff, hdv]
    rfl
  set st1 : TarjanSt := ⟨c, stk, jsSet nd v { dv with lowLink := min dv.lowLink m }, sc⟩
    with hst1
  have hidxoldv : tIdx ⟨c, stk, nd, sc⟩ v = dv.index := by
    unfold tIdx
    rw [hdv]
  have hlowoldv : tLow ⟨c, stk, nd, sc⟩ v = dv.lowLink := by
    unfold tLow
    rw [hdv]
  have hidx1 : ∀ x, tIdx st1 x = tIdx ⟨c, stk, nd, sc⟩ x := by
    intro x
    rw [hst1, tIdx_set_nodeData]
    by_cases h : v = x
    · subst h
      rw [if_pos rfl, hidxoldv]
    · rw [if_neg h]
  have hlow1 : ∀ x, x ≠ v → tLow st1 x = tLow ⟨c, stk, nd, sc⟩ x := by
    intro x hx
    rw [hst1, tLow_set_nodeData, if_neg (Ne.symm hx)]
  have hlow1v : tLow st1 v = min dv.lowLink m := by
    rw [hst1, tLow_set_nodeData, if_pos rfl]
  have hon1 : ∀ x, tOn st1 x = tOn ⟨c, stk, nd, sc⟩ x := by
    intro x
    rw [hst1, tOn_set_nodeData]
    by_cases h : v = x
    · subst h
      rw [if_pos rfl]
      unfold tOn
      rw [hdv]
    · rw [if_neg h]
  have hvis1 : ∀ x, tVisited st1 x ↔ tVisited ⟨c, stk, nd, sc⟩ x := by
    intro x
    unfold tVisited
    rw [hidx1 x]
  have hvv : tVisited ⟨c, stk, nd, sc⟩ v := (hinv.visited_iff v).mpr (Or.inl hvstk)
  refine ⟨⟨?_, ?_, ?_, ?_, ?_, ?_, ?_, ?_, ?_, ?_, ?_, ?_, ?_, ?_, ?_, ?_, ?_, ?_,
    ?_, ?_, ?_, ?_, ?_, ?_⟩, ?_, ?_⟩
  · show (jsSet nd v _).map Prod.fst = g.nodeIds
    rw [jsSet_keys_mem nd v _ hvkeys]
    exact hinv.keys
  · exact hinv.stack_keys
  · exact hinv.flat_keys
  · intro x
    rw [hvis1 x]
    exact hinv.visited_iff x
  · intro x
    rw [hon1 x]
    exact hinv.onStack_iff x
  · exact hinv.stack_nodup
  · exact hinv.flat_nodup
  · exact hinv.disj
  · refine List.Pairwise.imp_of_mem ?_ hinv.sorted
    intro a b _ _ hlt
    rw [hidx1 a, hidx1 b]
    exact hlt
  · intro x hx
    rw [hidx1 x]
    exact hinv.idx_bounds x ((hvis1 x).mp hx)
  · intro x hx
    by_cases hxv : x = v
    · subst hxv
      rw [hidx1 x, hlow1v, hidxoldv]
      have := hinv.low_le x hvv
      rw [hlowoldv, hidxoldv] at this
      omega
    · rw [hidx1 x, hlow1 x hxv]
      exact hinv.low_le x ((hvis1 x).mp hx)
  · intro x hx
    by_cases hxv : x = v
    · subst hxv
      rw [hlow1v]
      have := hinv.low_nonneg x hvv
      rw [hlowoldv] at this
      omega
    · rw [hlow1 x hxv]
      exact hinv.low_nonneg x ((hvis1 x).mp hx)
  · intro x y hx hy hxy
    rw [hidx1 x, hidx1 y] at hxy
    exact hinv.idx_inj x y ((hvis1 x).mp hx) ((hvis1 y).mp hy) hxy
  · intro x hx hlt
    by_cases hxv : x = v
    · subst hxv
      rw [hlow1v, hidx1 x, hidxoldv] at hlt
      rw [hlow1v]
      by_cases hmlt : m < dv.lowLink
      · obtain ⟨y, hy, hidxy, hr⟩ := hwit hmlt
        refine ⟨y, hy, ?_, hr⟩
        rw [hidx1 y, hidxy]
        omega
      · push_neg at hmlt
        have hmin : min dv.lowLink m = dv.lowLink := min_eq_left hmlt
        rw [hmin] at hlt ⊢
        have hlt' : tLow ⟨c, stk, nd, sc⟩ x < tIdx ⟨c, stk, nd, sc⟩ x := by
          rw [hlowoldv, hidxoldv]
          exact hlt
        obtain ⟨y, hy, hidxy, hr⟩ := hinv.low_wit x hx hlt'
        refine ⟨y, hy, ?_, hr⟩
        rw [hidx1 y, hidxy, hlowoldv]
    · rw [hlow1 x hxv, hidx1 x] at hlt
      obtain ⟨y, hy, hidxy, hr⟩ := hinv.low_wit x hx hlt
      refine ⟨y, hy, ?_, hr⟩
      rw [hidx1 y, hlow1 x hxv]
      exact hidxy
  · intro u hu x hx hle
    rw [hidx1 u, hidx1 x] at hle
    exact hinv.stack_reach u hu x hx hle
  · intro u hu hnG w hw
    have hunev : u ≠ v := fun hh => hnG (hh ▸ List.mem_cons_self v G)
    obtain ⟨hwv, hrest⟩ := hinv.fin_edges u ((hvis1 u).mp hu) hnG w hw
    refine ⟨(hvis1 w).mpr hwv, ?_⟩
    rcases hrest with h | h
    · exact Or.inl h
    · refine Or.inr ?_
      rw [hlow1 u hunev, hidx1 w]
      exact h
  · intro x hx hnG
    have hxv : x ≠ v := fun hh => hnG (hh ▸ List.mem_cons_self v G)
    rw [hlow1 x hxv, hidx1 x]
    exact hinv.fin_low x hx hnG
  · exact hinv.sccs_ne
  · exact hinv.sccs_mutual
  · exact hinv.sccs_max
  · exact hinv.rank
  · exact hinv.g_stack
  · exact hinv.g_last
  · exact hinv.counter_nonneg
  · exact hmid.v_stack
  · exact hmid.reach_v

theorem tIdx_of_get (st : TarjanSt) (x : NodeId) (d : TData)
    (h : jsGet st.nodeData x = some d) : tIdx st x = d.index := by
  unfold tIdx
  rw [h]

theorem tLow_of_get (st : TarjanSt) (x : NodeId) (d : TData)
    (h : jsGet st.nodeData x = some d) : tLow st x = d.lowLink := by
  unfold tLow
  rw [h]

theorem tOn_of_get (st : TarjanSt) (x : NodeId) (d : TData)
    (h : jsGet st.nodeData x = some d) : tOn st x = d.onStack := by
  unfold tOn
  rw [h]

theorem tIdx_congr (st st' : TarjanSt) (x : NodeId)
    (h : jsGet st'.nodeData x = jsGet st.nodeData x) : tIdx st' x = tIdx st x := by
  unfold tIdx
  rw [h]

theorem tLow_congr (st st' : TarjanSt) (x : NodeId)
    (h : jsGet st'.nodeData x = jsGet st.nodeData x) : tLow st' x = tLow st x := by
  unfold tLow
  rw [h]

theorem tOn_congr (st st' : TarjanSt) (x : NodeId)
    (h : jsGet st'.nodeData x = jsGet st.nodeData x) : tOn st' x = tOn st x := by
  unfold tOn
  rw [h]

theorem tVisited_congr (st st' : TarjanSt) (x : NodeId)
    (h : jsGet st'.nodeData x = jsGet st.nodeData x) :
    tVisited st' x ↔ tVisited st x := by
  unfold tVisited
  rw [tIdx_congr st st' x h]

theorem get_of_mem_keys {α β : Type} [DecidableEq α] (m : List (α × β)) (k : α)
    (h : k ∈ m.map Prod.fst) : ∃ v, jsGet m k = some v := by
  have := (jsGet_isSome_iff m k).mpr h
  cases hg : jsGet m k with
  | none => rw [hg] at this; cases this
  | some v => exact ⟨v, rfl⟩

theorem TInv.get_some {g : Graph} {G : List NodeId} {st : TarjanSt}
    (hinv : TInv g G st) {x : NodeId} (hx : x ∈ g.nodeIds) :
    ∃ d, jsGet st.nodeData x = some d :=
  get_of_mem_keys st.nodeData x (by rw [hinv.keys]; exact hx)

/-- The master lemma for the successor loop of `strongConnect`,
parametric in the behaviour of the recursive call. -/
theorem visitSuccessors_sound (g : Graph) (recur : NodeId → TarjanSt → Option TarjanSt)
    (hrec : ∀ (G : List NodeId) (v : NodeId) (st st' : TarjanSt), TInv g G st →
      v ∈ g.nodeIds → ¬ tVisited st v → (∀ u ∈ st.stack, Reach g u v) →
      recur v st = some st' → SCPost g G v st st') :
    ∀ (succs : List NodeId) (G : List NodeId) (v : NodeId) (st st' : TarjanSt),
      MidInv g G v st → (∀ w ∈ succs, w ∈ getSuccessors g v) →
      visitSuccessors recur v succs st = some st' → VPost g G v succs st st' := by
  intro succs
  induction succs with
  | nil =>
    intro G v st st' hmid _ hrun
    simp only [visitSuccessors, Option.some.injEq] at hrun
    subst hrun
    refine ⟨hmid, fun x hx => hx, le_refl _, fun x _ _ => rfl, rfl, le_refl _,
      fun x hx => Or.inl hx, fun x hx hnx => absurd hx hnx,
      ⟨[], by simp, by simp⟩, ⟨[], by simp, by simp⟩, by simp⟩
  | cons w rest ih =>
    intro G v st st' hmid hsub hrun
    have hvmem : v ∈ g.nodeIds := hmid.inv.stack_keys v hmid.v_stack
    obtain ⟨dv0, hdv0⟩ := hmid.inv.get_some hvmem
    have hvvis : tVisited st v :=
      (hmid.inv.visited_iff v).mpr (Or.inl hmid.v_stack)
    have hrel : w ∈ g.nodeIds → edgeRelIn g v w := by
      intro hwmem
      exact (edgeRelIn_iff g v w).mpr ⟨hvmem, hwmem, hsub w (List.mem_cons_self _ _)⟩
    have hsubr : ∀ x ∈ rest, x ∈ getSuccessors g v :=
      fun x hx => hsub x (List.mem_cons_of_mem _ hx)
    simp only [visitSuccessors] at hrun
    cases hdw : jsGet st.nodeData w with
    | none =>
      simp only [hdw] at hrun
      have hwnk : w ∉ g.nodeIds := by
        intro hk
        obtain ⟨d, hd⟩ := hmid.inv.get_some hk
        rw [hd] at hdw
        cases hdw
      have hpost := ih G v st st' hmid hsubr hrun
      refine ⟨hpost.mid, hpost.visited_mono, hpost.counter_mono, hpost.frame,
        hpost.v_idx_frame, hpost.v_low_mono, hpost.new_reach, hpost.new_idx,
        hpost.sccs_mono, hpost.stack_ext, ?_⟩
      intro w' hw' hwk
      rcases List.mem_cons.mp hw' with rfl | hw''
      · exact absurd hwk hwnk
      · exact hpost.succ_facts w' hw'' hwk
    | some dw =>
      simp only [hdw] at hrun
      have hwmem : w ∈ g.nodeIds := by
        have hsome : (jsGet st.nodeData w).isSome = true := by rw [hdw]; rfl
        rw [jsGet_isSome_iff, hmid.inv.keys] at hsome
        exact hsome
      have hwidx : tIdx st w = dw.index := tIdx_of_get st w dw hdw
      have hwlow : tLow st w = dw.lowLink := tLow_of_get st w dw hdw
      have hwon : tOn st w = dw.onStack := tOn_of_get st w dw hdw
      by_cases hunv : dw.index = -1
      · rw [if_pos hunv] at hrun
        cases hrc : recur w st with
        | none =>
          rw [hrc] at hrun
          exact Option.noConfusion hrun
        | some stc =>
          simp only [hrc] at hrun
          have hwunv : ¬ tVisited st w := by
            unfold tVisited
            rw [hwidx, hunv]
            simp
          have hreachw : ∀ u ∈ st.stack, Reach g u w := by
            intro u hu
            exact Reach.trans (hmid.reach_v u hu) (Reach.single (hrel hwmem))
          have hpostc : SCPost g (v :: G) w st stc :=
            hrec (v :: G) w st stc hmid.inv hwmem hwunv hreachw hrc
          have hframev : jsGet stc.nodeData v = jsGet st.nodeData v :=
            hpostc.frame v hvvis
          have hdv : jsGet stc.nodeData v = some dv0 := by rw [hframev, hdv0]
          obtain ⟨dw', hdw'⟩ := hpostc.inv.get_some hwmem
          simp only [hdv, hdw'] at hrun
          have hvnw : v ≠ w := fun hh => hwunv (hh ▸ hvvis)
          have hidxstcv : tIdx stc v = tIdx st v := tIdx_congr st stc v hframev
          have hlowstcv : tLow stc v = tLow st v := tLow_congr st stc v hframev
          have hidxvlt : tIdx st v < st.counter := (hmid.inv.idx_bounds v hvvis).2
          have hidxvnn : 0 ≤ tIdx st v := (hmid.inv.idx_bounds v hvvis).1
          have hmidc : MidInv g G v stc := by
            refine ⟨hpostc.inv, ?_, ?_⟩
            · rcases hpostc.fate with ⟨hs, _, _⟩ | ⟨kept, hs, _, _, _⟩
              · rw [hs]; exact hmid.v_stack
              · rw [hs]; exact List.mem_append_right _ hmid.v_stack
            · refine descent_reach g (v :: G) stc hpostc.inv v st.counter ?_ ?_
              · intro x hx hge
                refine hpostc.inv.fin_low x hx ?_
                intro hxG
                rcases List.mem_cons.mp hxG with rfl | hxG'
                · rw [hidxstcv] at hge
                  omega
                · have hxstk : x ∈ st.stack :=
                    hmid.inv.g_stack x (List.mem_cons_of_mem _ hxG')
                  have hxvis : tVisited st x := (hmid.inv.visited_iff x).mpr (Or.inl hxstk)
                  have hb := (hmid.inv.idx_bounds x hxvis).2
                  rw [tIdx_congr st stc x (hpostc.frame x hxvis)] at hge
                  omega
              · intro y hy hlt
                have hyvis : tVisited stc y := (hpostc.inv.visited_iff y).mpr (Or.inl hy)
                by_cases hyold : tVisited st y
                · have hfr := hpostc.frame y hyold
                  have hyon : tOn st y = true := by
                    rw [← tOn_congr st stc y hfr]
                    exact (hpostc.inv.onStack_iff y).mpr hy
                  exact hmid.reach_v y ((hmid.inv.onStack_iff y).mp hyon)
                · have := hpostc.new_idx y hyvis hyold
                  omega
          have hlowcv : tLow stc v = dv0.lowLink := tLow_of_get stc v dv0 hdv
          have hlowcw : tLow stc w = dw'.lowLink := tLow_of_get stc w dw' hdw'
          have hidxcw : tIdx stc w = dw'.index := tIdx_of_get stc w dw' hdw'
          have hwvisc : tVisited stc w := hpostc.v_visited
          set st2 : TarjanSt := ⟨stc.counter, stc.stack,
            jsSet stc.nodeData v { dv0 with lowLink := min dv0.lowLink dw'.lowLink },
            stc.sccs⟩ with hst2
          have hmid2 : MidInv g G v st2 := by
            refine midinv_lower g G v stc hmidc dv0 hdv dw'.lowLink ?_ ?_
            · have hnn := hpostc.inv.low_nonneg w hwvisc
              rw [hlowcw] at hnn
              exact hnn
            · intro hlt
              rcases hpostc.fate with ⟨_, _, hloweq⟩ | ⟨kept, hs, hwk, hwlt, _⟩
              · exfalso
                rw [hlowcw, hpostc.v_idx] at hloweq
                rw [hloweq] at hlt
                rw [hlowcv] at hlowstcv
                have hle := hmid.inv.low_le v hvvis
                omega
              · have hlt' : tLow stc w < tIdx stc w := hwlt
                have hwstc : w ∈ stc.stack := by
                  rw [hs]
                  exact List.mem_append_left _ hwk
                obtain ⟨y, hy, hidxy, hr⟩ := hpostc.inv.low_wit w hwstc hlt'
                refine ⟨y, hy, ?_, Reach.trans (Reach.single (hrel hwmem)) hr⟩
                rw [hidxy, hlowcw]
          -- transfer facts st2 vs stc
          have h2counter : st2.counter = stc.counter := rfl
          have h2stack : st2.stack = stc.stack := rfl
          have h2sccs : st2.sccs = stc.sccs := rfl
          have h2get : ∀ x, x ≠ v → jsGet st2.nodeData x = jsGet stc.nodeData x := by
            intro x hx
            show jsGet (jsSet stc.nodeData v _) x = _
            rw [jsGet_jsSet, if_neg (Ne.symm hx)]
          have h2idx : ∀ x, tIdx st2 x = tIdx stc x := by
            intro x
            by_cases hx : x = v
            · subst hx
              have : tIdx st2 x = dv0.index := by
                unfold tIdx
                show (match jsGet (jsSet stc.nodeData x _) x with
                  | some d => d.index
                  | none => -1) = dv0.index
                rw [jsGet_jsSet, if_pos rfl]
              rw [this, tIdx_of_get stc x dv0 hdv]
            · exact tIdx_congr stc st2 x (h2get x hx)
          have h2low : ∀ x, x ≠ v → tLow st2 x = tLow stc x :=
            fun x hx => tLow_congr stc st2 x (h2get x hx)
          have h2lowv : tLow st2 v = min dv0.lowLink dw'.lowLink := by
            unfold tLow
            show (match jsGet (jsSet stc.nodeData v _) v with
              | some d => d.lowLink
              | none => -1) = _
            rw [jsGet_jsSet, if_pos rfl]
          have h2vis : ∀ x, tVisited st2 x ↔ tVisited stc x := by
            intro x
            unfold tVisited
            rw [h2idx x]
          have hpost2 := ih G v st2 st' hmid2 hsubr hrun
          have hvisc2 : ∀ x, tVisited st x → tVisited st2 x :=
            fun x hx => (h2vis x).mpr (hpostc.visited_mono x hx)
          have hframe2 : ∀ x, tVisited st x → x ≠ v →
              jsGet st'.nodeData x = jsGet st.nodeData x := by
            intro x hx hxv
            rw [hpost2.frame x (hvisc2 x hx) hxv, h2get x hxv, hpostc.frame x hx]
          refine ⟨hpost2.mid, ?_, ?_, hframe2, ?_, ?_, ?_, ?_, ?_, ?_, ?_⟩
          · exact fun x hx => hpost2.visited_mono x (hvisc2 x hx)
          · have h1 : st.counter ≤ stc.counter := le_of_lt hpostc.counter_gt
            have h2 : st2.counter ≤ st'.counter := hpost2.counter_mono
            rw [h2counter] at h2
            omega
          · rw [hpost2.v_idx_frame, h2idx v, hidxstcv]
          · have h1 := hpost2.v_low_mono
            rw [h2lowv] at h1
            have h2 : min dv0.lowLink dw'.lowLink ≤ dv0.lowLink := min_le_left _ _
            have h3 : dv0.lowLink = tLow st v := by rw [← hlowcv, hlowstcv]
            omega
          · intro x hx
            rcases hpost2.new_reach x hx with h | h
            · rcases hpostc.new_reach x ((h2vis x).mp h) with h' | h'
              · exact Or.inl h'
              · exact Or.inr (Reach.trans (Reach.single (hrel hwmem)) h')
            · exact Or.inr h
          · intro x hx hnx
            by_cases h2x : tVisited st2 x
            · have hge := hpostc.new_idx x ((h2vis x).mp h2x) hnx
              have hxv : x ≠ v := fun hh => hnx (hh ▸ hvvis)
              have : tIdx st' x = tIdx stc x := by
                rw [tIdx_congr st2 st' x (hpost2.frame x h2x hxv), h2idx x]
              omega
            · have hge := hpost2.new_idx x hx h2x
              rw [h2counter] at hge
              have := hpostc.counter_gt
              omega
          · obtain ⟨t1, ht1, ht1m⟩ := hpostc.sccs_mono
            obtain ⟨t2, ht2, ht2m⟩ := hpost2.sccs_mono
            rw [h2sccs, ht1] at ht2
            refine ⟨t1 ++ t2, by rw [ht2, List.append_assoc], ?_⟩
            intro l hl x hx
            rcases List.mem_append.mp hl with h | h
            · exact ht1m l h x hx
            · intro hvx
              exact ht2m l h x hx (hvisc2 x hvx)
          · obtain ⟨new2, hn2, hn2f⟩ := hpost2.stack_ext
            rw [h2stack] at hn2
            have hlowv' : tLow st' v ≤ min dv0.lowLink dw'.lowLink := by
              have := hpost2.v_low_mono
              rw [h2lowv] at this
              exact this
            rcases hpostc.fate with ⟨hs, _, _⟩ | ⟨kept, hs, hwk, hwlt, hkept⟩
            · refine ⟨new2, by rw [hn2, hs], ?_⟩
              intro x hx
              obtain ⟨hnv, hlo, hci⟩ := hn2f x hx
              refine ⟨?_, hlo, ?_⟩
              · intro hvx
                exact hnv (hvisc2 x hvx)
              · rw [h2counter] at hci
                have := hpostc.counter_gt
                omega
            · refine ⟨new2 ++ kept, by rw [hn2, hs, List.append_assoc], ?_⟩
              intro x hx
              rcases List.mem_append.mp hx with hx' | hx'
              · obtain ⟨hnv, hlo, hci⟩ := hn2f x hx'
                refine ⟨fun hvx => hnv (hvisc2 x hvx), hlo, ?_⟩
                rw [h2counter] at hci
                have := hpostc.counter_gt
                omega
              · obtain ⟨hnv, hlo, hci⟩ := hkept x hx'
                have hxv : x ≠ v := fun hh => hnv (hh ▸ hvvis)
                have hxstc : x ∈ stc.stack := by
                  rw [hs]
                  exact List.mem_append_left _ hx'
                have hxvisc : tVisited stc x :=
                  (hpostc.inv.visited_iff x).mpr (Or.inl hxstc)
                have hfr : jsGet st'.nodeData x = jsGet stc.nodeData x := by
                  rw [hpost2.frame x ((h2vis x).mpr hxvisc) hxv, h2get x hxv]
                refine ⟨hnv, ?_, ?_⟩
                · rw [tLow_congr stc st' x hfr]
                  have h3 : min dv0.lowLink dw'.lowLink ≤ dw'.lowLink := min_le_right _ _
                  have h4 : dw'.lowLink = tLow stc w := hlowcw.symm
                  omega
                · rw [tIdx_congr stc st' x hfr]
                  exact hci
          · intro w' hw' hwk'
            rcases List.mem_cons.mp hw' with rfl | hw''
            · constructor
              · exact hpost2.visited_mono w' ((h2vis w').mpr hwvisc)
              · rcases hpostc.fate with ⟨_, hfl, _⟩ | ⟨kept, hs, hwk, hwlt, _⟩
                · refine Or.inl ?_
                  obtain ⟨t2, ht2, _⟩ := hpost2.sccs_mono
                  rw [ht2, h2sccs, List.flatten_append]
                  exact List.mem_append_left _ hfl
                · refine Or.inr ?_
                  have hw'stc : w' ∈ stc.stack := by
                    rw [hs]
                    exact List.mem_append_left _ hwk
                  have hfr : jsGet st'.nodeData w' = jsGet stc.nodeData w' := by
                    rw [hpost2.frame w' ((h2vis w').mpr hwvisc) (Ne.symm hvnw),
                      h2get w' (Ne.symm hvnw)]
                  rw [tIdx_congr stc st' w' hfr]
                  have h3 : min dv0.lowLink dw'.lowLink ≤ dw'.lowLink := min_le_right _ _
                  have h4 : tLow stc w' ≤ tIdx stc w' := le_of_lt hwlt
                  rw [hlowcw] at h4
                  have h5 := hpost2.v_low_mono
                  rw [h2lowv] at h5
                  omega
            · exact hpost2.succ_facts w' hw'' hwk'
      · rw [if_neg hunv] at hrun
        have hwvis : tVisited st w := by
          unfold tVisited
          rw [hwidx]
          exact hunv
        by_cases hon : dw.onStack = true
        · rw [if_pos hon] at hrun
          simp only [hdv0] at hrun
          have hwstk : w ∈ st.stack := by
            refine (hmid.inv.onStack_iff w).mp ?_
            rw [hwon]
            exact hon
          set st2 : TarjanSt := ⟨st.counter, st.stack,
            jsSet st.nodeData v { dv0 with lowLink := min dv0.lowLink dw.index },
            st.sccs⟩ with hst2
          have hmid2 : MidInv g G v st2 := by
            refine midinv_lower g G v st hmid dv0 hdv0 dw.index ?_ ?_
            · have := (hmid.inv.idx_bounds w hwvis).1
              rw [hwidx] at this
              exact this
            · intro _
              exact ⟨w, hwstk, by rw [hwidx], Reach.single (hrel hwmem)⟩
          have h2counter : st2.counter = st.counter := rfl
          have h2stack : st2.stack = st.stack := rfl
          have h2sccs : st2.sccs = st.sccs := rfl
          have h2get : ∀ x, x ≠ v → jsGet st2.nodeData x = jsGet st.nodeData x := by
            intro x hx
            show jsGet (jsSet st.nodeData v _) x = _
            rw [jsGet_jsSet, if_neg (Ne.symm hx)]
          have h2idx : ∀ x, tIdx st2 x = tIdx st x := by
            intro x
            by_cases hx : x = v
            · subst hx
              have h5 : tIdx st2 x = dv0.index := by
                unfold tIdx
                show (match jsGet (jsSet st.nodeData x _) x with
                  | some d => d.index
                  | none => -1) = dv0.index
                rw [jsGet_jsSet, if_pos rfl]
              rw [h5, tIdx_of_get st x dv0 hdv0]
            · exact tIdx_congr st st2 x (h2get x hx)
          have h2lowv : tLow st2 v = min dv0.lowLink dw.index := by
            unfold tLow
            show (match jsGet (jsSet st.nodeData v _) v with
              | some d => d.lowLink
              | none => -1) = _
            rw [jsGet_jsSet, if_pos rfl]
          have h2vis : ∀ x, tVisited st2 x ↔ tVisited st x := by
            intro x
            unfold tVisited
            rw [h2idx x]
          have hpost2 := ih G v st2 st' hmid2 hsubr hrun
          refine ⟨hpost2.mid, ?_, ?_, ?_, ?_, ?_, ?_, ?_, ?_, ?_, ?_⟩
          · exact fun x hx => hpost2.visited_mono x ((h2vis x).mpr hx)
          · have := hpost2.counter_mono
            rw [h2counter] at this
            exact this
          · intro x hx hxv
            rw [hpost2.frame x ((h2vis x).mpr hx) hxv, h2get x hxv]
          · rw [hpost2.v_idx_frame, h2idx v]
          · have h1 := hpost2.v_low_mono
            rw [h2lowv] at h1
            have h2 : min dv0.lowLink dw.index ≤ dv0.lowLink := min_le_left _ _
            have h3 : tLow st v = dv0.lowLink := tLow_of_get st v dv0 hdv0
            omega
          · intro x hx
            rcases hpost2.new_reach x hx with h | h
            · exact Or.inl ((h2vis x).mp h)
            · exact Or.inr h
          · intro x hx hnx
            have hge := hpost2.new_idx x hx (fun hh => hnx ((h2vis x).mp hh))
            rw [h2counter] at hge
            exact hge
          · obtain ⟨t2, ht2, ht2m⟩ := hpost2.sccs_mono
            rw [h2sccs] at ht2
            exact ⟨t2, ht2, fun l hl x hx hvx => ht2m l hl x hx ((h2vis x).mpr hvx)⟩
          · obtain ⟨new2, hn2, hn2f⟩ := hpost2.stack_ext
            rw [h2stack] at hn2
            refine ⟨new2, hn2, ?_⟩
            intro x hx
            obtain ⟨hnv, hlo, hci⟩ := hn2f x hx
            refine ⟨fun hvx => hnv ((h2vis x).mpr hvx), hlo, ?_⟩
            rw [h2counter] at hci
            exact hci
          · intro w' hw' hwk'
            rcases List.mem_cons.mp hw' with rfl | hw''
            · refine ⟨hpost2.visited_mono w' ((h2vis w').mpr hwvis), ?_⟩
              by_cases hwv : w' = v
              · refine Or.inr ?_
                subst hwv
                exact hpost2.mid.inv.low_le w'
                  (hpost2.visited_mono w' ((h2vis w').mpr hwvis))
              · refine Or.inr ?_
                have hfr : jsGet st'.nodeData w' = jsGet st.nodeData w' := by
                  rw [hpost2.frame w' ((h2vis w').mpr hwvis) hwv, h2get w' hwv]
                rw [tIdx_congr st st' w' hfr, hwidx]
                have h1 := hpost2.v_low_mono
                rw [h2lowv] at h1
                have h2 : min dv0.lowLink dw.index ≤ dw.index := min_le_right _ _
                omega
            · exact hpost2.succ_facts w' hw'' hwk'
        · rw [if_neg hon] at hrun
          have hwoff : w ∉ st.stack := by
            intro hmem
            have := (hmid.inv.onStack_iff w).mpr hmem
            rw [hwon] at this
            exact hon this
          have hwflat : w ∈ st.sccs.flatten := by
            rcases (hmid.inv.visited_iff w).mp hwvis with h | h
            · exact absurd h hwoff
            · exact h
          have hpost := ih G v st st' hmid hsubr hrun
          refine ⟨hpost.mid, hpost.visited_mono, hpost.counter_mono, hpost.frame,
            hpost.v_idx_frame, hpost.v_low_mono, hpost.new_reach, hpost.new_idx,
            hpost.sccs_mono, hpost.stack_ext, ?_⟩
          intro w' hw' hwk'
          rcases List.mem_cons.mp hw' with rfl | hw''
          · refine ⟨hpost.visited_mono w' hwvis, Or.inl ?_⟩
            obtain ⟨t2, ht2, _⟩ := hpost.sccs_mono
            rw [ht2, List.flatten_append]
            exact List.mem_append_left _ hwflat
          · exact hpost.succ_facts w' hw'' hwk'

theorem tIdx_markOffStack (c : Int) (s : List NodeId) (nd : List (NodeId × TData))
    (sc : List (List NodeId)) (P : List NodeId) (x : NodeId) :
    tIdx ⟨c, s, markOffStack nd P, sc⟩ x = tIdx ⟨c, s, nd, sc⟩ x := by
  unfold tIdx
  by_cases hx : x ∈ P
  · rw [markOffStack_get_mem nd P x hx]
    cases jsGet nd x <;> rfl
  · rw [markOffStack_get_not_mem nd P x hx]

theorem tLow_markOffStack (c : Int) (s : List NodeId) (nd : List (NodeId × TData))
    (sc : List (List NodeId)) (P : List NodeId) (x : NodeId) :
    tLow ⟨c, s, markOffStack nd P, sc⟩ x = tLow ⟨c, s, nd, sc⟩ x := by
  unfold tLow
  by_cases hx : x ∈ P
  · rw [markOffStack_get_mem nd P x hx]
    cases jsGet nd x <;> rfl
  · rw [markOffStack_get_not_mem nd P x hx]

theorem tOn_markOffStack (c : Int) (s : List NodeId) (nd : List (NodeId × TData))
    (sc : List (List NodeId)) (P : List NodeId) (x : NodeId) :
    tOn ⟨c, s, markOffStack nd P, sc⟩ x =
      if x ∈ P then false else tOn ⟨c, s, nd, sc⟩ x := by
  unfold tOn
  by_cases hx : x ∈ P
  · rw [markOffStack_get_mem nd P x hx, if_pos hx]
    cases jsGet nd x <;> rfl
  · rw [markOffStack_get_not_mem nd P x hx, if_neg hx]

theorem append_cons_inj {α : Type} (a : α) :
    ∀ (n p s q : List α), n ++ a :: s = p ++ a :: q → a ∉ n → a ∉ p →
      n = p ∧ s = q := by
  intro n
  induction n with
  | nil =>
    intro p s q heq _ hap
    cases p with
    | nil =>
      simp at heq
      exact ⟨rfl, heq⟩
    | cons b p' =>
      simp at heq
      exact absurd (heq.1 ▸ List.mem_cons_self b p') (heq.1 ▸ hap)
  | cons b n' ih =>
    intro p s q heq han hap
    cases p with
    | nil =>
      simp at heq
      exact absurd (heq.1 ▸ List.mem_cons_self b n') (heq.1 ▸ han)
    | cons c p' =>
      simp only [List.cons_append, List.cons.injEq] at heq
      obtain ⟨rfl, heq'⟩ := heq
      have han' : a ∉ n' := fun h => han (List.mem_cons_of_mem _ h)
      have hap' : a ∉ p' := fun h => hap (List.mem_cons_of_mem _ h)
      obtain ⟨rfl, rfl⟩ := ih p' s q heq' han' hap'
      exact ⟨rfl, rfl⟩

/-- The non-emission exit of `strongConnect`: the root survives on the
stack with a strictly smaller low-link. -/
theorem strongConnect_no_emit (g : Graph) (G : List NodeId) (v : NodeId)
    (st st2 : TarjanSt) (hinv : TInv g G st) (hvmem : v ∈ g.nodeIds)
    (hunv : ¬ tVisited st v) (dv : TData)
    (hvpost : VPost g G v (getSuccessors g v) ⟨st.counter + 1, v :: st.stack,
      jsSet st.nodeData v ⟨st.counter, st.counter, true⟩, st.sccs⟩ st2)
    (hdv : jsGet st2.nodeData v = some dv) (hemit : dv.lowLink ≠ dv.index) :
    SCPost g G v st st2 := by
  set st1 : TarjanSt := ⟨st.counter + 1, v :: st.stack,
    jsSet st.nodeData v ⟨st.counter, st.counter, true⟩, st.sccs⟩ with hst1
  have h1counter : st1.counter = st.counter + 1 := rfl
  have h1stack : st1.stack = v :: st.stack := rfl
  have h1sccs : st1.sccs = st.sccs := rfl
  have h1get : ∀ x, x ≠ v → jsGet st1.nodeData x = jsGet st.nodeData x := by
    intro x hx
    show jsGet (jsSet st.nodeData v _) x = _
    rw [jsGet_jsSet, if_neg (Ne.symm hx)]
  have h1idxv : tIdx st1 v = st.counter := by
    unfold tIdx
    show (match jsGet (jsSet st.nodeData v _) v with
      | some d => d.index
      | none => -1) = _
    rw [jsGet_jsSet, if_pos rfl]
  have h1visv : tVisited st1 v := by
    unfold tVisited
    rw [h1idxv]
    have := hinv.counter_nonneg
    omega
  have h1vis : ∀ x, x ≠ v → (tVisited st1 x ↔ tVisited st x) := by
    intro x hx
    unfold tVisited
    rw [tIdx_congr st st1 x (h1get x hx)]
  have hvis1 : ∀ x, tVisited st1 x ↔ (x = v ∨ tVisited st x) := by
    intro x
    by_cases hx : x = v
    · subst hx
      simp [h1visv]
    · rw [h1vis x hx]
      simp [hx]
  have hframe : ∀ x, tVisited st x → jsGet st2.nodeData x = jsGet st.nodeData x := by
    intro x hx
    have hxv : x ≠ v := fun hh => hunv (hh ▸ hx)
    rw [hvpost.frame x ((hvis1 x).mpr (Or.inr hx)) hxv, h1get x hxv]
  have hidx2v : tIdx st2 v = st.counter := by
    rw [hvpost.v_idx_frame, h1idxv]
  have hvis2v : tVisited st2 v := hvpost.mid.inv.visited_iff v |>.mpr
    (Or.inl hvpost.mid.v_stack)
  have hlowlt : tLow st2 v < tIdx st2 v := by
    have h1 := hvpost.mid.inv.low_le v hvis2v
    have h2 : tLow st2 v = dv.lowLink := tLow_of_get st2 v dv hdv
    have h3 : tIdx st2 v = dv.index := tIdx_of_get st2 v dv hdv
    omega
  obtain ⟨new, hnew, hnewf⟩ := hvpost.stack_ext
  rw [h1stack] at hnew
  have hvnnew : v ∉ new := fun h => (hnewf v h).1 h1visv
  -- the old invariant with chain G, recovered from the one with chain v :: G
  have hinv2 : TInv g G st2 := by
    obtain ⟨k1, k2, k3, k4, k5, k6, k7, k8, k9, k10, k11, k12, k13, k14, k15, k16,
      k17, k18, k19, k20, k21, k22, k23, k24⟩ := hvpost.mid.inv
    refine ⟨k1, k2, k3, k4, k5, k6, k7, k8, k9, k10, k11, k12, k13, k14, k15, ?_,
      ?_, k18, k19, k20, k21, ?_, ?_, k24⟩
    · intro u hu hnG w hw
      by_cases huv : u = v
      · subst huv
        obtain ⟨_, hwm, hws⟩ := (edgeRelIn_iff g u w).mp hw
        exact hvpost.succ_facts w hws hwm
      · exact k16 u hu (fun hh => (List.mem_cons.mp hh).elim (fun h => huv h) hnG) w hw
    · intro x hx hnG
      by_cases hxv : x = v
      · subst hxv
        exact hlowlt
      · exact k17 x hx (fun hh => (List.mem_cons.mp hh).elim (fun h => hxv h) hnG)
    · intro x hx
      exact k22 x (List.mem_cons_of_mem _ hx)
    · intro b hb
      cases hstk : st.stack with
      | nil =>
        exfalso
        have hbot : st2.stack.getLast? = some v := by
          rw [hnew, hstk]
          rw [List.getLast?_append_of_ne_nil new (by simp)]
          simp
        have := stack_bottom_le g (v :: G) st2 hvpost.mid.inv v hbot v hvpost.mid.v_stack
        omega
      | cons a l =>
        have hbot : b ∈ G := by
          apply hinv.g_last
          rw [hstk]
          have hb2 : st2.stack.getLast? = some b := hb
          rw [hnew, hstk] at hb2
          rw [List.getLast?_append_of_ne_nil new (by simp)] at hb2
          rw [List.getLast?_cons_cons] at hb2
          exact hb2
        exact hbot
  refine ⟨hinv2, ?_, hvis2v, hidx2v, ?_, hframe, ?_, ?_, ?_, ?_⟩
  · intro x hx
    exact hvpost.visited_mono x ((hvis1 x).mpr (Or.inr hx))
  · have := hvpost.counter_mono
    rw [h1counter] at this
    omega
  · intro x hx
    rcases hvpost.new_reach x hx with h | h
    · rcases (hvis1 x).mp h with rfl | h'
      · exact Or.inr (Reach.refl x)
      · exact Or.inl h'
    · exact Or.inr h
  · obtain ⟨tail, ht, htm⟩ := hvpost.sccs_mono
    rw [h1sccs] at ht
    refine ⟨tail, ht, ?_⟩
    intro l hl x hx hvx
    exact htm l hl x hx ((hvis1 x).mpr (Or.inr hvx))
  · intro x hx hnx
    by_cases hxv : x = v
    · subst hxv
      rw [hidx2v]
    · have h1 : ¬ tVisited st1 x := fun h => hnx ((h1vis x hxv).mp h)
      have := hvpost.new_idx x hx h1
      rw [h1counter] at this
      omega
  · refine Or.inr ⟨new ++ [v], ?_, List.mem_append_right _ (List.mem_cons_self _ _),
      hlowlt, ?_⟩
    · rw [hnew, List.append_assoc]
      rfl
    · intro x hx
      rcases List.mem_append.mp hx with hx' | hx'
      · obtain ⟨hnv, hlo, hci⟩ := hnewf x hx'
        refine ⟨fun h => hnv ((hvis1 x).mpr (Or.inr h)), hlo, ?_⟩
        rw [h1counter] at hci
        omega
      · rcases List.mem_singleton.mp hx'
        exact ⟨hunv, le_refl _, le_of_eq hidx2v.symm⟩

/-- The emission exit of `strongConnect`: the root closes a strongly
connected component, which is popped, marked off-stack and appended to
the output list. -/
theorem strongConnect_emit (g : Graph) (G : List NodeId) (v : NodeId)
    (st st2 : TarjanSt) (hinv : TInv g G st) (hvmem : v ∈ g.nodeIds)
    (hunv : ¬ tVisited st v) (dv : TData)
    (hvpost : VPost g G v (getSuccessors g v) ⟨st.counter + 1, v :: st.stack,
      jsSet st.nodeData v ⟨st.counter, st.counter, true⟩, st.sccs⟩ st2)
    (hdv : jsGet st2.nodeData v = some dv) (hemit : dv.lowLink = dv.index) :
    SCPost g G v st ⟨st2.counter, (popToNode v st2.stack).2,
      markOffStack st2.nodeData (popToNode v st2.stack).1,
      st2.sccs ++ [(popToNode v st2.stack).1]⟩ := by
  set st1 : TarjanSt := ⟨st.counter + 1, v :: st.stack,
    jsSet st.nodeData v ⟨st.counter, st.counter, true⟩, st.sccs⟩ with hst1
  have h1counter : st1.counter = st.counter + 1 := rfl
  have h1stack : st1.stack = v :: st.stack := rfl
  have h1sccs : st1.sccs = st.sccs := rfl
  have h1get : ∀ x, x ≠ v → jsGet st1.nodeData x = jsGet st.nodeData x := by
    intro x hx
    show jsGet (jsSet st.nodeData v _) x = _
    rw [jsGet_jsSet, if_neg (Ne.symm hx)]
  have h1idxv : tIdx st1 v = st.counter := by
    unfold tIdx
    show (match jsGet (jsSet st.nodeData v _) v with
      | some d => d.index
      | none => -1) = _
    rw [jsGet_jsSet, if_pos rfl]
  have h1visv : tVisited st1 v := by
    unfold tVisited
    rw [h1idxv]
    have := hinv.counter_nonneg
    omega
  have h1vis : ∀ x, x ≠ v → (tVisited st1 x ↔ tVisited st x) := by
    intro x hx
    unfold tVisited
    rw [tIdx_congr st st1 x (h1get x hx)]
  have hvis1 : ∀ x, tVisited st1 x ↔ (x = v ∨ tVisited st x) := by
    intro x
    by_cases hx : x = v
    · subst hx
      simp [h1visv]
    · rw [h1vis x hx]
      simp [hx]
  have hframe : ∀ x, tVisited st x → jsGet st2.nodeData x = jsGet st.nodeData x := by
    intro x hx
    have hxv : x ≠ v := fun hh => hunv (hh ▸ hx)
    rw [hvpost.frame x ((hvis1 x).mpr (Or.inr hx)) hxv, h1get x hxv]
  have hidx2v : tIdx st2 v = st.counter := by
    rw [hvpost.v_idx_frame, h1idxv]
  have hvis2v : tVisited st2 v := hvpost.mid.inv.visited_iff v |>.mpr
    (Or.inl hvpost.mid.v_stack)
  have hvstk2 : v ∈ st2.stack := hvpost.mid.v_stack
  have hlow2v : tLow st2 v = st.counter := by
    have h2 : tLow st2 v = dv.lowLink := tLow_of_get st2 v dv hdv
    have h3 : tIdx st2 v = dv.index := tIdx_of_get st2 v dv hdv
    omega
  obtain ⟨new, hnew, hnewf⟩ := hvpost.stack_ext
  rw [h1stack] at hnew
  have hvnnew : v ∉ new := fun h => (hnewf v h).1 h1visv
  -- identical decomposition: popToNode pops exactly the new nodes plus v
  obtain ⟨pre, post, hsplit, hvpre, hpop⟩ := popToNode_eq v st2.stack hvstk2
  obtain ⟨hnp, hsq⟩ := append_cons_inj v new pre st.stack post
    (hnew.symm.trans hsplit) hvnnew hvpre
  rw [← hnp, ← hsq] at hpop
  rw [hpop]
  show SCPost g G v st ⟨st2.counter, st.stack,
    markOffStack st2.nodeData (new ++ [v]), st2.sccs ++ [new ++ [v]]⟩
  set P : List NodeId := new ++ [v] with hP
  set stF : TarjanSt := ⟨st2.counter, st.stack,
    markOffStack st2.nodeData P, st2.sccs ++ [P]⟩ with hstF
  have hFcounter : stF.counter = st2.counter := rfl
  have hFstack : stF.stack = st.stack := rfl
  have hFsccs : stF.sccs = st2.sccs ++ [P] := rfl
  have hFidx : ∀ x, tIdx stF x = tIdx st2 x := fun x =>
    tIdx_markOffStack st2.counter st.stack st2.nodeData (st2.sccs ++ [P]) P x
  have hFlow : ∀ x, tLow stF x = tLow st2 x := fun x =>
    tLow_markOffStack st2.counter st.stack st2.nodeData (st2.sccs ++ [P]) P x
  have hFon : ∀ x, tOn stF x = if x ∈ P then false else tOn st2 x := fun x =>
    tOn_markOffStack st2.counter st.stack st2.nodeData (st2.sccs ++ [P]) P x
  have hFvis : ∀ x, tVisited stF x ↔ tVisited st2 x := by
    intro x
    unfold tVisited
    rw [hFidx x]
  have hvP : v ∈ P := by rw [hP]; simp
  have hPmem : ∀ x, x ∈ P ↔ (x ∈ new ∨ x = v) := by
    intro x
    rw [hP]
    simp
  have hstk2P : st2.stack = P ++ st.stack := by
    rw [hnew, hP]
    simp
  have hstk2mem : ∀ x, x ∈ st2.stack ↔ (x ∈ P ∨ x ∈ st.stack) := by
    intro x
    rw [hstk2P]
    simp
  have hnd2 : (P ++ st.stack).Nodup := by
    rw [← hstk2P]
    exact hvpost.mid.inv.stack_nodup
  have hPnodup : P.Nodup := hnd2.sublist (List.sublist_append_left _ _)
  have hdisjPstk : ∀ x ∈ P, x ∉ st.stack := by
    rw [List.nodup_append] at hnd2
    exact fun x hx hx' => hnd2.2.2 hx hx'
  have hvnstk : v ∉ st.stack := fun h => hunv ((hinv.visited_iff v).mpr (Or.inl h))
  have hPstack2 : ∀ x ∈ P, x ∈ st2.stack := by
    intro x hx
    rw [hstk2P]
    exact List.mem_append_left _ hx
  have hPvis2 : ∀ x ∈ P, tVisited st2 x := fun x hx =>
    (hvpost.mid.inv.visited_iff x).mpr (Or.inl (hPstack2 x hx))
  have hPkeys : ∀ x ∈ P, x ∈ g.nodeIds := fun x hx =>
    hvpost.mid.inv.stack_keys x (hPstack2 x hx)
  have hPidx : ∀ x ∈ P, st.counter ≤ tIdx st2 x := by
    intro x hx
    rcases (hPmem x).mp hx with h | h
    · have := (hnewf x h).2.2
      rw [h1counter] at this
      omega
    · subst h
      rw [hidx2v]
  have hPlowge : ∀ x ∈ P, st.counter ≤ tLow st2 x := by
    intro x hx
    rcases (hPmem x).mp hx with h | h
    · have := (hnewf x h).2.1
      rw [hlow2v] at this
      exact this
    · subst h
      rw [hlow2v]
  have holdidx : ∀ y ∈ st.stack, tIdx st2 y = tIdx st y ∧ tIdx st y < st.counter := by
    intro y hy
    have hyv : tVisited st y := (hinv.visited_iff y).mpr (Or.inl hy)
    exact ⟨tIdx_congr st st2 y (hframe y hyv), (hinv.idx_bounds y hyv).2⟩
  have hPnotSt : ∀ x ∈ P, ¬ tVisited st x := by
    intro x hx
    rcases (hPmem x).mp hx with h | h
    · exact fun hv => (hnewf x h).1 ((hvis1 x).mpr (Or.inr hv))
    · subst h
      exact hunv
  have hPnotvG : ∀ x ∈ P, x ≠ v → x ∉ v :: G := by
    intro x hx hxv hm
    rcases List.mem_cons.mp hm with h | h
    · exact hxv h
    · exact hPnotSt x hx ((hinv.visited_iff x).mpr (Or.inl (hinv.g_stack x h)))
  have hPF : ∀ u ∈ P, ∀ w, edgeRelIn g u w →
      tVisited st2 w ∧ (w ∈ st2.sccs.flatten ∨ tLow st2 u ≤ tIdx st2 w) := by
    intro u hu w hw
    by_cases huv : u = v
    · subst huv
      obtain ⟨_, hwm, hws⟩ := (edgeRelIn_iff g u w).mp hw
      exact hvpost.succ_facts w hws hwm
    · exact hvpost.mid.inv.fin_edges u (hPvis2 u hu) (hPnotvG u hu huv) w hw
  have hge : ∀ x ∈ st2.stack, tIdx st2 v < tIdx st2 x → tIdx st2 v ≤ tLow st2 x := by
    intro x hx hgt
    rcases (hstk2mem x).mp hx with hxP | hxS
    · rw [hidx2v]
      exact hPlowge x hxP
    · exfalso
      obtain ⟨he1, he2⟩ := holdidx x hxS
      rw [hidx2v] at hgt
      omega
  have hlt2 : ∀ x ∈ st2.stack, tIdx st2 v < tIdx st2 x → tLow st2 x < tIdx st2 x := by
    intro x hx hgt
    rcases (hstk2mem x).mp hx with hxP | hxS
    · have hxv : x ≠ v := by
        intro h
        rw [h] at hgt
        exact lt_irrefl _ hgt
      exact hvpost.mid.inv.fin_low x hx (hPnotvG x hxP hxv)
    · exfalso
      obtain ⟨he1, he2⟩ := holdidx x hxS
      rw [hidx2v] at hgt
      omega
  have hreachto : ∀ x ∈ st2.stack, tIdx st2 v ≤ tIdx st2 x → Reach g x v :=
    descent_to g (v :: G) st2 hvpost.mid.inv v hvstk2 hge hlt2
  have hPreachv : ∀ x ∈ P, Reach g x v := fun x hx =>
    hreachto x (hPstack2 x hx) (by rw [hidx2v]; exact hPidx x hx)
  have hvreachP : ∀ x ∈ P, Reach g v x := fun x hx =>
    hvpost.mid.inv.stack_reach v hvstk2 x (hPstack2 x hx)
      (by rw [hidx2v]; exact hPidx x hx)
  have hPmutual : ∀ x ∈ P, ∀ y ∈ P, Reach g x y := fun x hx y hy =>
    Reach.trans (hPreachv x hx) (hvreachP y hy)
  have hPmax : ∀ x ∈ P, ∀ y, Reach g x y → Reach g y x → y ∈ P := by
    intro x hx y hxy hyx
    suffices haux : ∀ m, Relation.ReflTransGen (edgeRelIn g) m y → m ∈ P → y ∈ P by
      exact haux x hxy hx
    intro m hmy
    induction hmy using Relation.ReflTransGen.head_induction_on with
    | refl => exact fun hm => hm
    | @head b c hedge hrest ih =>
      intro hbP
      have hF := hPF b hbP c hedge
      have hRcx : Reach g c x := Reach.trans hrest hyx
      have hRxc : Reach g x c := Reach.trans (hPmutual x hx b hbP) (Reach.single hedge)
      apply ih
      have hcnotflat : c ∉ st2.sccs.flatten := by
        intro hflat
        rw [List.mem_flatten] at hflat
        obtain ⟨l, hl, hcl⟩ := hflat
        have hxl : x ∈ l := hvpost.mid.inv.sccs_max l hl c hcl x hRcx hRxc
        have hxflat : x ∈ st2.sccs.flatten := List.mem_flatten.mpr ⟨l, hl, hxl⟩
        exact hvpost.mid.inv.disj x (hPstack2 x hx) hxflat
      have hcstk : c ∈ st2.stack := by
        rcases (hvpost.mid.inv.visited_iff c).mp hF.1 with h | h
        · exact h
        · exact absurd h hcnotflat
      rcases (hstk2mem c).mp hcstk with h | h
      · exact h
      · exfalso
        rcases hF.2 with hfl | hlo
        · exact hcnotflat hfl
        · obtain ⟨he1, he2⟩ := holdidx c h
          have h3 := hPlowge b hbP
          omega
  have hflatF : stF.sccs.flatten = st2.sccs.flatten ++ P := by
    rw [hFsccs, List.flatten_append]
    simp
  have hinvF : TInv g G stF := by
    refine ⟨?_, ?_, ?_, ?_, ?_, ?_, ?_, ?_, ?_, ?_, ?_, ?_, ?_, ?_, ?_, ?_, ?_,
      ?_, ?_, ?_, ?_, ?_, ?_, ?_⟩
    · show (markOffStack st2.nodeData P).map Prod.fst = g.nodeIds
      rw [markOffStack_keys]
      exact hvpost.mid.inv.keys
    · intro x hx
      rw [hFstack] at hx
      exact hinv.stack_keys x hx
    · intro x hx
      rw [hflatF] at hx
      rcases List.mem_append.mp hx with h | h
      · exact hvpost.mid.inv.flat_keys x h
      · exact hPkeys x h
    · intro x
      rw [hFvis x, hvpost.mid.inv.visited_iff x, hFstack, hflatF, hstk2P]
      simp only [List.mem_append]
      tauto
    · intro x
      rw [hFon x, hFstack]
      by_cases hxP : x ∈ P
      · rw [if_pos hxP]
        exact iff_of_false (by simp) (hdisjPstk x hxP)
      · rw [if_neg hxP, hvpost.mid.inv.onStack_iff x, hstk2P]
        simp [hxP]
    · rw [hFstack]
      exact hinv.stack_nodup
    · rw [hflatF, List.nodup_append]
      refine ⟨hvpost.mid.inv.flat_nodup, hPnodup, ?_⟩
      intro a ha haP
      exact hvpost.mid.inv.disj a (hPstack2 a haP) ha
    · intro x hx
      rw [hFstack] at hx
      rw [hflatF]
      intro hmem
      rcases List.mem_append.mp hmem with h | h
      · exact hvpost.mid.inv.disj x (by rw [hstk2P]; exact List.mem_append_right _ hx) h
      · exact hdisjPstk x h hx
    · rw [hFstack]
      have hs2 := hvpost.mid.inv.sorted
      rw [hstk2P] at hs2
      have hsub := hs2.sublist (List.sublist_append_right P st.stack)
      exact hsub.imp (fun h => by rw [hFidx, hFidx]; exact h)
    · intro x hx
      rw [hFidx x, hFcounter]
      exact hvpost.mid.inv.idx_bounds x ((hFvis x).mp hx)
    · intro x hx
      rw [hFlow x, hFidx x]
      exact hvpost.mid.inv.low_le x ((hFvis x).mp hx)
    · intro x hx
      rw [hFlow x]
      exact hvpost.mid.inv.low_nonneg x ((hFvis x).mp hx)
    · intro x y hxv hyv he
      rw [hFidx x, hFidx y] at he
      exact hvpost.mid.inv.idx_inj x y ((hFvis x).mp hxv) ((hFvis y).mp hyv) he
    · intro x hx hlt
      rw [hFstack] at hx
      rw [hFlow x, hFidx x] at hlt
      have hx2 : x ∈ st2.stack := by
        rw [hstk2P]
        exact List.mem_append_right _ hx
      obtain ⟨y, hy, hidxy, hr⟩ := hvpost.mid.inv.low_wit x hx2 hlt
      rcases (hstk2mem y).mp hy with hyP | hyS
      · exfalso
        have h1 := hPidx y hyP
        obtain ⟨he1, he2⟩ := holdidx x hx
        omega
      · exact ⟨y, by rw [hFstack]; exact hyS, by rw [hFidx y, hFlow x]; exact hidxy, hr⟩
    · intro u hu x hx hle
      rw [hFstack] at hu hx
      rw [hFidx u, hFidx x] at hle
      exact hvpost.mid.inv.stack_reach u
        (by rw [hstk2P]; exact List.mem_append_right _ hu) x
        (by rw [hstk2P]; exact List.mem_append_right _ hx) hle
    · intro u hu hnG w hw
      have hu2 : tVisited st2 u := (hFvis u).mp hu
      have hF : tVisited st2 w ∧ (w ∈ st2.sccs.flatten ∨ tLow st2 u ≤ tIdx st2 w) := by
        by_cases huP : u ∈ P
        · exact hPF u huP w hw
        · have huv : u ≠ v := fun h => huP (h ▸ hvP)
          exact hvpost.mid.inv.fin_edges u hu2
            (by intro hm; rcases List.mem_cons.mp hm with h | h
                exacts [huv h, hnG h]) w hw
      refine ⟨(hFvis w).mpr hF.1, ?_⟩
      rcases hF.2 with h | h
      · left
        rw [hflatF]
        exact List.mem_append_left _ h
      · right
        rw [hFlow u, hFidx w]
        exact h
    · intro x hx hnG
      rw [hFstack] at hx
      rw [hFlow x, hFidx x]
      have hxv : x ≠ v := fun h => hvnstk (h ▸ hx)
      exact hvpost.mid.inv.fin_low x
        (by rw [hstk2P]; exact List.mem_append_right _ hx)
        (by intro hm; rcases List.mem_cons.mp hm with h | h
            exacts [hxv h, hnG h])
    · intro l hl
      rw [hFsccs] at hl
      rcases List.mem_append.mp hl with h | h
      · exact hvpost.mid.inv.sccs_ne l h
      · rw [List.mem_singleton] at h
        subst h
        intro he
        rw [he] at hvP
        exact absurd hvP (List.not_mem_nil v)
    · intro l hl x hx y hy
      rw [hFsccs] at hl
      rcases List.mem_append.mp hl with h | h
      · exact hvpost.mid.inv.sccs_mutual l h x hx y hy
      · rw [List.mem_singleton] at h
        subst h
        exact hPmutual x hx y hy
    · intro l hl x hx y hr1 hr2
      rw [hFsccs] at hl
      rcases List.mem_append.mp hl with h | h
      · exact hvpost.mid.inv.sccs_max l h x hx y hr1 hr2
      · rw [List.mem_singleton] at h
        subst h
        exact hPmax x hx y hr1 hr2
    · intro u w hw i li hget hu
      rw [hFsccs] at hget ⊢
      by_cases hi : i < st2.sccs.length
      · rw [List.get?_append hi] at hget
        obtain ⟨j, lj, hj, hgj, hwj⟩ := hvpost.mid.inv.rank u w hw i li hget hu
        have hjlt : j < st2.sccs.length := lt_of_le_of_lt hj hi
        exact ⟨j, lj, hj, by rw [List.get?_append hjlt]; exact hgj, hwj⟩
      · push_neg at hi
        rw [List.get?_append_right hi] at hget
        cases hm : i - st2.sccs.length with
        | succ k =>
          rw [hm] at hget
          simp at hget
        | zero =>
          rw [hm] at hget
          simp only [List.get?_cons_zero, Option.some.injEq] at hget
          subst hget
          have hF := hPF u hu w hw
          by_cases hwflat : w ∈ st2.sccs.flatten
          · obtain ⟨lw, hlw, hwlw⟩ := List.mem_flatten.mp hwflat
            obtain ⟨jw, hjw⟩ := List.mem_iff_get?.mp hlw
            obtain ⟨hlt', _⟩ := List.get?_eq_some.mp hjw
            refine ⟨jw, lw, le_trans (le_of_lt hlt') hi, ?_, hwlw⟩
            rw [List.get?_append hlt']
            exact hjw
          · rcases hF.2 with h | h
            · exact absurd h hwflat
            · rcases (hvpost.mid.inv.visited_iff w).mp hF.1 with hstk | hfl
              · rcases (hstk2mem w).mp hstk with hwP | hwS
                · refine ⟨i, P, le_refl i, ?_, hwP⟩
                  rw [List.get?_append_right hi, hm]
                  rfl
                · exfalso
                  obtain ⟨he1, he2⟩ := holdidx w hwS
                  have h3 := hPlowge u hu
                  omega
              · exact absurd hfl hwflat
    · intro x hx
      rw [hFstack]
      exact hinv.g_stack x hx
    · intro b hb
      rw [hFstack] at hb
      exact hinv.g_last b hb
    · rw [hFcounter]
      exact hvpost.mid.inv.counter_nonneg
  refine ⟨hinvF, ?_, (hFvis v).mpr hvis2v, by rw [hFidx v]; exact hidx2v, ?_, ?_,
    ?_, ?_, ?_, ?_⟩
  · intro x hx
    exact (hFvis x).mpr (hvpost.visited_mono x ((hvis1 x).mpr (Or.inr hx)))
  · rw [hFcounter]
    have := hvpost.counter_mono
    rw [h1counter] at this
    omega
  · intro x hx
    have hxP : x ∉ P := fun h => hPnotSt x h hx
    show jsGet (markOffStack st2.nodeData P) x = _
    rw [markOffStack_get_not_mem _ _ _ hxP]
    exact hframe x hx
  · intro x hx
    rcases hvpost.new_reach x ((hFvis x).mp hx) with h | h
    · rcases (hvis1 x).mp h with rfl | h'
      · exact Or.inr (Reach.refl x)
      · exact Or.inl h'
    · exact Or.inr h
  · obtain ⟨tail, ht, htm⟩ := hvpost.sccs_mono
    rw [h1sccs] at ht
    refine ⟨tail ++ [P], ?_, ?_⟩
    · rw [hFsccs, ht, List.append_assoc]
    · intro l hl x hx
      rcases List.mem_append.mp hl with h | h
      · exact fun hv => htm l h x hx ((hvis1 x).mpr (Or.inr hv))
      · rw [List.mem_singleton] at h
        subst h
        exact hPnotSt x hx
  · intro x hx hnx
    rw [hFidx x]
    by_cases hxv : x = v
    · subst hxv
      rw [hidx2v]
    · have h1 : ¬ tVisited st1 x := fun h => hnx ((h1vis x hxv).mp h)
      have := hvpost.new_idx x ((hFvis x).mp hx) h1
      rw [h1counter] at this
      omega
  · refine Or.inl ⟨hFstack, ?_, ?_⟩
    · rw [hflatF]
      exact List.mem_append_right _ hvP
    · rw [hFlow v, hFidx v, tLow_of_get st2 v dv hdv, tIdx_of_get st2 v dv hdv]
      exact hemit

/-- Soundness of `strongConnect`: any successful run from an invariant
state on an unvisited node establishes the post-condition. -/
theorem strongConnect_sound (g : Graph) :
    ∀ (fuel : Nat) (G : List NodeId) (v : NodeId) (st st' : TarjanSt),
      TInv g G st → v ∈ g.nodeIds → ¬ tVisited st v →
      (∀ u ∈ st.stack, Reach g u v) →
      strongConnect g fuel v st = some st' → SCPost g G v st st' := by
  intro fuel
  induction fuel with
  | zero =>
    intro G v st st' _ _ _ _ hrun
    exact Option.noConfusion hrun
  | succ fuel ih =>
    intro G v st st' hinv hvmem hunv hreach hrun
    have hmid := midinv_push g G v st hinv hvmem hunv hreach
    simp only [strongConnect] at hrun
    cases hv : visitSuccessors (strongConnect g fuel) v (getSuccessors g v)
        ⟨st.counter + 1, v :: st.stack,
         jsSet st.nodeData v ⟨st.counter, st.counter, true⟩, st.sccs⟩ with
    | none =>
      simp only [hv] at hrun
      exact Option.noConfusion hrun
    | some st2 =>
      simp only [hv] at hrun
      have hvpost := visitSuccessors_sound g (strongConnect g fuel) ih
        (getSuccessors g v) G v _ st2 hmid (fun w hw => hw) hv
      cases hdv : jsGet st2.nodeData v with
      | none =>
        simp only [hdv] at hrun
        exact Option.noConfusion hrun
      | some dv =>
        simp only [hdv] at hrun
        by_cases hemit : dv.lowLink = dv.index
        · rw [if_pos hemit] at hrun
          obtain rfl := Option.some.inj hrun
          exact strongConnect_emit g G v st st2 hinv hvmem hunv dv hvpost hdv hemit
        · rw [if_neg hemit] at hrun
          obtain rfl := Option.some.inj hrun
          exact strongConnect_no_emit g G v st st2 hinv hvmem hunv dv hvpost hdv hemit

/-! ## Fuel adequacy for the Tarjan recursion -/

theorem length_filter_mono {α : Type} (p q : α → Bool)
    (h : ∀ a, p a = true → q a = true) :
    ∀ l : List α, (l.filter p).length ≤ (l.filter q).length := by
  intro l
  induction l with
  | nil => simp
  | cons a t ih =>
    simp only [List.filter_cons]
    by_cases hpa : p a = true
    · rw [if_pos hpa, if_pos (h a hpa)]
      simpa using ih
    · rw [if_neg hpa]
      by_cases hqa : q a = true
      · rw [if_pos hqa]
        simp only [List.length_cons]
        omega
      · rw [if_neg hqa]
        exact ih

theorem length_filter_flip_one {α : Type} [DecidableEq α] (p q : α → Bool) (v : α)
    (hpv : p v = true) (hqv : q v = false) (hag : ∀ x, x ≠ v → p x = q x) :
    ∀ l : List α, l.Nodup → v ∈ l → (l.filter p).length = (l.filter q).length + 1 := by
  intro l
  induction l with
  | nil =>
    intro _ h
    cases h
  | cons a t ih =>
    intro hnd hv
    rcases List.mem_cons.mp hv with rfl | hvt
    · have hvnt : v ∉ t := (List.nodup_cons.mp hnd).1
      have hft : t.filter p = t.filter q :=
        List.filter_congr (fun x hx => hag x (fun he => hvnt (he ▸ hx)))
      rw [List.filter_cons, List.filter_cons, if_pos hpv, if_neg (by simp [hqv]), hft]
      simp
    · have hav : a ≠ v := fun he => (List.nodup_cons.mp hnd).1 (he ▸ hvt)
      have hpq : p a = q a := hag a hav
      have ihh := ih (List.nodup_cons.mp hnd).2 hvt
      rw [List.filter_cons, List.filter_cons]
      by_cases hqa : q a = true
      · rw [if_pos hqa, if_pos (hpq.trans hqa)]
        simp only [List.length_cons]
        omega
      · rw [if_neg hqa, if_neg (fun h => hqa (hpq.symm.trans h))]
        exact ihh

theorem uc_mono (g : Graph) (st st' : TarjanSt)
    (h : ∀ x, tVisited st x → tVisited st' x) :
    unvisitedCount g st' ≤ unvisitedCount g st := by
  refine length_filter_mono _ _ ?_ g.nodeIds.dedup
  intro a ha
  simp only [decide_eq_true_eq] at ha ⊢
  by_contra hne
  exact h a hne ha

theorem uc_congr (g : Graph) (st st' : TarjanSt)
    (h : ∀ x, tVisited st' x ↔ tVisited st x) :
    unvisitedCount g st' = unvisitedCount g st := by
  unfold unvisitedCount
  rw [List.filter_congr]
  intro x _
  rw [decide_eq_decide]
  have := not_iff_not.mpr (h x)
  simp only [tVisited, not_not] at this
  exact this

theorem uc_push (g : Graph) (st st' : TarjanSt) (v : NodeId) (hv : v ∈ g.nodeIds)
    (hunv : ¬ tVisited st v) (hvs : tVisited st' v)
    (hvis : ∀ x, x ≠ v → (tVisited st' x ↔ tVisited st x)) :
    unvisitedCount g st = unvisitedCount g st' + 1 := by
  refine length_filter_flip_one _ _ v ?_ ?_ ?_ g.nodeIds.dedup
    g.nodeIds.nodup_dedup (List.mem_dedup.mpr hv)
  · exact decide_eq_true (not_not.mp hunv)
  · exact decide_eq_false hvs
  · intro x hx
    rw [decide_eq_decide]
    have := not_iff_not.mpr (hvis x hx).symm
    simp only [tVisited, not_not] at this
    exact this

theorem uc_pos (g : Graph) (st : TarjanSt) (v : NodeId) (hv : v ∈ g.nodeIds)
    (hunv : ¬ tVisited st v) : 1 ≤ unvisitedCount g st := by
  have hmem : v ∈ g.nodeIds.dedup.filter (fun x => decide (tIdx st x = -1)) :=
    List.mem_filter.mpr ⟨List.mem_dedup.mpr hv, decide_eq_true (not_not.mp hunv)⟩
  exact List.length_pos.mpr (List.ne_nil_of_mem hmem)

theorem jsGet_eq_some_mem {α β : Type} [DecidableEq α] (m : List (α × β)) (k : α)
    (v : β) (h : jsGet m k = some v) : (k, v) ∈ m := by
  induction m with
  | nil => cases h
  | cons p rest ih =>
    obtain ⟨k', v'⟩ := p
    by_cases hk : k' = k
    · subst hk
      simp [jsGet] at h
      rcases h with rfl
      exact List.mem_cons_self _ _
    · simp only [jsGet, if_neg hk] at h
      exact List.mem_cons_of_mem _ (ih h)

theorem initTarjan_idx (g : Graph) (x : NodeId) : tIdx (initTarjan g) x = -1 := by
  unfold tIdx
  cases h : jsGet (initTarjan g).nodeData x with
  | none => rfl
  | some d =>
    have hmem := jsGet_eq_some_mem _ _ _ h
    simp only [initTarjan, List.mem_map] at hmem
    obtain ⟨p, _, hp⟩ := hmem
    injection hp with h1 h2
    rw [← h2]

theorem initTarjan_inv (g : Graph) : TInv g [] (initTarjan g) := by
  have hvis : ∀ x, ¬ tVisited (initTarjan g) x := by
    intro x hx
    exact hx (initTarjan_idx g x)
  have hstk : (initTarjan g).stack = [] := rfl
  have hsccs : (initTarjan g).sccs = [] := rfl
  refine ⟨?_, ?_, ?_, ?_, ?_, ?_, ?_, ?_, ?_, ?_, ?_, ?_, ?_, ?_, ?_, ?_, ?_,
    ?_, ?_, ?_, ?_, ?_, ?_, ?_⟩
  · show (g.nodes.map (fun p => (p.1, (⟨-1, -1, false⟩ : TData)))).map Prod.fst = g.nodeIds
    rw [List.map_map]
    rfl
  · intro x hx
    rw [hstk] at hx
    cases hx
  · intro x hx
    rw [hsccs] at hx
    cases hx
  · intro x
    rw [hstk, hsccs]
    simp only [List.flatten_nil, List.not_mem_nil, or_false]
    exact iff_of_false (hvis x) (fun h => h)
  · intro x
    rw [hstk]
    refine iff_of_false ?_ (List.not_mem_nil x)
    unfold tOn
    cases h : jsGet (initTarjan g).nodeData x with
    | none => simp
    | some d =>
      have hmem := jsGet_eq_some_mem _ _ _ h
      simp only [initTarjan, List.mem_map] at hmem
      obtain ⟨p, _, hp⟩ := hmem
      injection hp with h1 h2
      rw [← h2]
      simp
  · rw [hstk]
    exact List.nodup_nil
  · rw [hsccs]
    exact List.nodup_nil
  · intro x hx
    rw [hstk] at hx
    cases hx
  · rw [hstk]
    exact List.Pairwise.nil
  · intro x hx
    exact absurd hx (hvis x)
  · intro x hx
    exact absurd hx (hvis x)
  · intro x hx
    exact absurd hx (hvis x)
  · intro x y hx
    exact absurd hx (hvis x)
  · intro x hx
    rw [hstk] at hx
    cases hx
  · intro u hu
    rw [hstk] at hu
    cases hu
  · intro u hu
    exact absurd hu (hvis u)
  · intro x hx
    rw [hstk] at hx
    cases hx
  · intro l hl
    rw [hsccs] at hl
    cases hl
  · intro l hl
    rw [hsccs] at hl
    cases hl
  · intro l hl
    rw [hsccs] at hl
    cases hl
  · intro u w _ i li hget
    rw [hsccs] at hget
    rw [List.get?_nil] at hget
    cases hget
  · intro x hx
    cases hx
  · intro b hb
    rw [hstk] at hb
    cases hb
  · exact le_refl 0

/-- Fuel adequacy of the successor loop: with enough fuel for the
recursive calls, the loop never returns `none`. -/
theorem visitSuccessors_adequate (g : Graph) (fuel : Nat)
    (hrecA : ∀ (G : List NodeId) (w : NodeId) (st : TarjanSt), TInv g G st →
      w ∈ g.nodeIds → ¬ tVisited st w → (∀ u ∈ st.stack, Reach g u w) →
      unvisitedCount g st ≤ fuel → ∃ st', strongConnect g fuel w st = some st') :
    ∀ (succs : List NodeId) (G : List NodeId) (v : NodeId) (st : TarjanSt),
      MidInv g G v st → (∀ w ∈ succs, w ∈ getSuccessors g v) →
      unvisitedCount g st ≤ fuel →
      ∃ st', visitSuccessors (strongConnect g fuel) v succs st = some st' := by
  intro succs
  induction succs with
  | nil =>
    intro G v st _ _ _
    exact ⟨st, rfl⟩
  | cons w rest ih =>
    intro G v st hmid hsub huc
    have hvmem : v ∈ g.nodeIds := hmid.inv.stack_keys v hmid.v_stack
    have hsubr : ∀ x ∈ rest, x ∈ getSuccessors g v :=
      fun x hx => hsub x (List.mem_cons_of_mem _ hx)
    cases hjw : jsGet st.nodeData w with
    | none =>
      obtain ⟨st', hst'⟩ := ih G v st hmid hsubr huc
      refine ⟨st', ?_⟩
      simp only [visitSuccessors, hjw]
      exact hst'
    | some dw =>
      have hwmem : w ∈ g.nodeIds := by
        have hkm : w ∈ st.nodeData.map Prod.fst :=
          (jsGet_isSome_iff _ _).mp (by rw [hjw]; rfl)
        rw [hmid.inv.keys] at hkm
        exact hkm
      have hrel : edgeRelIn g v w :=
        (edgeRelIn_iff g v w).mpr ⟨hvmem, hwmem, hsub w (List.mem_cons_self _ _)⟩
      by_cases hidx : dw.index = -1
      · have hwunv : ¬ tVisited st w := by
          unfold tVisited
          rw [tIdx_of_get st w dw hjw, hidx]
          exact fun h => h rfl
        have hreachw : ∀ u ∈ st.stack, Reach g u w := fun u hu =>
          Reach.trans (hmid.reach_v u hu) (Reach.single hrel)
        obtain ⟨st1, hst1⟩ := hrecA (v :: G) w st hmid.inv hwmem hwunv hreachw huc
        have hpost := strongConnect_sound g fuel (v :: G) w st st1 hmid.inv
          hwmem hwunv hreachw hst1
        obtain ⟨dv1, hdv1⟩ := hpost.inv.get_some hvmem
        obtain ⟨dw1, hdw1⟩ := hpost.inv.get_some hwmem
        set stn : TarjanSt := { st1 with
          nodeData := jsSet st1.nodeData v
            { dv1 with lowLink := min dv1.lowLink dw1.lowLink } } with hstn
        have hcomp : ∀ rest', visitSuccessors (strongConnect g fuel) v (w :: rest') st =
            visitSuccessors (strongConnect g fuel) v rest' stn := by
          intro rest'
          simp only [visitSuccessors, hjw, if_pos hidx, hst1, hdv1, hdw1]
        have hsing : visitSuccessors (strongConnect g fuel) v [w] st = some stn := by
          rw [hcomp []]
          rfl
        have hvp := visitSuccessors_sound g (strongConnect g fuel)
          (strongConnect_sound g fuel) [w] G v st stn hmid
          (fun x hx => by
            rcases List.mem_singleton.mp hx with rfl
            exact hsub x (List.mem_cons_self _ _)) hsing
        have hucn : unvisitedCount g stn ≤ fuel :=
          le_trans (uc_mono g st stn hvp.visited_mono) huc
        obtain ⟨st', hst'⟩ := ih G v stn hvp.mid hsubr hucn
        refine ⟨st', ?_⟩
        rw [hcomp rest]
        exact hst'
      · by_cases hon : dw.onStack = true
        · obtain ⟨dv0, hdv0⟩ := hmid.inv.get_some hvmem
          set stn : TarjanSt := { st with
            nodeData := jsSet st.nodeData v
              { dv0 with lowLink := min dv0.lowLink dw.index } } with hstn
          have hcomp : ∀ rest', visitSuccessors (strongConnect g fuel) v (w :: rest') st =
              visitSuccessors (strongConnect g fuel) v rest' stn := by
            intro rest'
            simp [visitSuccessors, hjw, hidx, hon, hdv0]
          have hsing : visitSuccessors (strongConnect g fuel) v [w] st = some stn := by
            rw [hcomp []]
            rfl
          have hvp := visitSuccessors_sound g (strongConnect g fuel)
            (strongConnect_sound g fuel) [w] G v st stn hmid
            (fun x hx => by
              rcases List.mem_singleton.mp hx with rfl
              exact hsub x (List.mem_cons_self _ _)) hsing
          have hucn : unvisitedCount g stn ≤ fuel :=
            le_trans (uc_mono g st stn hvp.visited_mono) huc
          obtain ⟨st', hst'⟩ := ih G v stn hvp.mid hsubr hucn
          refine ⟨st', ?_⟩
          rw [hcomp rest]
          exact hst'
        · have hcomp : visitSuccessors (strongConnect g fuel) v (w :: rest) st =
              visitSuccessors (strongConnect g fuel) v rest st := by
            simp only [visitSuccessors, hjw, if_neg hidx]
            rw [if_neg hon]
          obtain ⟨st', hst'⟩ := ih G v st hmid hsubr huc
          refine ⟨st', ?_⟩
          rw [hcomp]
          exact hst'

/-- Fuel adequacy of `strongConnect`: fuel at least the number of
unvisited nodes guarantees a successful run. -/
theorem strongConnect_adequate (g : Graph) :
    ∀ (fuel : Nat) (G : List NodeId) (v : NodeId) (st : TarjanSt), TInv g G st →
      v ∈ g.nodeIds → ¬ tVisited st v → (∀ u ∈ st.stack, Reach g u v) →
      unvisitedCount g st ≤ fuel → ∃ st', strongConnect g fuel v st = some st' := by
  intro fuel
  induction fuel with
  | zero =>
    intro G v st hinv hvmem hunv _ huc
    exact absurd (le_trans (uc_pos g st v hvmem hunv) huc) (by omega)
  | succ fuel ih =>
    intro G v st hinv hvmem hunv hreach huc
    have hmid := midinv_push g G v st hinv hvmem hunv hreach
    set st1 : TarjanSt := ⟨st.counter + 1, v :: st.stack,
      jsSet st.nodeData v ⟨st.counter, st.counter, true⟩, st.sccs⟩ with hst1
    have h1idxv : tIdx st1 v = st.counter := by
      unfold tIdx
      show (match jsGet (jsSet st.nodeData v _) v with
        | some d => d.index
        | none => -1) = _
      rw [jsGet_jsSet, if_pos rfl]
    have h1visv : tVisited st1 v := by
      unfold tVisited
      rw [h1idxv]
      have := hinv.counter_nonneg
      omega
    have h1vis : ∀ x, x ≠ v → (tVisited st1 x ↔ tVisited st x) := by
      intro x hx
      unfold tVisited
      have : jsGet st1.nodeData x = jsGet st.nodeData x := by
        show jsGet (jsSet st.nodeData v _) x = _
        rw [jsGet_jsSet, if_neg (Ne.symm hx)]
      rw [tIdx_congr st st1 x this]
    have huc1 : unvisitedCount g st1 ≤ fuel := by
      have := uc_push g st st1 v hvmem hunv h1visv h1vis
      omega
    obtain ⟨st2, hst2⟩ := visitSuccessors_adequate g fuel ih (getSuccessors g v)
      G v st1 hmid (fun w hw => hw) huc1
    have hvp := visitSuccessors_sound g (strongConnect g fuel)
      (strongConnect_sound g fuel) (getSuccessors g v) G v st1 st2 hmid
      (fun w hw => hw) hst2
    obtain ⟨dv, hdv⟩ := hvp.mid.inv.get_some hvmem
    by_cases hemit : dv.lowLink = dv.index
    · refine ⟨⟨st2.counter, (popToNode v st2.stack).2,
        markOffStack st2.nodeData (popToNode v st2.stack).1,
        st2.sccs ++ [(popToNode v st2.stack).1]⟩, ?_⟩
      simp only [strongConnect, hst2, hdv, if_pos hemit]
    · refine ⟨st2, ?_⟩
      simp only [strongConnect, hst2, hdv, if_neg hemit]

/-- Soundness and adequacy of the root loop: from the empty-stack
invariant, the loop succeeds and visits every listed root, with the
stack empty again at the end. -/
theorem tarjanLoop_sound (g : Graph) (fuel : Nat) :
    ∀ (roots : List NodeId) (st : TarjanSt), TInv g [] st → st.stack = [] →
      (∀ r ∈ roots, r ∈ g.nodeIds) → unvisitedCount g st ≤ fuel →
      ∃ st', tarjanLoop g fuel roots st = some st' ∧ TInv g [] st' ∧
        st'.stack = [] ∧ (∀ r ∈ roots, tVisited st' r) ∧
        (∀ x, tVisited st x → tVisited st' x) := by
  intro roots
  induction roots with
  | nil =>
    intro st hinv hstk _ _
    exact ⟨st, rfl, hinv, hstk, fun r hr => absurd hr (List.not_mem_nil r),
      fun x hx => hx⟩
  | cons r rest ih =>
    intro st hinv hstk hmem huc
    have hrmem : r ∈ g.nodeIds := hmem r (List.mem_cons_self _ _)
    obtain ⟨d, hd⟩ := hinv.get_some hrmem
    by_cases hidx : d.index = -1
    · have hrunv : ¬ tVisited st r := by
        unfold tVisited
        rw [tIdx_of_get st r d hd, hidx]
        exact fun h => h rfl
      have hreach : ∀ u ∈ st.stack, Reach g u r := by
        intro u hu
        rw [hstk] at hu
        cases hu
      obtain ⟨st1, hst1⟩ := strongConnect_adequate g fuel [] r st hinv hrmem
        hrunv hreach huc
      have hpost := strongConnect_sound g fuel [] r st st1 hinv hrmem
        hrunv hreach hst1
      have hstk1 : st1.stack = [] := by
        rcases hpost.fate with ⟨h1, _, _⟩ | ⟨kept, hk, hrk, _, _⟩
        · rw [h1, hstk]
        · exfalso
          cases hlast : st1.stack.getLast? with
          | none =>
            have he := List.getLast?_eq_none_iff.mp hlast
            rw [hk, hstk, List.append_nil] at he
            rw [he] at hrk
            cases hrk
          | some b =>
            exact absurd (hpost.inv.g_last b hlast) (List.not_mem_nil b)
      have huc1 : unvisitedCount g st1 ≤ fuel :=
        le_trans (uc_mono g st st1 hpost.visited_mono) huc
      obtain ⟨st', hrun', hinv', hstk', hvisr', hmono'⟩ := ih st1 hpost.inv hstk1
        (fun x hx => hmem x (List.mem_cons_of_mem _ hx)) huc1
      refine ⟨st', ?_, hinv', hstk', ?_,
        fun x hx => hmono' x (hpost.visited_mono x hx)⟩
      · simp only [tarjanLoop, hd, if_pos hidx, hst1]
        exact hrun'
      · intro x hx
        rcases List.mem_cons.mp hx with rfl | hx'
        · exact hmono' x hpost.v_visited
        · exact hvisr' x hx'
    · have hrvis : tVisited st r := by
        unfold tVisited
        rw [tIdx_of_get st r d hd]
        exact hidx
      obtain ⟨st', hrun', hinv', hstk', hvisr', hmono'⟩ := ih st hinv hstk
        (fun x hx => hmem x (List.mem_cons_of_mem _ hx)) huc
      refine ⟨st', ?_, hinv', hstk', ?_, hmono'⟩
      · simp only [tarjanLoop, hd, if_neg hidx]
        exact hrun'
      · intro x hx
        rcases List.mem_cons.mp hx with rfl | hx'
        · exact hmono' x hrvis
        · exact hvisr' x hx'

/-- The end-to-end Tarjan run behind `findSCCs`: the default fuel is
adequate, the final state satisfies the invariant with an empty stack,
and every graph node has been visited. -/
theorem findSCCs_spec (g : Graph) :
    ∃ st', tarjanLoop g (g.nodes.length + 1) g.nodeIds (initTarjan g) = some st' ∧
      TInv g [] st' ∧ st'.stack = [] ∧ (∀ r ∈ g.nodeIds, tVisited st' r) ∧
      findSCCs g = st'.sccs := by
  have hucinit : unvisitedCount g (initTarjan g) ≤ g.nodes.length + 1 := by
    unfold unvisitedCount
    have h1 := List.length_filter_le (fun x => decide (tIdx (initTarjan g) x = -1))
      g.nodeIds.dedup
    have h2 : g.nodeIds.dedup.length ≤ g.nodeIds.length :=
      (List.dedup_sublist _).length_le
    have h3 : g.nodeIds.length = g.nodes.length := by
      unfold Graph.nodeIds
      rw [List.length_map]
    omega
  obtain ⟨st', h1, h2, h3, h4, _⟩ := tarjanLoop_sound g (g.nodes.length + 1)
    g.nodeIds (initTarjan g) (initTarjan_inv g) rfl (fun r hr => hr) hucinit
  refine ⟨st', h1, h2, h3, h4, ?_⟩
  unfold findSCCs
  rw [h1]

/-! ## The Kahn sort of the component graph -/

theorem jsGet_of_mem_nodup {α β : Type} [DecidableEq α] (m : List (α × β)) (k : α)
    (v : β) (hnd : (m.map Prod.fst).Nodup) (h : (k, v) ∈ m) : jsGet m k = some v := by
  induction m with
  | nil => cases h
  | cons p rest ih =>
    obtain ⟨k', v'⟩ := p
    simp only [List.map_cons, List.nodup_cons] at hnd
    rcases List.mem_cons.mp h with he | hm
    · injection he with h1 h2
      subst h1
      subst h2
      simp [jsGet]
    · have hk : k' ≠ k := by
        intro he
        subst he
        exact hnd.1 (List.mem_map.mpr ⟨(k', v), hm, rfl⟩)
      simp only [jsGet, if_neg hk]
      exact ih hnd.2 hm

theorem kahnPreds_nodup (cg : List (Nat × List Nat)) (c : Nat)
    (hknd : (cg.map Prod.fst).Nodup) : (kahnPreds cg c).Nodup :=
  hknd.sublist (List.Sublist.map Prod.fst (List.filter_sublist cg))

theorem mem_kahnPreds (cg : List (Nat × List Nat)) (c d : Nat) :
    d ∈ kahnPreds cg c ↔ ∃ l, (d, l) ∈ cg ∧ c ∈ l := by
  unfold kahnPreds
  simp only [List.mem_map, List.mem_filter, decide_eq_true_eq]
  constructor
  · rintro ⟨p, ⟨hp, hc⟩, he⟩
    exact ⟨p.2, by rw [← he]; exact hp, hc⟩
  · rintro ⟨l, hm, hc⟩
    exact ⟨(d, l), ⟨hm, hc⟩, rfl⟩

theorem mem_kahnPreds_iff_succs (cg : List (Nat × List Nat)) (c d : Nat)
    (hknd : (cg.map Prod.fst).Nodup) :
    d ∈ kahnPreds cg c ↔ (d ∈ cg.map Prod.fst ∧ c ∈ kahnSuccs cg d) := by
  rw [mem_kahnPreds]
  constructor
  · rintro ⟨l, hm, hc⟩
    refine ⟨List.mem_map.mpr ⟨(d, l), hm, rfl⟩, ?_⟩
    unfold kahnSuccs
    rw [jsGet_of_mem_nodup cg d l hknd hm]
    exact hc
  · rintro ⟨hd, hc⟩
    obtain ⟨l, hl⟩ := get_of_mem_keys cg d hd
    refine ⟨l, jsGet_eq_some_mem cg d l hl, ?_⟩
    unfold kahnSuccs at hc
    rw [hl] at hc
    exact hc

theorem countP_append_singleton (c : Nat) (result : List Nat) (hc : c ∉ result) :
    ∀ l : List Nat, l.Nodup →
      l.countP (fun d => decide (d ∈ result ++ [c])) =
        l.countP (fun d => decide (d ∈ result)) + (if c ∈ l then 1 else 0) := by
  intro l
  induction l with
  | nil => simp
  | cons a t ih =>
    intro hnd
    obtain ⟨hat, htnd⟩ := List.nodup_cons.mp hnd
    rw [List.countP_cons, List.countP_cons]
    by_cases hac : a = c
    · subst hac
      have hct : a ∉ t := hat
      have h1 : decide (a ∈ result ++ [a]) = true := by simp
      have h2 : decide (a ∈ result) = false := by simp [hc]
      have h3 : t.countP (fun d => decide (d ∈ result ++ [a])) =
          t.countP (fun d => decide (d ∈ result)) := by
        apply List.countP_congr
        intro d hd
        have hdc : d ≠ a := fun he => hct (he ▸ hd)
        simp [List.mem_append, hdc]
      rw [h1, h2, h3]
      simp [List.mem_cons]
    · have h1 : decide (a ∈ result ++ [c]) = decide (a ∈ result) := by
        simp [List.mem_append, hac]
      have hca : c ≠ a := fun h => hac h.symm
      have h2 : (c ∈ a :: t) ↔ (c ∈ t) := by
        simp [List.mem_cons, hca]
      rw [h1, ih htnd, if_congr h2 rfl rfl]
      omega

theorem kahnStep_spec (succs : List Nat) :
    ∀ (deg : List (Nat × Int)) (queue : List Nat), succs.Nodup →
      (∀ s ∈ succs, s ∈ deg.map Prod.fst) →
      ((kahnStep succs deg queue).1.map Prod.fst = deg.map Prod.fst) ∧
      (∀ c, c ∉ succs → jsGet (kahnStep succs deg queue).1 c = jsGet deg c) ∧
      (∀ c ∈ succs, jsGet (kahnStep succs deg queue).1 c =
        some ((jsGet deg c).getD 0 - 1)) ∧
      (kahnStep succs deg queue).2 =
        queue ++ succs.filter (fun s => decide ((jsGet deg s).getD 0 - 1 = 0)) := by
  induction succs with
  | nil =>
    intro deg queue _ _
    exact ⟨rfl, fun c _ => rfl, fun c hc => absurd hc (List.not_mem_nil c), by simp [kahnStep]⟩
  | cons s rest ih =>
    intro deg queue hnd hmem
    obtain ⟨hsr, hrnd⟩ := List.nodup_cons.mp hnd
    have hsk : s ∈ deg.map Prod.fst := hmem s (List.mem_cons_self _ _)
    set nd : Int := (jsGet deg s).getD 0 - 1 with hndv
    set deg' : List (Nat × Int) := jsSet deg s nd with hdeg'
    set queue' : List Nat := if nd = 0 then queue ++ [s] else queue with hqueue'
    have hstep : kahnStep (s :: rest) deg queue = kahnStep rest deg' queue' := by
      unfold kahnStep
      rw [List.foldl_cons]
    have hk' : deg'.map Prod.fst = deg.map Prod.fst := jsSet_keys_mem deg s nd hsk
    have hmem' : ∀ x ∈ rest, x ∈ deg'.map Prod.fst := by
      intro x hx
      rw [hk']
      exact hmem x (List.mem_cons_of_mem _ hx)
    obtain ⟨ihk, ihfr, ihdec, ihq⟩ := ih deg' queue' hrnd hmem'
    refine ⟨?_, ?_, ?_, ?_⟩
    · rw [hstep, ihk, hk']
    · intro c hcm
      have hcr : c ∉ rest := fun h => hcm (List.mem_cons_of_mem _ h)
      have hcs : c ≠ s := fun h => hcm (h ▸ List.mem_cons_self _ _)
      rw [hstep, ihfr c hcr, hdeg', jsGet_jsSet, if_neg (Ne.symm hcs)]
    · intro c hcm
      rcases List.mem_cons.mp hcm with rfl | hcr
      · rw [hstep, ihfr c hsr, hdeg', jsGet_jsSet, if_pos rfl]
      · rw [hstep, ihdec c hcr]
        have : jsGet deg' c = jsGet deg c := by
          rw [hdeg', jsGet_jsSet, if_neg]
          intro he
          exact hsr (he ▸ hcr)
        rw [this]
    · rw [hstep, ihq, hqueue']
      have hfr : rest.filter (fun x => decide ((jsGet deg' x).getD 0 - 1 = 0)) =
          rest.filter (fun x => decide ((jsGet deg x).getD 0 - 1 = 0)) := by
        apply List.filter_congr
        intro x hx
        have : jsGet deg' x = jsGet deg x := by
          rw [hdeg', jsGet_jsSet, if_neg]
          intro he
          exact hsr (he ▸ hx)
        rw [this]
      rw [hfr, List.filter_cons]
      by_cases h0 : nd = 0
      · rw [if_pos h0]
        have : decide ((jsGet deg s).getD 0 - 1 = 0) = true := by
          rw [← hndv]
          exact decide_eq_true h0
        rw [this]
        simp
      · rw [if_neg h0]
        have : decide ((jsGet deg s).getD 0 - 1 = 0) = false := by
          rw [← hndv]
          exact decide_eq_false h0
        rw [this]
        simp

theorem jsGet_map_const {α β γ : Type} [DecidableEq α] (l : List (α × β)) (c0 : γ)
    (k : α) : jsGet (l.map (fun p => (p.1, c0))) k = (jsGet l k).map (fun _ => c0) := by
  induction l with
  | nil => rfl
  | cons p rest ih =>
    obtain ⟨a, b⟩ := p
    by_cases h : a = k
    · subst h
      simp [jsGet]
    · simp only [List.map_cons, jsGet, if_neg h]
      exact ih

theorem incrFold_get (l : List Nat) :
    ∀ (deg : List (Nat × Int)) (c : Nat), l.Nodup →
      (∀ s ∈ l, s ∈ deg.map Prod.fst) →
      ((l.foldl (fun deg2 s => jsSet deg2 s ((jsGet deg2 s).getD 0 + 1)) deg).map
        Prod.fst = deg.map Prod.fst) ∧
      jsGet (l.foldl (fun deg2 s => jsSet deg2 s ((jsGet deg2 s).getD 0 + 1)) deg) c =
        (if c ∈ l then (jsGet deg c).map (fun x => x + 1) else jsGet deg c) := by
  induction l with
  | nil =>
    intro deg c _ _
    simp
  | cons s rest ih =>
    intro deg c hnd hmem
    obtain ⟨hsr, hrnd⟩ := List.nodup_cons.mp hnd
    have hsk : s ∈ deg.map Prod.fst := hmem s (List.mem_cons_self _ _)
    set deg' : List (Nat × Int) := jsSet deg s ((jsGet deg s).getD 0 + 1) with hdeg'
    have hk' : deg'.map Prod.fst = deg.map Prod.fst := jsSet_keys_mem deg s _ hsk
    have hmem' : ∀ x ∈ rest, x ∈ deg'.map Prod.fst := by
      intro x hx
      rw [hk']
      exact hmem x (List.mem_cons_of_mem _ hx)
    obtain ⟨ihk, ihget⟩ := ih deg' c hrnd hmem'
    have hfold : (s :: rest).foldl
        (fun deg2 x => jsSet deg2 x ((jsGet deg2 x).getD 0 + 1)) deg =
        rest.foldl (fun deg2 x => jsSet deg2 x ((jsGet deg2 x).getD 0 + 1)) deg' := by
      rw [List.foldl_cons]
    refine ⟨by rw [hfold, ihk, hk'], ?_⟩
    rw [hfold, ihget]
    by_cases hcs : c = s
    · subst hcs
      rw [if_neg hsr, if_pos (List.mem_cons_self _ _)]
      obtain ⟨x, hx⟩ := get_of_mem_keys deg c hsk
      rw [hdeg', jsGet_jsSet, if_pos rfl, hx]
      simp
    · have hget' : jsGet deg' c = jsGet deg c := by
        rw [hdeg', jsGet_jsSet, if_neg (fun h => hcs h.symm)]
      by_cases hcr : c ∈ rest
      · rw [if_pos hcr, if_pos (List.mem_cons_of_mem _ hcr), hget']
      · rw [if_neg hcr, if_neg (by
          intro h
          rcases List.mem_cons.mp h with h | h
          · exact hcs h
          · exact hcr h), hget']

theorem degFold_get (entries : List (Nat × List Nat)) :
    ∀ (deg : List (Nat × Int)) (c : Nat),
      (∀ p ∈ entries, p.2.Nodup ∧ ∀ s ∈ p.2, s ∈ deg.map Prod.fst) →
      ((entries.foldl (fun d p =>
          p.2.foldl (fun d2 s => jsSet d2 s ((jsGet d2 s).getD 0 + 1)) d) deg).map
        Prod.fst = deg.map Prod.fst) ∧
      jsGet (entries.foldl (fun d p =>
          p.2.foldl (fun d2 s => jsSet d2 s ((jsGet d2 s).getD 0 + 1)) d) deg) c =
        (jsGet deg c).map
          (fun x => x + (entries.countP (fun p => decide (c ∈ p.2)) : Int)) := by
  induction entries with
  | nil =>
    intro deg c _
    refine ⟨rfl, ?_⟩
    simp only [List.foldl_nil, List.countP_nil, Nat.cast_zero]
    cases jsGet deg c <;> simp
  | cons p rest ih =>
    intro deg c hh
    have hp := hh p (List.mem_cons_self _ _)
    obtain ⟨ik, iget⟩ := incrFold_get p.2 deg c hp.1 hp.2
    set deg' := p.2.foldl (fun d2 s => jsSet d2 s ((jsGet d2 s).getD 0 + 1)) deg
      with hdeg'
    have hh' : ∀ q ∈ rest, q.2.Nodup ∧ ∀ s ∈ q.2, s ∈ deg'.map Prod.fst := by
      intro q hq
      refine ⟨(hh q (List.mem_cons_of_mem _ hq)).1, ?_⟩
      intro s hs
      rw [ik]
      exact (hh q (List.mem_cons_of_mem _ hq)).2 s hs
    obtain ⟨ihk, ihget⟩ := ih deg' c hh'
    have hfold : (p :: rest).foldl (fun d q =>
        q.2.foldl (fun d2 s => jsSet d2 s ((jsGet d2 s).getD 0 + 1)) d) deg =
        rest.foldl (fun d q =>
          q.2.foldl (fun d2 s => jsSet d2 s ((jsGet d2 s).getD 0 + 1)) d) deg' := by
      rw [List.foldl_cons]
    refine ⟨by rw [hfold, ihk, ik], ?_⟩
    rw [hfold, ihget, iget, List.countP_cons]
    by_cases hcp : c ∈ p.2
    · rw [if_pos hcp]
      have : decide (c ∈ p.2) = true := decide_eq_true hcp
      rw [this]
      cases jsGet deg c with
      | none => simp
      | some x =>
        simp only [Option.map_some', Option.some.injEq]
        push_cast
        ring
    · rw [if_neg hcp]
      have : decide (c ∈ p.2) = false := decide_eq_false hcp
      rw [this]
      cases jsGet deg c with
      | none => simp
      | some x => simp

/-- Characterization of `computeInDegrees`: same keys as the component
graph, and each component's entry counts its predecessors. -/
theorem computeInDegrees_spec (cg : List (Nat × List Nat))
    (hsnd : ∀ p ∈ cg, p.2.Nodup)
    (hsmem : ∀ p ∈ cg, ∀ s ∈ p.2, s ∈ cg.map Prod.fst) :
    ((computeInDegrees cg).map Prod.fst = cg.map Prod.fst) ∧
    ∀ c ∈ cg.map Prod.fst, jsGet (computeInDegrees cg) c =
      some ((kahnPreds cg c).length : Int) := by
  have hbase : ∀ c, jsGet (cg.map (fun p => (p.1, (0 : Int)))) c =
      (jsGet cg c).map (fun _ => (0 : Int)) := fun c => jsGet_map_const cg 0 c
  have hbk : (cg.map (fun p => (p.1, (0 : Int)))).map Prod.fst = cg.map Prod.fst := by
    rw [List.map_map]
    rfl
  have hh : ∀ p ∈ cg, p.2.Nodup ∧ ∀ s ∈ p.2,
      s ∈ (cg.map (fun p => (p.1, (0 : Int)))).map Prod.fst := by
    intro p hp
    refine ⟨hsnd p hp, ?_⟩
    intro s hs
    rw [hbk]
    exact hsmem p hp s hs
  constructor
  · unfold computeInDegrees
    rw [(degFold_get cg (cg.map (fun p => (p.1, (0 : Int)))) 0 hh).1]
    exact hbk
  · intro c hc
    obtain ⟨l, hl⟩ := get_of_mem_keys cg c hc
    have := (degFold_get cg (cg.map (fun p => (p.1, (0 : Int)))) c hh).2
    unfold computeInDegrees
    rw [this, hbase c, hl]
    simp only [Option.map_some', Option.some.injEq]
    have hlen : (kahnPreds cg c).length = cg.countP (fun p => decide (c ∈ p.2)) := by
      unfold kahnPreds
      rw [List.length_map, ← List.countP_eq_length_filter]
    rw [hlen]
    ring

/-- The initial Kahn state satisfies the loop invariant. -/
theorem kahn_init (cg : List (Nat × List Nat)) (hknd : (cg.map Prod.fst).Nodup)
    (hsnd : ∀ p ∈ cg, p.2.Nodup)
    (hsmem : ∀ p ∈ cg, ∀ s ∈ p.2, s ∈ cg.map Prod.fst) :
    KInv cg (computeInDegrees cg) (initQueue (computeInDegrees cg)) [] := by
  obtain ⟨hdk, hdv⟩ := computeInDegrees_spec cg hsnd hsmem
  have hdnd : ((computeInDegrees cg).map Prod.fst).Nodup := by
    rw [hdk]
    exact hknd
  refine ⟨?_, ?_, hdk, ?_, ?_, ?_, ?_⟩
  · simp only [List.nil_append]
    unfold initQueue
    exact hdnd.sublist (List.Sublist.map Prod.fst (List.filter_sublist _))
  · intro c hc
    simp only [List.nil_append] at hc
    unfold initQueue at hc
    obtain ⟨p, hp, he⟩ := List.mem_map.mp hc
    rw [← hdk]
    exact List.mem_map.mpr ⟨p, (List.mem_filter.mp hp).1, he⟩
  · intro c hc
    rw [hdv c hc]
    have h0 : (kahnPreds cg c).countP (fun d => decide (d ∈ ([] : List Nat))) = 0 := by
      simp
    rw [h0]
    simp
  · intro i c hget
    rw [List.get?_nil] at hget
    cases hget
  · intro c hc d hd
    unfold initQueue at hc
    obtain ⟨p, hp, he⟩ := List.mem_map.mp hc
    obtain ⟨hpm, hpz⟩ := List.mem_filter.mp hp
    have hget : jsGet (computeInDegrees cg) c = some p.2 :=
      jsGet_of_mem_nodup _ _ _ hdnd (by rw [← he]; exact hpm)
    have hcm : c ∈ cg.map Prod.fst := by
      rw [← hdk]
      exact List.mem_map.mpr ⟨p, hpm, he⟩
    rw [hdv c hcm] at hget
    injection hget with hv
    have hz : p.2 = 0 := by
      simpa using hpz
    rw [hz] at hv
    have hlen : (kahnPreds cg c).length = 0 := by
      have h := hv.symm
      omega
    rw [List.length_eq_zero] at hlen
    rw [hlen] at hd
    cases hd
  · intro c hc hcount
    have h0 : (kahnPreds cg c).countP (fun d => decide (d ∈ ([] : List Nat))) = 0 := by
      simp
    rw [h0] at hcount
    have hget : jsGet (computeInDegrees cg) c = some 0 := by
      rw [hdv c hc, ← hcount]
      simp
    have hmem := jsGet_eq_some_mem _ _ _ hget
    simp only [List.nil_append]
    unfold initQueue
    refine List.mem_map.mpr ⟨(c, 0), List.mem_filter.mpr ⟨hmem, by simp⟩, rfl⟩

/-- The Kahn while-loop: from an invariant state with sufficient fuel,
the loop terminates with an invariant final state and an empty queue. -/
theorem kahnLoop_run (cg : List (Nat × List Nat)) (hknd : (cg.map Prod.fst).Nodup)
    (hsnd : ∀ p ∈ cg, p.2.Nodup)
    (hsmem : ∀ p ∈ cg, ∀ s ∈ p.2, s ∈ cg.map Prod.fst) :
    ∀ (fuel : Nat) (queue : List Nat) (deg : List (Nat × Int)) (result : List Nat),
      KInv cg deg queue result → cg.length + 1 ≤ fuel + result.length →
      ∃ r, kahnLoop cg fuel queue deg result = some r ∧ ∃ deg', KInv cg deg' [] r := by
  intro fuel
  induction fuel with
  | zero =>
    intro queue deg result hinv hfuel
    cases queue with
    | nil => exact ⟨result, rfl, deg, hinv⟩
    | cons c qs =>
      exfalso
      have hlen : (result ++ c :: qs).length ≤ (cg.map Prod.fst).length :=
        List.Subperm.length_le
          (List.subperm_of_subset hinv.rq_nodup (fun x hx => hinv.rq_keys x hx))
      rw [List.length_append, List.length_map] at hlen
      simp only [List.length_cons] at hlen
      omega
  | succ fuel ih =>
    intro queue deg result hinv hfuel
    cases queue with
    | nil => exact ⟨result, rfl, deg, hinv⟩
    | cons c qs =>
      have hck : c ∈ cg.map Prod.fst :=
        hinv.rq_keys c (List.mem_append_right _ (List.mem_cons_self _ _))
      obtain ⟨cl, hcl⟩ := get_of_mem_keys cg c hck
      have hclm : (c, cl) ∈ cg := jsGet_eq_some_mem cg c cl hcl
      have hsuccs : kahnSuccs cg c = cl := by
        unfold kahnSuccs
        rw [hcl]
        rfl
      have hsnd' : (kahnSuccs cg c).Nodup := by
        rw [hsuccs]
        exact hsnd (c, cl) hclm
      have hsmem' : ∀ s ∈ kahnSuccs cg c, s ∈ cg.map Prod.fst := by
        rw [hsuccs]
        exact hsmem (c, cl) hclm
      have hsmemdeg : ∀ s ∈ kahnSuccs cg c, s ∈ deg.map Prod.fst := by
        intro s hs
        rw [hinv.deg_keys]
        exact hsmem' s hs
      obtain ⟨hks_keys, hks_frame, hks_dec, hks_q⟩ :=
        kahnStep_spec (kahnSuccs cg c) deg qs hsnd' hsmemdeg
      have hcres : c ∉ result := by
        intro hc
        have := hinv.rq_nodup
        rw [List.nodup_append] at this
        exact this.2.2 hc (List.mem_cons_self _ _)
      have hcqs : c ∉ qs := by
        have := hinv.rq_nodup
        rw [List.nodup_append] at this
        exact (List.nodup_cons.mp this.2.1).1
      have hpredc : ∀ x, c ∈ kahnPreds cg x ↔ x ∈ kahnSuccs cg c := by
        intro x
        rw [mem_kahnPreds_iff_succs cg x c hknd]
        simp [hck]
      have hcount : ∀ x, (kahnPreds cg x).countP (fun d => decide (d ∈ result ++ [c])) =
          (kahnPreds cg x).countP (fun d => decide (d ∈ result)) +
            (if x ∈ kahnSuccs cg c then 1 else 0) := by
        intro x
        rw [countP_append_singleton c result hcres (kahnPreds cg x)
          (kahnPreds_nodup cg x hknd)]
        rw [if_congr (hpredc x) rfl rfl]
      have hresall : ∀ x ∈ result, ∀ d ∈ kahnPreds cg x, d ∈ result := by
        intro x hx d hd
        obtain ⟨i, hi⟩ := List.mem_iff_get?.mp hx
        obtain ⟨j, _, hj⟩ := hinv.emit_ok i x hi d hd
        exact List.get?_mem hj
      have hcountle : ∀ x, (kahnPreds cg x).countP (fun d => decide (d ∈ result)) ≤
          (kahnPreds cg x).length := fun x => List.countP_le_length _
      -- new-state components
      have henq : ∀ s, s ∈ (kahnSuccs cg c).filter
          (fun s => decide ((jsGet deg s).getD 0 - 1 = 0)) ↔
          (s ∈ kahnSuccs cg c ∧
            ((kahnPreds cg s).countP (fun d => decide (d ∈ result)) : Int) =
              ((kahnPreds cg s).length : Int) - 1) := by
        intro s
        rw [List.mem_filter]
        constructor
        · rintro ⟨hs, hz⟩
          refine ⟨hs, ?_⟩
          rw [hinv.deg_val s (hsmem' s hs)] at hz
          simp only [Option.getD_some, decide_eq_true_eq] at hz
          omega
        · rintro ⟨hs, hz⟩
          refine ⟨hs, ?_⟩
          rw [hinv.deg_val s (hsmem' s hs)]
          simp only [Option.getD_some, decide_eq_true_eq]
          omega
      have hnotold : ∀ s, s ∈ kahnSuccs cg c → s ∉ result ++ c :: qs := by
        intro s hs hmem
        have hcp : c ∈ kahnPreds cg s := (hpredc s).mpr hs
        rcases List.mem_append.mp hmem with h | h
        · exact hcres (hresall s h c hcp)
        · exact hcres (hinv.queue_ok s h c hcp)
      have hinv' : KInv cg (kahnStep (kahnSuccs cg c) deg qs).1
          ((kahnStep (kahnSuccs cg c) deg qs).2) (result ++ [c]) := by
        rw [hks_q]
        refine ⟨?_, ?_, ?_, ?_, ?_, ?_, ?_⟩
        · have hre : (result ++ [c]) ++ (qs ++ (kahnSuccs cg c).filter
              (fun s => decide ((jsGet deg s).getD 0 - 1 = 0))) =
              (result ++ c :: qs) ++ (kahnSuccs cg c).filter
                (fun s => decide ((jsGet deg s).getD 0 - 1 = 0)) := by
            simp
          rw [hre, List.nodup_append]
          refine ⟨hinv.rq_nodup, hsnd'.filter _, ?_⟩
          intro a ha haf
          have has : a ∈ kahnSuccs cg c := (List.mem_filter.mp haf).1
          exact hnotold a has ha
        · intro x hx
          rcases List.mem_append.mp hx with h | h
          · rcases List.mem_append.mp h with h' | h'
            · exact hinv.rq_keys x (List.mem_append_left _ h')
            · rcases List.mem_singleton.mp h'
              exact hck
          · rcases List.mem_append.mp h with h' | h'
            · exact hinv.rq_keys x
                (List.mem_append_right _ (List.mem_cons_of_mem _ h'))
            · exact hsmem' x (List.mem_filter.mp h').1
        · rw [hks_keys, hinv.deg_keys]
        · intro x hx
          by_cases hxs : x ∈ kahnSuccs cg c
          · rw [hks_dec x hxs, hinv.deg_val x hx]
            simp only [Option.getD_some]
            rw [hcount x, if_pos hxs]
            push_cast
            ring_nf
          · rw [hks_frame x hxs, hinv.deg_val x hx]
            rw [hcount x, if_neg hxs]
            simp
        · intro i x hget d hd
          have hlt : i < result.length + 1 := by
            have := (List.get?_eq_some.mp hget).1
            rw [List.length_append, List.length_singleton] at this
            exact this
          by_cases hi : i < result.length
          · rw [List.get?_append hi] at hget
            obtain ⟨j, hj, hjget⟩ := hinv.emit_ok i x hget d hd
            exact ⟨j, hj, by
              rw [List.get?_append (lt_trans hj hi)]
              exact hjget⟩
          · have hieq : i = result.length := by omega
            have hxc : x = c := by
              subst hieq
              rw [List.get?_append_right (le_refl _)] at hget
              simp at hget
              exact hget.symm
            subst hxc
            have hdr : d ∈ result :=
              hinv.queue_ok x (List.mem_cons_self _ _) d hd
            obtain ⟨j, hj⟩ := List.mem_iff_get?.mp hdr
            have hjlt : j < result.length := (List.get?_eq_some.mp hj).1
            exact ⟨j, by omega, by
              rw [List.get?_append hjlt]
              exact hj⟩
        · intro x hx d hd
          rcases List.mem_append.mp hx with h | h
          · exact List.mem_append_left _
              (hinv.queue_ok x (List.mem_cons_of_mem _ h) d hd)
          · have hxs : x ∈ kahnSuccs cg c := (List.mem_filter.mp h).1
            have hfull := ((henq x).mp h).2
            have hcnew : (kahnPreds cg x).countP
                (fun d => decide (d ∈ result ++ [c])) = (kahnPreds cg x).length := by
              rw [hcount x, if_pos hxs]
              omega
            have := List.countP_eq_length.mp hcnew
            have hdm := this d hd
            simp only [decide_eq_true_eq] at hdm
            exact hdm
        · intro x hx hcnt
          by_cases hxs : x ∈ kahnSuccs cg c
          · have hold : ((kahnPreds cg x).countP
                (fun d => decide (d ∈ result)) : Int) =
                ((kahnPreds cg x).length : Int) - 1 := by
              rw [hcount x, if_pos hxs] at hcnt
              have := hcountle x
              push_cast
              omega
            have hxe : x ∈ (kahnSuccs cg c).filter
                (fun s => decide ((jsGet deg s).getD 0 - 1 = 0)) :=
              (henq x).mpr ⟨hxs, hold⟩
            exact List.mem_append_right _ (List.mem_append_right _ hxe)
          · rw [hcount x, if_neg hxs] at hcnt
            have hxin := hinv.zero_in x hx (by omega)
            rcases List.mem_append.mp hxin with h | h
            · exact List.mem_append_left _ (List.mem_append_left _ h)
            · rcases List.mem_cons.mp h with rfl | h'
              · exact List.mem_append_left _
                  (List.mem_append_right _ (List.mem_singleton_self _))
              · exact List.mem_append_right _ (List.mem_append_left _ h')
      obtain ⟨r, hr, hfin⟩ := ih (kahnStep (kahnSuccs cg c) deg qs).2
        (kahnStep (kahnSuccs cg c) deg qs).1 (result ++ [c]) hinv'
        (by rw [List.length_append, List.length_singleton]; omega)
      refine ⟨r, ?_, hfin⟩
      simp only [kahnLoop]
      exact hr

theorem mem_le_foldr_max (l : List Nat) (x : Nat) (h : x ∈ l) :
    x ≤ l.foldr max 0 := by
  induction l with
  | nil => cases h
  | cons a t ih =>
    rcases List.mem_cons.mp h with rfl | h'
    · exact le_max_left _ _
    · exact le_trans (ih h') (le_max_right _ _)

/-- Kahn completeness on the component graph: since every recorded edge
points to a strictly smaller component index, every component is
eventually emitted. -/
theorem kahn_complete (cg : List (Nat × List Nat)) (hknd : (cg.map Prod.fst).Nodup)
    (hdown : ∀ p ∈ cg, ∀ s ∈ p.2, s < p.1) (deg' : List (Nat × Int))
    (result : List Nat) (hinv : KInv cg deg' [] result) :
    ∀ c ∈ cg.map Prod.fst, c ∈ result := by
  set N : Nat := (cg.map Prod.fst).foldr max 0 + 1 with hN
  have hbound : ∀ c ∈ cg.map Prod.fst, c < N := by
    intro c hc
    have := mem_le_foldr_max _ c hc
    omega
  suffices haux : ∀ j c, c ∈ cg.map Prod.fst → N ≤ c + j → c ∈ result by
    intro c hc
    exact haux N c hc (by omega)
  intro j
  induction j with
  | zero =>
    intro c hc hj
    exact absurd (hbound c hc) (by omega)
  | succ j ihj =>
    intro c hc hj
    have hall : ∀ d ∈ kahnPreds cg c, d ∈ result := by
      intro d hd
      obtain ⟨l, hm, hcl⟩ := (mem_kahnPreds cg c d).mp hd
      have hcd : c < d := hdown (d, l) hm c hcl
      have hdk : d ∈ cg.map Prod.fst := List.mem_map.mpr ⟨(d, l), hm, rfl⟩
      exact ihj d hdk (by omega)
    have hcnt : (kahnPreds cg c).countP (fun d => decide (d ∈ result)) =
        (kahnPreds cg c).length :=
      List.countP_eq_length.mpr (fun d hd => decide_eq_true (hall d hd))
    have := hinv.zero_in c hc hcnt
    simpa using this

/-- The full specification of `topologicalSortComponents` on a component
graph with set-valued successor lists whose recorded edges strictly
decrease the component index: the output lists each component exactly
once, and sources before targets. -/
theorem topologicalSortComponents_spec (cg : List (Nat × List Nat))
    (hknd : (cg.map Prod.fst).Nodup) (hsnd : ∀ p ∈ cg, p.2.Nodup)
    (hsmem : ∀ p ∈ cg, ∀ s ∈ p.2, s ∈ cg.map Prod.fst)
    (hdown : ∀ p ∈ cg, ∀ s ∈ p.2, s < p.1) :
    (topologicalSortComponents cg).Nodup ∧
    (∀ c, c ∈ topologicalSortComponents cg ↔ c ∈ cg.map Prod.fst) ∧
    (∀ c s, c ∈ cg.map Prod.fst → s ∈ kahnSuccs cg c → ∀ i j,
      (topologicalSortComponents cg).get? i = some c →
      (topologicalSortComponents cg).get? j = some s → i < j) := by
  obtain ⟨r, hr, deg', hfin⟩ := kahnLoop_run cg hknd hsnd hsmem (cg.length + 1)
    (initQueue (computeInDegrees cg)) (computeInDegrees cg) []
    (kahn_init cg hknd hsnd hsmem) (by simp)
  have htsc : topologicalSortComponents cg = r := by
    unfold topologicalSortComponents
    simp only [hr]
  rw [htsc]
  refine ⟨by simpa using hfin.rq_nodup, ?_, ?_⟩
  · intro c
    constructor
    · intro hc
      exact hfin.rq_keys c (by simpa using hc)
    · intro hc
      exact kahn_complete cg hknd hdown deg' r hfin c hc
  · intro c s hck hs i j hi hj
    have hcp : c ∈ kahnPreds cg s :=
      (mem_kahnPreds_iff_succs cg s c hknd).mpr ⟨hck, hs⟩
    obtain ⟨j', hj', hj'get⟩ := hfin.emit_ok j s hj c hcp
    have hrnd : r.Nodup := by simpa using hfin.rq_nodup
    have : i = j' := List.get?_inj (List.get?_eq_some.mp hi).1 hrnd
      (hi.trans hj'get.symm)
    omega

/-! ## The component graph -/

theorem mem_jsSet {α β : Type} [DecidableEq α] (m : List (α × β)) (k : α) (v : β)
    (p : α × β) (h : p ∈ jsSet m k v) : p ∈ m ∨ p = (k, v) := by
  induction m with
  | nil =>
    simp only [jsSet] at h
    rcases List.mem_singleton.mp h with rfl
    exact Or.inr rfl
  | cons q rest ih =>
    obtain ⟨k', v'⟩ := q
    by_cases hk : k' = k
    · subst hk
      simp only [jsSet, if_pos rfl] at h
      rcases List.mem_cons.mp h with rfl | hm
      · exact Or.inr rfl
      · exact Or.inl (List.mem_cons_of_mem _ hm)
    · simp only [jsSet, if_neg hk] at h
      rcases List.mem_cons.mp h with rfl | hm
      · exact Or.inl (List.mem_cons_self _ _)
      · rcases ih hm with h' | h'
        · exact Or.inl (List.mem_cons_of_mem _ h')
        · exact Or.inr h'

theorem mem_addToSet (s : List Nat) (x y : Nat) :
    y ∈ addToSet s x ↔ y ∈ s ∨ y = x := by
  unfold addToSet
  by_cases h : x ∈ s
  · rw [if_pos h]
    constructor
    · exact Or.inl
    · rintro (h' | rfl)
      · exact h'
      · exact h
  · rw [if_neg h]
    simp

theorem addToSet_nodup (s : List Nat) (x : Nat) (h : s.Nodup) :
    (addToSet s x).Nodup := by
  unfold addToSet
  by_cases hx : x ∈ s
  · rw [if_pos hx]
    exact h
  · rw [if_neg hx]
    rw [List.nodup_append]
    exact ⟨h, List.nodup_singleton x, fun a ha hax => hx ((List.mem_singleton.mp hax) ▸ ha)⟩

theorem n2cInner_get (l : List NodeId) (ci : Nat) :
    ∀ (acc : List (NodeId × Nat)) (x : NodeId),
      jsGet (l.foldl (fun a nid => jsSet a nid ci) acc) x =
        if x ∈ l then some ci else jsGet acc x := by
  induction l with
  | nil =>
    intro acc x
    simp
  | cons nid rest ih =>
    intro acc x
    rw [List.foldl_cons, ih]
    by_cases hr : x ∈ rest
    · rw [if_pos hr, if_pos (List.mem_cons_of_mem _ hr)]
    · rw [if_neg hr, jsGet_jsSet]
      by_cases hx : nid = x
      · subst hx
        rw [if_pos rfl, if_pos (List.mem_cons_self _ _)]
      · rw [if_neg hx, if_neg (by
          intro h
          rcases List.mem_cons.mp h with h' | h'
          · exact hx h'.symm
          · exact hr h')]

theorem n2cOuter_none (ps : List (Nat × List NodeId)) :
    ∀ (acc : List (NodeId × Nat)) (x : NodeId), (∀ p ∈ ps, x ∉ p.2) →
      jsGet (ps.foldl (fun acc p => p.2.foldl (fun a nid => jsSet a nid p.1) acc) acc) x
        = jsGet acc x := by
  induction ps with
  | nil =>
    intro acc x _
    rfl
  | cons p rest ih =>
    intro acc x hx
    rw [List.foldl_cons, ih _ x (fun q hq => hx q (List.mem_cons_of_mem _ hq)),
      n2cInner_get, if_neg (hx p (List.mem_cons_self _ _))]

theorem n2cOuter_stable (ps : List (Nat × List NodeId)) :
    ∀ (acc : List (NodeId × Nat)) (x : NodeId) (c : Nat), jsGet acc x = some c →
      (∀ p ∈ ps, x ∈ p.2 → p.1 = c) →
      jsGet (ps.foldl (fun acc p => p.2.foldl (fun a nid => jsSet a nid p.1) acc) acc) x
        = some c := by
  induction ps with
  | nil =>
    intro acc x c h _
    exact h
  | cons p rest ih =>
    intro acc x c h hall
    rw [List.foldl_cons]
    refine ih _ x c ?_ (fun q hq => hall q (List.mem_cons_of_mem _ hq))
    rw [n2cInner_get]
    by_cases hx : x ∈ p.2
    · rw [if_pos hx, hall p (List.mem_cons_self _ _) hx]
    · rw [if_neg hx]
      exact h

theorem n2cOuter_some (ps : List (Nat × List NodeId)) :
    ∀ (acc : List (NodeId × Nat)) (x : NodeId) (c : Nat), (∃ p ∈ ps, x ∈ p.2) →
      (∀ p ∈ ps, x ∈ p.2 → p.1 = c) →
      jsGet (ps.foldl (fun acc p => p.2.foldl (fun a nid => jsSet a nid p.1) acc) acc) x
        = some c := by
  induction ps with
  | nil =>
    rintro acc x c ⟨p, hp, _⟩ _
    cases hp
  | cons p rest ih =>
    intro acc x c hex hall
    rw [List.foldl_cons]
    by_cases hx : x ∈ p.2
    · refine n2cOuter_stable rest _ x c ?_ (fun q hq => hall q (List.mem_cons_of_mem _ hq))
      rw [n2cInner_get, if_pos hx, hall p (List.mem_cons_self _ _) hx]
    · obtain ⟨q, hq, hxq⟩ := hex
      have hqr : q ∈ rest := by
        rcases List.mem_cons.mp hq with rfl | h
        · exact absurd hxq hx
        · exact h
      exact ih _ x c ⟨q, hqr, hxq⟩ (fun q' hq' => hall q' (List.mem_cons_of_mem _ hq'))

theorem flatten_get_unique {α : Type} :
    ∀ (L : List (List α)), L.flatten.Nodup →
      ∀ (i j : Nat) (li lj : List α) (x : α), L.get? i = some li →
        L.get? j = some lj → x ∈ li → x ∈ lj → i = j := by
  intro L
  induction L with
  | nil =>
    intro _ i j li lj x hi
    rw [List.get?_nil] at hi
    cases hi
  | cons l rest ih =>
    intro hnd i j li lj x hi hj hxi hxj
    rw [List.flatten_cons, List.nodup_append] at hnd
    cases i with
    | zero =>
      simp only [List.get?_cons_zero, Option.some.injEq] at hi
      subst hi
      cases j with
      | zero => rfl
      | succ j' =>
        exfalso
        simp only [List.get?_cons_succ] at hj
        have hljm : lj ∈ rest := List.get?_mem hj
        have hxf : x ∈ rest.flatten := List.mem_flatten.mpr ⟨lj, hljm, hxj⟩
        exact hnd.2.2 hxi hxf
    | succ i' =>
      cases j with
      | zero =>
        exfalso
        simp only [List.get?_cons_zero, Option.some.injEq] at hj
        subst hj
        simp only [List.get?_cons_succ] at hi
        have hlim : li ∈ rest := List.get?_mem hi
        have hxf : x ∈ rest.flatten := List.mem_flatten.mpr ⟨li, hlim, hxi⟩
        exact hnd.2.2 hxj hxf
      | succ j' =>
        simp only [List.get?_cons_succ] at hi hj
        have := ih hnd.2.1 i' j' li lj x hi hj hxi hxj
        omega

/-- `nodeToComponent` characterized: with globally distinct SCC members,
a node maps to `c` exactly when it belongs to the component at index `c`. -/
theorem nodeToComponent_spec (sccs : List (List NodeId))
    (hnd : sccs.flatten.Nodup) (x : NodeId) (c : Nat) :
    jsGet (nodeToComponent sccs) x = some c ↔
      ∃ l, sccs.get? c = some l ∧ x ∈ l := by
  have henum : ∀ (i : Nat) (a : List NodeId), (i, a) ∈ sccs.enum ↔
      sccs.get? i = some a := by
    intro i a
    rw [List.mem_enum_iff_getElem?, List.get?_eq_getElem?]
  have huniq : ∀ p q : Nat × List NodeId, p ∈ sccs.enum → q ∈ sccs.enum →
      x ∈ p.2 → x ∈ q.2 → p.1 = q.1 := by
    intro p q hp hq hxp hxq
    rw [show p = (p.1, p.2) from rfl, henum] at hp
    rw [show q = (q.1, q.2) from rfl, henum] at hq
    exact flatten_get_unique sccs hnd p.1 q.1 p.2 q.2 x hp hq hxp hxq
  constructor
  · intro h
    by_cases hex : ∃ p ∈ sccs.enum, x ∈ p.2
    · obtain ⟨p, hp, hxp⟩ := hex
      have hall : ∀ q ∈ sccs.enum, x ∈ q.2 → q.1 = p.1 :=
        fun q hq hxq => huniq q p hq hp hxq hxp
      have := n2cOuter_some sccs.enum [] x p.1 ⟨p, hp, hxp⟩ hall
      unfold nodeToComponent at h
      rw [this] at h
      injection h with h
      subst h
      refine ⟨p.2, ?_, hxp⟩
      rw [← henum]
      exact hp
    · exfalso
      push_neg at hex
      unfold nodeToComponent at h
      rw [n2cOuter_none sccs.enum [] x hex] at h
      cases h
  · rintro ⟨l, hl, hxl⟩
    have hp : (c, l) ∈ sccs.enum := (henum c l).mpr hl
    have hall : ∀ q ∈ sccs.enum, x ∈ q.2 → q.1 = c :=
      fun q hq hxq => huniq q (c, l) hq hp hxq hxl
    unfold nodeToComponent
    exact n2cOuter_some sccs.enum [] x c ⟨(c, l), hp, hxl⟩ hall

theorem bcgStep_cases (n2c : List (NodeId × Nat)) (acc : List (Nat × List Nat))
    (e : Edge) :
    bcgStep n2c acc e = acc ∨
    ∃ fc tc succs, jsGet n2c e.fromNodeId = some fc ∧
      jsGet n2c e.toNodeId = some tc ∧ fc ≠ tc ∧ jsGet acc fc = some succs ∧
      bcgStep n2c acc e = jsSet acc fc (addToSet succs tc) := by
  cases hf : jsGet n2c e.fromNodeId with
  | none =>
    left
    unfold bcgStep
    simp only [hf]
  | some fc =>
    cases ht : jsGet n2c e.toNodeId with
    | none =>
      left
      unfold bcgStep
      simp only [hf, ht]
    | some tc =>
      have hred : bcgStep n2c acc e =
          if fc ≠ tc then
            (match jsGet acc fc with
              | some succs => jsSet acc fc (addToSet succs tc)
              | none => acc)
          else acc := by
        unfold bcgStep
        simp only [hf, ht]
      by_cases hne : fc ≠ tc
      · cases hs : jsGet acc fc with
        | none =>
          left
          rw [hred, if_pos hne]
          simp only [hs]
        | some succs =>
          right
          refine ⟨fc, tc, succs, rfl, rfl, hne, hs, ?_⟩
          rw [hred, if_pos hne]
          simp only [hs]
      · left
        rw [hred, if_neg hne]

theorem bcgFold_keys (n2c : List (NodeId × Nat)) :
    ∀ (edges : List Edge) (acc : List (Nat × List Nat)),
      (edges.foldl (bcgStep n2c) acc).map Prod.fst = acc.map Prod.fst := by
  intro edges
  induction edges with
  | nil => intro acc; rfl
  | cons e rest ih =>
    intro acc
    rw [List.foldl_cons, ih]
    rcases bcgStep_cases n2c acc e with h | ⟨fc, tc, succs, _, _, _, hs, h⟩
    · rw [h]
    · rw [h]
      exact jsSet_keys_mem acc fc _ ((jsGet_isSome_iff _ _).mp (by rw [hs]; rfl))

theorem bcgFold_vals (n2c : List (NodeId × Nat)) (Q : Nat → Nat → Prop) :
    ∀ (edges : List Edge) (acc : List (Nat × List Nat)),
      (∀ p ∈ acc, p.2.Nodup ∧ ∀ s ∈ p.2, Q p.1 s) →
      (∀ e ∈ edges, ∀ fc tc, jsGet n2c e.fromNodeId = some fc →
        jsGet n2c e.toNodeId = some tc → fc ≠ tc → Q fc tc) →
      ∀ p ∈ edges.foldl (bcgStep n2c) acc, p.2.Nodup ∧ ∀ s ∈ p.2, Q p.1 s := by
  intro edges
  induction edges with
  | nil =>
    intro acc hacc _
    exact hacc
  | cons e rest ih =>
    intro acc hacc hedges
    rw [List.foldl_cons]
    refine ih _ ?_ (fun e' he' => hedges e' (List.mem_cons_of_mem _ he'))
    rcases bcgStep_cases n2c acc e with h | ⟨fc, tc, succs, hf, ht, hne, hs, h⟩
    · rw [h]
      exact hacc
    · rw [h]
      intro p hp
      rcases mem_jsSet acc fc _ p hp with hm | he
      · exact hacc p hm
      · subst he
        obtain ⟨hsnd0, hQ0⟩ := hacc (fc, succs) (jsGet_eq_some_mem acc fc succs hs)
        refine ⟨addToSet_nodup succs tc hsnd0, ?_⟩
        intro s hsm
        rcases (mem_addToSet succs tc s).mp hsm with h' | rfl
        · exact hQ0 s h'
        · exact hedges e (List.mem_cons_self _ _) fc s hf ht hne

theorem bcgFold_mono (n2c : List (NodeId × Nat)) :
    ∀ (edges : List Edge) (acc : List (Nat × List Nat)) (c s : Nat),
      s ∈ (jsGet acc c).getD [] → s ∈ (jsGet (edges.foldl (bcgStep n2c) acc) c).getD [] := by
  intro edges
  induction edges with
  | nil =>
    intro acc c s h
    exact h
  | cons e rest ih =>
    intro acc c s h
    rw [List.foldl_cons]
    refine ih _ c s ?_
    rcases bcgStep_cases n2c acc e with hh | ⟨fc, tc, succs, hf, ht, hne, hsg, hh⟩
    · rw [hh]
      exact h
    · rw [hh, jsGet_jsSet]
      by_cases hc : fc = c
      · subst hc
        rw [if_pos rfl]
        rw [hsg] at h
        simp only [Option.getD_some] at h ⊢
        exact (mem_addToSet succs tc s).mpr (Or.inl h)
      · rw [if_neg hc]
        exact h

theorem bcgFold_rec (n2c : List (NodeId × Nat)) :
    ∀ (edges : List Edge) (acc : List (Nat × List Nat)) (e : Edge) (fc tc : Nat),
      e ∈ edges → jsGet n2c e.fromNodeId = some fc →
      jsGet n2c e.toNodeId = some tc → fc ≠ tc → fc ∈ acc.map Prod.fst →
      tc ∈ (jsGet (edges.foldl (bcgStep n2c) acc) fc).getD [] := by
  intro edges
  induction edges with
  | nil =>
    intro acc e fc tc he
    cases he
  | cons e' rest ih =>
    intro acc e fc tc he hf ht hne hfk
    rw [List.foldl_cons]
    rcases List.mem_cons.mp he with rfl | hm
    · obtain ⟨succs, hsg⟩ := get_of_mem_keys acc fc hfk
      have hstep : bcgStep n2c acc e = jsSet acc fc (addToSet succs tc) := by
        unfold bcgStep
        simp only [hf, ht, if_pos hne, hsg]
      rw [hstep]
      refine bcgFold_mono n2c rest _ fc tc ?_
      rw [jsGet_jsSet, if_pos rfl]
      simp only [Option.getD_some]
      exact (mem_addToSet succs tc tc).mpr (Or.inr rfl)
    · refine ih _ e fc tc hm hf ht hne ?_
      rcases bcgStep_cases n2c acc e' with hh | ⟨fc', tc', succs', _, _, _, hsg', hh⟩
      · rw [hh]
        exact hfk
      · rw [hh, jsSet_keys_mem acc fc' _
          ((jsGet_isSome_iff _ _).mp (by rw [hsg']; rfl))]
        exact hfk

/-- Consolidated properties of the emitted SCC list. -/
theorem findSCCs_props (g : Graph) :
    (findSCCs g).flatten.Nodup ∧
    (∀ x ∈ (findSCCs g).flatten, x ∈ g.nodeIds) ∧
    (∀ x ∈ g.nodeIds, x ∈ (findSCCs g).flatten) ∧
    (∀ l ∈ findSCCs g, l ≠ []) ∧
    (∀ l ∈ findSCCs g, ∀ x ∈ l, ∀ y ∈ l, Reach g x y) ∧
    (∀ l ∈ findSCCs g, ∀ x ∈ l, ∀ y, Reach g x y → Reach g y x → y ∈ l) ∧
    (∀ u w, edgeRelIn g u w → ∀ i li, (findSCCs g).get? i = some li → u ∈ li →
      ∃ j lj, j ≤ i ∧ (findSCCs g).get? j = some lj ∧ w ∈ lj) := by
  obtain ⟨st', _, hinv, hstk, hvis, hsccs⟩ := findSCCs_spec g
  rw [hsccs]
  refine ⟨hinv.flat_nodup, hinv.flat_keys, ?_, hinv.sccs_ne, hinv.sccs_mutual,
    hinv.sccs_max, hinv.rank⟩
  intro x hx
  have hv := hvis x hx
  rcases (hinv.visited_iff x).mp hv with h | h
  · rw [hstk] at h
    cases h
  · exact h

/-- Consolidated properties of the component graph: index-valued keys,
set-valued successor lists pointing to strictly smaller component
indices, and every crossing original edge recorded. -/
theorem buildComponentGraph_spec (g : Graph) :
    ((buildComponentGraph (findSCCs g) g).map Prod.fst =
      List.range (findSCCs g).length) ∧
    (∀ p ∈ buildComponentGraph (findSCCs g) g, p.2.Nodup) ∧
    (∀ p ∈ buildComponentGraph (findSCCs g) g, ∀ s ∈ p.2,
      s ∈ (buildComponentGraph (findSCCs g) g).map Prod.fst) ∧
    (∀ p ∈ buildComponentGraph (findSCCs g) g, ∀ s ∈ p.2, s < p.1) ∧
    (∀ e ∈ g.edges, ∀ fc tc,
      jsGet (nodeToComponent (findSCCs g)) e.fromNodeId = some fc →
      jsGet (nodeToComponent (findSCCs g)) e.toNodeId = some tc → fc ≠ tc →
      tc ∈ kahnSuccs (buildComponentGraph (findSCCs g) g) fc) := by
  obtain ⟨hfnd, hfkeys, _, _, _, _, hrank⟩ := findSCCs_props g
  set sccs := findSCCs g with hsccs
  set base : List (Nat × List Nat) := sccs.enum.map (fun p => (p.1, [])) with hbase
  have hbk : base.map Prod.fst = List.range sccs.length := by
    rw [hbase, List.map_map]
    exact List.enum_map_fst sccs
  have hkeys : (buildComponentGraph sccs g).map Prod.fst = List.range sccs.length := by
    unfold buildComponentGraph
    rw [bcgFold_keys]
    exact hbk
  have hadd : ∀ e ∈ g.edges, ∀ fc tc,
      jsGet (nodeToComponent sccs) e.fromNodeId = some fc →
      jsGet (nodeToComponent sccs) e.toNodeId = some tc → fc ≠ tc →
      tc < sccs.length ∧ tc < fc := by
    intro e he fc tc hf ht hne
    obtain ⟨lf, hlf, hxf⟩ := (nodeToComponent_spec sccs hfnd e.fromNodeId fc).mp hf
    obtain ⟨lt2, hlt2, hxt⟩ := (nodeToComponent_spec sccs hfnd e.toNodeId tc).mp ht
    have htlen : tc < sccs.length := (List.get?_eq_some.mp hlt2).1
    refine ⟨htlen, ?_⟩
    have hfm : e.fromNodeId ∈ g.nodeIds :=
      hfkeys _ (List.mem_flatten.mpr ⟨lf, List.get?_mem hlf, hxf⟩)
    have htm : e.toNodeId ∈ g.nodeIds :=
      hfkeys _ (List.mem_flatten.mpr ⟨lt2, List.get?_mem hlt2, hxt⟩)
    have hrel : edgeRelIn g e.fromNodeId e.toNodeId := by
      rw [edgeRelIn_iff]
      refine ⟨hfm, htm, ?_⟩
      rw [getSuccessors_iff]
      exact ⟨e, he, rfl, rfl⟩
    obtain ⟨j, lj, hj, hgj, hwj⟩ := hrank _ _ hrel fc lf hlf hxf
    have : j = tc := flatten_get_unique sccs hfnd j tc lj lt2 e.toNodeId hgj hlt2 hwj hxt
    omega
  have hbasev : ∀ p ∈ base, p.2.Nodup ∧ ∀ s ∈ p.2,
      s < sccs.length ∧ s < p.1 := by
    intro p hp
    rw [hbase] at hp
    obtain ⟨q, _, hq⟩ := List.mem_map.mp hp
    rw [← hq]
    exact ⟨List.nodup_nil, fun s hs => absurd hs (List.not_mem_nil s)⟩
  have hvals := bcgFold_vals (nodeToComponent sccs)
    (fun fc tc => tc < sccs.length ∧ tc < fc) g.edges base hbasev
    (fun e he fc tc hf ht hne => hadd e he fc tc hf ht hne)
  refine ⟨hkeys, ?_, ?_, ?_, ?_⟩
  · intro p hp
    exact (hvals p hp).1
  · intro p hp s hs
    rw [hkeys]
    exact List.mem_range.mpr ((hvals p hp).2 s hs).1
  · intro p hp s hs
    exact ((hvals p hp).2 s hs).2
  · intro e he fc tc hf ht hne
    have hfc : fc < sccs.length := by
      obtain ⟨lf, hlf, _⟩ := (nodeToComponent_spec sccs hfnd e.fromNodeId fc).mp hf
      exact (List.get?_eq_some.mp hlf).1
    have hfck : fc ∈ base.map Prod.fst := by
      rw [hbk]
      exact List.mem_range.mpr hfc
    unfold kahnSuccs
    unfold buildComponentGraph
    exact bcgFold_rec (nodeToComponent sccs) g.edges base e fc tc he hf ht hne hfck

theorem mtsFold_eq (sccs : List (List NodeId)) :
    ∀ (cids : List Nat) (init : List NodeId),
      cids.foldl (fun nodeOrder cid =>
        match sccs.get? cid with
        | some scc => nodeOrder ++ scc
        | none => nodeOrder) init =
      init ++ (cids.filterMap (fun cid => sccs.get? cid)).flatten := by
  intro cids
  induction cids with
  | nil =>
    intro init
    simp
  | cons c rest ih =>
    intro init
    rw [List.foldl_cons]
    cases hc : sccs.get? c with
    | none =>
      simp only [hc, List.filterMap_cons]
      exact ih init
    | some scc =>
      simp only [hc, List.filterMap_cons]
      rw [ih (init ++ scc), List.flatten_cons, List.append_assoc]

theorem nodup_of_mem_flatten_nodup {α : Type} (L : List (List α))
    (h : L.flatten.Nodup) (l : List α) (hl : l ∈ L) : l.Nodup := by
  obtain ⟨pre, post, rfl⟩ := List.append_of_mem hl
  rw [List.flatten_append, List.flatten_cons] at h
  exact h.sublist ((List.sublist_append_left l _).trans (List.sublist_append_right _ _))

theorem pairwise_get_opt {α : Type} {R : α → α → Prop} (l : List α)
    (h : l.Pairwise R) : ∀ (i j : Nat) (x y : α), i < j → l.get? i = some x →
      l.get? j = some y → R x y := by
  intro i j x y hij hi hj
  rw [List.pairwise_iff_get] at h
  obtain ⟨hil, hx⟩ := List.get?_eq_some.mp hi
  obtain ⟨hjl, hy⟩ := List.get?_eq_some.mp hj
  have := h ⟨i, hil⟩ ⟨j, hjl⟩ (by exact hij)
  rw [hx, hy] at this
  exact this

theorem mts_eq (g : Graph) :
    modifiedTopologicalSort g =
      ((topologicalSortComponents (buildComponentGraph (findSCCs g) g)).filterMap
        (fun cid => (findSCCs g).get? cid)).flatten := by
  unfold modifiedTopologicalSort
  rw [mtsFold_eq]
  simp

/--
The master specification of `modifiedTopologicalSort`: the order lists
each node id exactly once; earlier nodes live in components emitted no
later; and for every original edge crossing two components the source's
component is strictly earlier in the component order.
-/
theorem mts_spec (g : Graph) :
    (modifiedTopologicalSort g).Nodup ∧
    (∀ x, x ∈ modifiedTopologicalSort g ↔ x ∈ g.nodeIds) ∧
    (∀ (x y : NodeId) (i j : Nat), (modifiedTopologicalSort g).get? i = some x →
      (modifiedTopologicalSort g).get? j = some y → i < j →
      ∀ cx cy px py, jsGet (nodeToComponent (findSCCs g)) x = some cx →
        jsGet (nodeToComponent (findSCCs g)) y = some cy →
        (topologicalSortComponents (buildComponentGraph (findSCCs g) g)).get? px =
          some cx →
        (topologicalSortComponents (buildComponentGraph (findSCCs g) g)).get? py =
          some cy → px ≤ py) ∧
    (∀ e ∈ g.edges, ∀ fc tc,
      jsGet (nodeToComponent (findSCCs g)) e.fromNodeId = some fc →
      jsGet (nodeToComponent (findSCCs g)) e.toNodeId = some tc → fc ≠ tc →
      ∀ pf pt,
        (topologicalSortComponents (buildComponentGraph (findSCCs g) g)).get? pf =
          some fc →
        (topologicalSortComponents (buildComponentGraph (findSCCs g) g)).get? pt =
          some tc → pf < pt) ∧
    (∀ c, c < (findSCCs g).length → ∃ p,
      (topologicalSortComponents (buildComponentGraph (findSCCs g) g)).get? p =
        some c) ∧
    (topologicalSortComponents (buildComponentGraph (findSCCs g) g)).Nodup := by
  obtain ⟨hfnd, hfkeys, hfcover, _, _, _, _⟩ := findSCCs_props g
  obtain ⟨hbk, hbnd, hbmem, hbdown, hbrec⟩ := buildComponentGraph_spec g
  set sccs := findSCCs g with hsccs
  set cg := buildComponentGraph sccs g with hcg
  have hknd : (cg.map Prod.fst).Nodup := by
    rw [hbk]
    exact List.nodup_range _
  obtain ⟨hco_nd, hco_mem, hco_ord⟩ := topologicalSortComponents_spec cg hknd hbnd
    hbmem hbdown
  set co := topologicalSortComponents cg with hco
  set L := co.filterMap (fun cid => sccs.get? cid) with hL
  have horder : modifiedTopologicalSort g = L.flatten := mts_eq g
  have hblock : ∀ l ∈ L, ∃ c ∈ co, sccs.get? c = some l := by
    intro l hl
    rw [hL] at hl
    obtain ⟨c, hc, hgc⟩ := List.mem_filterMap.mp hl
    exact ⟨c, hc, hgc⟩
  have hxc_of : ∀ (c : Nat) (l : List NodeId) (x : NodeId), sccs.get? c = some l →
      x ∈ l → jsGet (nodeToComponent sccs) x = some c := by
    intro c l x hc hx
    exact (nodeToComponent_spec sccs hfnd x c).mpr ⟨l, hc, hx⟩
  refine ⟨?_, ?_, ?_, ?_, ?_, hco_nd⟩
  · rw [horder]
    refine List.pairwise_join.mpr ⟨?_, ?_⟩
    · intro l hl
      obtain ⟨c, _, hgc⟩ := hblock l hl
      exact nodup_of_mem_flatten_nodup sccs hfnd l (List.get?_mem hgc)
    · refine List.Pairwise.filterMap (fun cid => sccs.get? cid) ?_ hco_nd
      intro c1 c2 hne l1 hl1 l2 hl2
      rw [Option.mem_def] at hl1 hl2
      intro x hx1 y hy2 hxy
      subst hxy
      exact hne (flatten_get_unique sccs hfnd c1 c2 l1 l2 x hl1 hl2 hx1 hy2)
  · intro x
    rw [horder]
    constructor
    · intro hx
      obtain ⟨l, hl, hxl⟩ := List.mem_flatten.mp hx
      obtain ⟨c, _, hgc⟩ := hblock l hl
      exact hfkeys x (List.mem_flatten.mpr ⟨l, List.get?_mem hgc, hxl⟩)
    · intro hx
      have hxf := hfcover x hx
      obtain ⟨l, hl, hxl⟩ := List.mem_flatten.mp hxf
      obtain ⟨c, hgc⟩ := List.mem_iff_get?.mp hl
      have hck : c ∈ cg.map Prod.fst := by
        rw [hbk]
        exact List.mem_range.mpr (List.get?_eq_some.mp hgc).1
      have hcco : c ∈ co := (hco_mem c).mpr hck
      refine List.mem_flatten.mpr ⟨l, ?_, hxl⟩
      rw [hL]
      exact List.mem_filterMap.mpr ⟨c, hcco, hgc⟩
  · have hcoS : co.Pairwise (fun c1 c2 => ∀ p1 p2, co.get? p1 = some c1 →
        co.get? p2 = some c2 → p1 ≤ p2) := by
      rw [List.pairwise_iff_get]
      intro i j hij p1 p2 hp1 hp2
      have h1 : co.get? (i : Nat) = some (co.get i) := List.get?_eq_get i.2
      have h2 : co.get? (j : Nat) = some (co.get j) := List.get?_eq_get j.2
      have e1 : p1 = (i : Nat) :=
        List.get?_inj (List.get?_eq_some.mp hp1).1 hco_nd (hp1.trans h1.symm)
      have e2 : p2 = (j : Nat) :=
        List.get?_inj (List.get?_eq_some.mp hp2).1 hco_nd (hp2.trans h2.symm)
      rw [e1, e2]
      exact le_of_lt hij
    have hpairP : L.flatten.Pairwise (fun x y =>
        ∀ cx cy px py, jsGet (nodeToComponent sccs) x = some cx →
          jsGet (nodeToComponent sccs) y = some cy →
          co.get? px = some cx → co.get? py = some cy → px ≤ py) := by
      refine List.pairwise_join.mpr ⟨?_, ?_⟩
      · intro l hl
        obtain ⟨c, _, hgc⟩ := hblock l hl
        refine List.pairwise_of_forall_mem_list ?_
        intro x hx y hy cx cy px py hjx hjy hpx hpy
        have hcx : cx = c := by
          have := (hxc_of c l x hgc hx).symm.trans hjx
          injection this with h
          exact h.symm
        have hcy : cy = c := by
          have := (hxc_of c l y hgc hy).symm.trans hjy
          injection this with h
          exact h.symm
        subst hcx
        subst hcy
        have : px = py :=
          List.get?_inj (List.get?_eq_some.mp hpx).1 hco_nd (hpx.trans hpy.symm)
        omega
      · refine List.Pairwise.filterMap (fun cid => sccs.get? cid) ?_ hcoS
        intro c1 c2 hS l1 hl1 l2 hl2 x hx y hy
        rw [Option.mem_def] at hl1 hl2
        intro cx cy px py hjx hjy hpx hpy
        have hcx : cx = c1 := by
          have := (hxc_of c1 l1 x hl1 hx).symm.trans hjx
          injection this with h
          exact h.symm
        have hcy : cy = c2 := by
          have := (hxc_of c2 l2 y hl2 hy).symm.trans hjy
          injection this with h
          exact h.symm
        subst hcx
        subst hcy
        exact hS px py hpx hpy
    intro x y i j hi hj hij
    rw [horder] at hi hj
    exact pairwise_get_opt L.flatten hpairP i j x y hij hi hj
  · intro e he fc tc hf ht hne pf pt hpf hpt
    have hfck : fc ∈ cg.map Prod.fst := by
      obtain ⟨lf, hlf, _⟩ := (nodeToComponent_spec sccs hfnd e.fromNodeId fc).mp hf
      rw [hbk]
      exact List.mem_range.mpr (List.get?_eq_some.mp hlf).1
    have hsucc : tc ∈ kahnSuccs cg fc := hbrec e he fc tc hf ht hne
    exact hco_ord fc tc hfck hsucc pf pt hpf hpt
  · intro c hc
    have hck : c ∈ cg.map Prod.fst := by
      rw [hbk]
      exact List.mem_range.mpr hc
    exact List.mem_iff_get?.mp ((hco_mem c).mpr hck)

theorem comp_of_node (g : Graph) (x : NodeId) (hx : x ∈ g.nodeIds) :
    ∃ c l, (findSCCs g).get? c = some l ∧ x ∈ l ∧
      jsGet (nodeToComponent (findSCCs g)) x = some c := by
  obtain ⟨hfnd, _, hfcover, _, _, _, _⟩ := findSCCs_props g
  obtain ⟨l, hl, hxl⟩ := List.mem_flatten.mp (hfcover x hx)
  obtain ⟨c, hc⟩ := List.mem_iff_get?.mp hl
  exact ⟨c, l, hc, hxl, (nodeToComponent_spec _ hfnd x c).mpr ⟨l, hc, hxl⟩⟩

/--
Claim C3: for every acyclic graph (no directed cycle, self-loops
included), the ordering returned by `modifiedTopologicalSort` is a valid
topological order: for every edge with both endpoints in the graph, the
position of the edge's source node in the ordering is strictly smaller
than the position of its destination node.
-/
theorem cld_C3_theorem (g : Graph) (hacy : Acyclic g) (e : Edge) (he : e ∈ g.edges)
    (hfm : e.fromNodeId ∈ g.nodeIds) (htm : e.toNodeId ∈ g.nodeIds) :
    ∃ i j, indexOf (modifiedTopologicalSort g) e.fromNodeId = some i ∧
      indexOf (modifiedTopologicalSort g) e.toNodeId = some j ∧ i < j := by
  obtain ⟨hnd, hmem, hrank, hord, hpos, _⟩ := mts_spec g
  obtain ⟨hfnd, _, hfcover, _, hmut, _, _⟩ := findSCCs_props g
  have hrel : edgeRelIn g e.fromNodeId e.toNodeId := ⟨hfm, htm, e, he, rfl, rfl⟩
  have hne : e.fromNodeId ≠ e.toNodeId := by
    intro h
    rw [← h] at hrel
    exact hacy _ (Relation.TransGen.single hrel)
  obtain ⟨cf, lf, hcf, hxf, hjf⟩ := comp_of_node g e.fromNodeId hfm
  obtain ⟨ct, lt2, hct, hxt, hjt⟩ := comp_of_node g e.toNodeId htm
  have hcne : cf ≠ ct := by
    intro h
    rw [h] at hcf
    have hlf2 : lf = lt2 := by
      have := hcf.symm.trans hct
      injection this
    rw [hlf2] at hxf
    have hR : Reach g e.toNodeId e.fromNodeId :=
      hmut lt2 (List.get?_mem hct) e.toNodeId hxt e.fromNodeId hxf
    exact hacy _ (Relation.TransGen.trans_left (Relation.TransGen.single hrel) hR)
  obtain ⟨pf, hpf⟩ := hpos cf (List.get?_eq_some.mp hcf).1
  obtain ⟨pt, hpt⟩ := hpos ct (List.get?_eq_some.mp hct).1
  have hplt : pf < pt := hord e he cf ct hjf hjt hcne pf pt hpf hpt
  obtain ⟨i, hi⟩ := List.mem_iff_get?.mp ((hmem _).mpr hfm)
  obtain ⟨j, hj⟩ := List.mem_iff_get?.mp ((hmem _).mpr htm)
  refine ⟨i, j, indexOf_of_get? _ _ i hnd hi, indexOf_of_get? _ _ j hnd hj, ?_⟩
  rcases lt_trichotomy i j with h | h | h
  · exact h
  · exfalso
    rw [h] at hi
    have := hi.symm.trans hj
    injection this with hh
    exact hne hh
  · exfalso
    have := hrank e.toNodeId e.fromNodeId j i hj hi h ct cf pt pf hjt hjf hpt hpf
    omega

/-- The fan-in graph `X → Y` is acyclic: both its edges leave `X` and
enter `Y`. -/
theorem graphW_acyclic : Acyclic graphW := by
  have hstep : ∀ u w, edgeRelIn graphW u w → u = "X" ∧ w = "Y" := by
    intro u w h
    obtain ⟨_, _, e, he, hf, ht⟩ := h
    have : e = e1W ∨ e = e2W := by
      rcases List.mem_cons.mp he with h' | h'
      · exact Or.inl h'
      · rcases List.mem_singleton.mp h' with rfl
        exact Or.inr rfl
    rcases this with rfl | rfl
    · exact ⟨hf.symm, ht.symm⟩
    · exact ⟨hf.symm, ht.symm⟩
  intro v hv
  obtain ⟨c, hvc, hcv⟩ := Relation.TransGen.head'_iff.mp hv
  obtain ⟨h1, h2⟩ := hstep v c hvc
  subst h2
  rcases Relation.ReflTransGen.cases_head hcv with he | ⟨d, hyd, _⟩
  · rw [h1] at he
    exact absurd he (by decide)
  · exact absurd (hstep _ _ hyd).1 (by decide)

/--
Claim C3, witness: in the acyclic two-node graph `X → Y`, the source `X`
is placed strictly before the destination `Y`.
-/
theorem cld_C3_witness :
    ∃ i j, indexOf (modifiedTopologicalSort graphW) e1W.fromNodeId = some i ∧
      indexOf (modifiedTopologicalSort graphW) e1W.toNodeId = some j ∧ i < j :=
  cld_C3_theorem graphW graphW_acyclic e1W (by decide) (by decide) (by decide)

/--
Claim C4: for every graph, `modifiedTopologicalSort` returns a linear
ordering containing each node id of the graph exactly once (the order is
duplicate-free and lists an id iff it is a node id of the graph); the
members of each strongly connected component occupy contiguous positions
(any node listed between two mutually reachable nodes is itself mutually
reachable with them); and two calls on the same unmodified graph return
identical orderings.
-/
theorem cld_C4_theorem (g : Graph) :
    (modifiedTopologicalSort g).Nodup ∧
    (∀ x, x ∈ modifiedTopologicalSort g ↔ x ∈ g.nodeIds) ∧
    (∀ (i j k : Nat) (x y z : NodeId), i ≤ j → j ≤ k →
      (modifiedTopologicalSort g).get? i = some x →
      (modifiedTopologicalSort g).get? j = some y →
      (modifiedTopologicalSort g).get? k = some z →
      Reach g x z → Reach g z x → MutReach g x y) ∧
    modifiedTopologicalSort g = modifiedTopologicalSort g := by
  obtain ⟨hnd, hmem, hrank, _, hpos, hco_nd⟩ := mts_spec g
  obtain ⟨hfnd, _, _, _, hmutl, hmax, _⟩ := findSCCs_props g
  refine ⟨hnd, hmem, ?_, rfl⟩
  intro i j k x y z hij hjk hi hj hk hxz hzx
  have hxm : x ∈ g.nodeIds := (hmem x).mp (List.get?_mem hi)
  have hym : y ∈ g.nodeIds := (hmem y).mp (List.get?_mem hj)
  have hzm : z ∈ g.nodeIds := (hmem z).mp (List.get?_mem hk)
  obtain ⟨cx, lx, hcx, hxlx, hjx⟩ := comp_of_node g x hxm
  obtain ⟨cy, ly, hcy, hyly, hjy⟩ := comp_of_node g y hym
  obtain ⟨cz, lz, hcz, hzlz, hjz⟩ := comp_of_node g z hzm
  have hzlx : z ∈ lx := hmax lx (List.get?_mem hcx) x hxlx z hxz hzx
  have hczx : cz = cx := flatten_get_unique _ hfnd cz cx lz lx z hcz hcx hzlz hzlx
  obtain ⟨px, hpx⟩ := hpos cx (List.get?_eq_some.mp hcx).1
  obtain ⟨py, hpy⟩ := hpos cy (List.get?_eq_some.mp hcy).1
  have hpz : (topologicalSortComponents (buildComponentGraph (findSCCs g) g)).get?
      px = some cz := by
    rw [hczx]
    exact hpx
  have h1 : px ≤ py := by
    rcases lt_or_eq_of_le hij with h | h
    · exact hrank x y i j hi hj h cx cy px py hjx hjy hpx hpy
    · rw [h] at hi
      have hxy : x = y := by
        have := hi.symm.trans hj
        injection this
      subst hxy
      have hcxy : cx = cy := by
        have := hjx.symm.trans hjy
        injection this
      rw [hcxy] at hpx
      have := List.get?_inj (List.get?_eq_some.mp hpx).1 hco_nd (hpx.trans hpy.symm)
      omega
  have h2 : py ≤ px := by
    rcases lt_or_eq_of_le hjk with h | h
    · exact hrank y z j k hj hk h cy cz py px hjy hjz hpy hpz
    · rw [h] at hj
      have hyz : y = z := by
        have := hj.symm.trans hk
        injection this
      subst hyz
      have hcyz : cy = cz := by
        have := hjy.symm.trans hjz
        injection this
      rw [hcyz] at hpy
      have := List.get?_inj (List.get?_eq_some.mp hpy).1 hco_nd (hpy.trans hpz.symm)
      omega
  have hpxy : px = py := le_antisymm h1 h2
  rw [hpxy] at hpx
  have hcxy : cx = cy := by
    have := hpx.symm.trans hpy
    injection this
  have hlxy : lx = ly := by
    rw [hcxy] at hcx
    have := hcx.symm.trans hcy
    injection this
  rw [← hlxy] at hyly
  exact ⟨hmutl lx (List.get?_mem hcx) x hxlx y hyly,
    hmutl lx (List.get?_mem hcx) y hyly x hxlx⟩

/--
Claim C4, witness: applied to the one-node self-loop graph at its only
position — the node is listed exactly once and is mutually reachable
with itself.
-/
theorem cld_C4_witness :
    (modifiedTopologicalSort graphA).Nodup ∧
    ("A" ∈ modifiedTopologicalSort graphA ↔ "A" ∈ graphA.nodeIds) ∧
    MutReach graphA "A" "A" := by
  refine ⟨(cld_C4_theorem graphA).1, (cld_C4_theorem graphA).2.1 "A", ?_⟩
  exact (cld_C4_theorem graphA).2.2.1 0 0 0 "A" "A" "A" (le_refl 0) (le_refl 0)
    (by decide) (by decide) (by decide) (Reach.refl "A") (Reach.refl "A")

/-! ## Validity: runs that cannot throw -/

theorem gatherLoop_no_error (g : Graph) (node : NodeDefinition)
    (co : List (NodeId × Value)) (bv : List (String × ℚ)) (order : List NodeId)
    (idx : Nat) :
    ∀ (edges : List Edge) (iv : List (String × ℚ)),
      (∀ e ∈ edges, e.fromNodeId ∈ order) →
      ∃ res, gatherLoop g node co bv order idx edges iv = .ok res := by
  intro edges
  induction edges with
  | nil =>
    intro iv _
    exact ⟨iv, rfl⟩
  | cons e rest ih =>
    intro iv hsrc
    have hsr : ∀ e' ∈ rest, e'.fromNodeId ∈ order :=
      fun e' he' => hsrc e' (List.mem_cons_of_mem _ he')
    cases hp : node.inputs.find? (fun port => port.id = e.toPortId) with
    | none =>
      obtain ⟨res, hres⟩ := ih iv hsr
      refine ⟨res, ?_⟩
      simp only [gatherLoop, hp]
      exact hres
    | some inputPort =>
      have hidx : (indexOf order e.fromNodeId).isSome = true :=
        (indexOf_isSome_iff _ _).mpr (hsrc e (List.mem_cons_self _ _))
      cases hio : indexOf order e.fromNodeId with
      | none =>
        rw [hio] at hidx
        cases hidx
      | some srcIdx =>
        obtain ⟨res, hres⟩ := ih _ hsr
        refine ⟨res, ?_⟩
        simp only [gatherLoop, hp, hio]
        exact hres

theorem gatherInputs_no_error (nodeId : NodeId) (node : NodeDefinition) (g : Graph)
    (co : List (NodeId × Value)) (bv : List (String × ℚ)) (order : List NodeId)
    (hself : nodeId ∈ order)
    (hsrc : ∀ e ∈ g.edges, e.toNodeId = nodeId → e.fromNodeId ∈ order) :
    ∃ res, gatherInputs nodeId node g co bv order = .ok res := by
  have hidx : (indexOf order nodeId).isSome = true :=
    (indexOf_isSome_iff _ _).mpr hself
  cases hio : indexOf order nodeId with
  | none =>
    rw [hio] at hidx
    cases hidx
  | some idx =>
    obtain ⟨res, hres⟩ := gatherLoop_no_error g node co bv order idx
      (g.edges.filter (fun edge => edge.toNodeId = nodeId)) []
      (fun e he => by
        have hm := List.mem_filter.mp he
        exact hsrc e hm.1 (by simpa using hm.2))
    refine ⟨res, ?_⟩
    unfold gatherInputs
    simp only [hio]
    exact hres

theorem runNodes_no_error (g : Graph) (iteration : Nat) (bv : List (String × ℚ))
    (order : List NodeId) :
    ∀ (nodes : List NodeId) (stateMap currentResults outputs : List (NodeId × Value)),
      (∀ x ∈ nodes, x ∈ g.nodeIds) → (∀ x ∈ nodes, x ∈ order) →
      (∀ e ∈ g.edges, e.fromNodeId ∈ order) →
      ∃ r, runNodes g iteration bv order nodes stateMap currentResults outputs =
        .ok r := by
  intro nodes
  induction nodes with
  | nil =>
    intro stateMap currentResults outputs _ _ _
    exact ⟨(stateMap, currentResults, outputs), rfl⟩
  | cons x rest ih =>
    intro stateMap currentResults outputs hkeys horder hsrc
    have hxk : x ∈ g.nodes.map Prod.fst := hkeys x (List.mem_cons_self _ _)
    obtain ⟨node, hnode⟩ := get_of_mem_keys g.nodes x hxk
    obtain ⟨iv, hiv⟩ := gatherInputs_no_error x node g currentResults bv order
      (horder x (List.mem_cons_self _ _)) (fun e he _ => hsrc e he)
    obtain ⟨r, hr⟩ := ih (jsSet stateMap x (node.calculate iv iteration
        ((jsGet stateMap x).getD (.prim false))).2)
      (jsSet currentResults x (node.calculate iv iteration
        ((jsGet stateMap x).getD (.prim false))).1)
      (jsSet outputs x (node.calculate iv iteration
        ((jsGet stateMap x).getD (.prim false))).1)
      (fun y hy => hkeys y (List.mem_cons_of_mem _ hy))
      (fun y hy => horder y (List.mem_cons_of_mem _ hy)) hsrc
    refine ⟨r, ?_⟩
    simp only [runNodes, hnode, hiv]
    exact hr

/-- The multi-pass run: on a graph whose edge sources all exist, the
loop performs exactly `maxIterations` iterations. -/
theorem multiPass_runLoop (g : Graph) (n : Nat)
    (hsrc : ∀ e ∈ g.edges, e.fromNodeId ∈ g.nodeIds) :
    ∀ (fuel iteration : Nat) (stateMap outputs : List (NodeId × Value))
      (prev : Option (List (NodeId × Value))), iteration < n → n ≤ fuel + iteration →
      ∃ r, runLoop (MultiPassStrategy n) g fuel iteration () stateMap outputs prev =
        some (.ok r) ∧ r.iterations = n := by
  obtain ⟨hnd, hmem, _, _, _, _⟩ := mts_spec g
  have hordmem : ∀ x ∈ modifiedTopologicalSort g, x ∈ g.nodeIds :=
    fun x hx => (hmem x).mp hx
  have hsrcord : ∀ e ∈ g.edges, e.fromNodeId ∈ modifiedTopologicalSort g :=
    fun e he => (hmem _).mpr (hsrc e he)
  intro fuel
  induction fuel with
  | zero =>
    intro iteration _ _ _ hlt hfuel
    omega
  | succ fuel ih =>
    intro iteration stateMap outputs prev hlt hfuel
    obtain ⟨r0, hr0⟩ := runNodes_no_error g (iteration + 1)
      (multiPassGetBackEdgeValues (iteration + 1) prev)
      (modifiedTopologicalSort g) (modifiedTopologicalSort g) stateMap [] outputs
      hordmem (fun x hx => hx) hsrcord
    by_cases hc : iteration + 1 < n
    · obtain ⟨r, hr, hit⟩ := ih (iteration + 1) r0.1 r0.2.2 (some r0.2.1) hc (by omega)
      refine ⟨r, ?_, hit⟩
      simp only [runLoop, MultiPassStrategy, hr0]
      rw [if_pos (decide_eq_true hc)]
      exact hr
    · have hit : iteration + 1 = n := by omega
      refine ⟨⟨r0.1, r0.2.2, iteration + 1⟩, ?_, hit⟩
      simp only [runLoop, MultiPassStrategy, hr0]
      rw [if_neg (by simpa using hc)]

/--
Claim C5, counterexample: for the graph whose single edge has a dangling
source (the destination node and its port exist), the engine with
`MultiPassStrategy(1)` does not return at all — it aborts with
`sourceNotFoundInOrder`, so `iterations = 1` is never produced.
-/
theorem cld_C5_counterexample :
    execute (MultiPassStrategy 1) () gDangSrc none 2 =
      some (.error (.sourceNotFoundInOrder "Z")) := by
  rfl

/--
Claim C5 (amended): for every graph all of whose edge sources exist in
the graph, every `n ≥ 1` and fuel at least `n`, the engine with
`MultiPassStrategy(n)` returns successfully with `iterations` exactly
`n`; `shouldContinue` is true strictly below `n` and false from `n` on.
-/
theorem cld_C5_theorem (g : Graph)
    (hsrc : ∀ e ∈ g.edges, e.fromNodeId ∈ g.nodeIds) (n fuel : Nat)
    (hn : 1 ≤ n) (hfuel : n ≤ fuel) (init : Option (List (NodeId × Value))) :
    (∀ res, ((MultiPassStrategy n).shouldContinue () n res).1 = false) ∧
    (∀ res k, k < n → ((MultiPassStrategy n).shouldContinue () k res).1 = true) ∧
    ∃ r, execute (MultiPassStrategy n) () g init fuel = some (.ok r) ∧
      r.iterations = n := by
  refine ⟨fun res => by simp [MultiPassStrategy], fun res k hk => by
    simp [MultiPassStrategy, hk], ?_⟩
  exact multiPass_runLoop g n hsrc fuel 0 (initStateMap g init) [] none
    (by omega) (by omega)

/--
Claim C5, witness: the self-loop graph run under `MultiPassStrategy(2)`
performs exactly two iterations.
-/
theorem cld_C5_witness :
    (∀ res, ((MultiPassStrategy 2).shouldContinue () 2 res).1 = false) ∧
    (∀ res k, k < 2 → ((MultiPassStrategy 2).shouldContinue () k res).1 = true) ∧
    ∃ r, execute (MultiPassStrategy 2) () graphA none 2 = some (.ok r) ∧
      r.iterations = 2 :=
  cld_C5_theorem graphA (by decide) 2 2 (by decide) (by decide) none

/-! ## Error characterization of a run -/

theorem gatherLoop_error_char (g : Graph) (node : NodeDefinition)
    (co : List (NodeId × Value)) (bv : List (String × ℚ)) (order : List NodeId)
    (idx : Nat) :
    ∀ (edges : List Edge) (iv : List (String × ℚ)) (err : EngineError),
      gatherLoop g node co bv order idx edges iv = .error err →
      ∃ e ∈ edges, err = .sourceNotFoundInOrder e.fromNodeId ∧
        e.fromNodeId ∉ order ∧
        (node.inputs.find? (fun port => port.id = e.toPortId)).isSome := by
  intro edges
  induction edges with
  | nil =>
    intro iv err h
    exact absurd h (by simp [gatherLoop])
  | cons e rest ih =>
    intro iv err h
    cases hp : node.inputs.find? (fun port => port.id = e.toPortId) with
    | none =>
      simp only [gatherLoop, hp] at h
      obtain ⟨e', he', h1, h2, h3⟩ := ih iv err h
      exact ⟨e', List.mem_cons_of_mem _ he', h1, h2, h3⟩
    | some inputPort =>
      cases hio : indexOf order e.fromNodeId with
      | none =>
        simp only [gatherLoop, hp, hio] at h
        injection h with h
        refine ⟨e, List.mem_cons_self _ _, h.symm,
          (indexOf_eq_none_iff _ _).mp hio, by rw [hp]; rfl⟩
      | some srcIdx =>
        simp only [gatherLoop, hp, hio] at h
        obtain ⟨e', he', h1, h2, h3⟩ := ih _ err h
        exact ⟨e', List.mem_cons_of_mem _ he', h1, h2, h3⟩

theorem gatherLoop_ok_char (g : Graph) (node : NodeDefinition)
    (co : List (NodeId × Value)) (bv : List (String × ℚ)) (order : List NodeId)
    (idx : Nat) :
    ∀ (edges : List Edge) (iv res : List (String × ℚ)),
      gatherLoop g node co bv order idx edges iv = .ok res →
      ∀ e ∈ edges, (node.inputs.find? (fun port => port.id = e.toPortId)).isSome →
        e.fromNodeId ∈ order := by
  intro edges
  induction edges with
  | nil =>
    intro iv res _ e he
    cases he
  | cons e rest ih =>
    intro iv res h e' he' hport
    cases hp : node.inputs.find? (fun port => port.id = e.toPortId) with
    | none =>
      simp only [gatherLoop, hp] at h
      rcases List.mem_cons.mp he' with rfl | hm
      · rw [hp] at hport
        cases hport
      · exact ih iv res h e' hm hport
    | some inputPort =>
      cases hio : indexOf order e.fromNodeId with
      | none =>
        simp only [gatherLoop, hp, hio] at h
        exact Except.noConfusion h
      | some srcIdx =>
        simp only [gatherLoop, hp, hio] at h
        rcases List.mem_cons.mp he' with rfl | hm
        · exact (indexOf_isSome_iff _ _).mp (by rw [hio]; rfl)
        · exact ih _ res h e' hm hport

theorem runNodes_error_char (g : Graph) (iteration : Nat) (bv : List (String × ℚ))
    (order : List NodeId) :
    ∀ (nodes : List NodeId) (stateMap cr outs : List (NodeId × Value))
      (err : EngineError),
      (∀ x ∈ nodes, x ∈ g.nodeIds) → (∀ x ∈ nodes, x ∈ order) →
      runNodes g iteration bv order nodes stateMap cr outs = .error err →
      ∃ id, err = .sourceNotFoundInOrder id ∧ id ∉ order ∧
        ∃ e ∈ g.edges, e.fromNodeId = id ∧ ∃ node',
          jsGet g.nodes e.toNodeId = some node' ∧
          (node'.inputs.find? (fun port => port.id = e.toPortId)).isSome := by
  intro nodes
  induction nodes with
  | nil =>
    intro stateMap cr outs err _ _ h
    exact absurd h (by simp [runNodes])
  | cons x rest ih =>
    intro stateMap cr outs err hkeys horder h
    have hxk : x ∈ g.nodes.map Prod.fst := hkeys x (List.mem_cons_self _ _)
    obtain ⟨node, hnode⟩ := get_of_mem_keys g.nodes x hxk
    simp only [runNodes, hnode] at h
    cases hgi : gatherInputs x node g cr bv order with
    | error e0 =>
      simp only [hgi] at h
      injection h with h
      subst h
      unfold gatherInputs at hgi
      cases hio : indexOf order x with
      | none =>
        exact absurd ((indexOf_isSome_iff _ _).mpr (horder x (List.mem_cons_self _ _)))
          (by rw [hio]; simp)
      | some idx =>
        simp only [hio] at hgi
        obtain ⟨e, he, h1, h2, h3⟩ := gatherLoop_error_char g node cr bv order idx
          _ [] e0 hgi
        have hef : e ∈ g.edges ∧ e.toNodeId = x := by
          have := List.mem_filter.mp he
          exact ⟨this.1, by simpa using this.2⟩
        refine ⟨e.fromNodeId, h1, h2, e, hef.1, rfl, node, ?_, h3⟩
        rw [hef.2]
        exact hnode
    | ok iv =>
      simp only [hgi] at h
      exact ih _ _ _ err (fun y hy => hkeys y (List.mem_cons_of_mem _ hy))
        (fun y hy => horder y (List.mem_cons_of_mem _ hy)) h

theorem runNodes_ok_char (g : Graph) (iteration : Nat) (bv : List (String × ℚ))
    (order : List NodeId) :
    ∀ (nodes : List NodeId) (stateMap cr outs : List (NodeId × Value)) r,
      runNodes g iteration bv order nodes stateMap cr outs = .ok r →
      ∀ x ∈ nodes, ∀ node, jsGet g.nodes x = some node →
        ∀ e ∈ g.edges, e.toNodeId = x →
          (node.inputs.find? (fun port => port.id = e.toPortId)).isSome →
          e.fromNodeId ∈ order := by
  intro nodes
  induction nodes with
  | nil =>
    intro _ _ _ _ _ x hx
    cases hx
  | cons y rest ih =>
    intro stateMap cr outs r h x hx node hnode e he hto hport
    cases hny : jsGet g.nodes y with
    | none =>
      simp only [runNodes, hny] at h
      exact Except.noConfusion h
    | some node0 =>
      simp only [runNodes, hny] at h
      cases hgi : gatherInputs y node0 g cr bv order with
      | error e0 =>
        simp only [hgi] at h
        exact Except.noConfusion h
      | ok iv =>
        simp only [hgi] at h
        rcases List.mem_cons.mp hx with rfl | hm
        · have hnn : node0 = node := by
            have := hny.symm.trans hnode
            injection this
          subst hnn
          unfold gatherInputs at hgi
          cases hio : indexOf order x with
          | none =>
            simp only [hio] at hgi
            exact Except.noConfusion hgi
          | some idx =>
            simp only [hio] at hgi
            refine gatherLoop_ok_char g node0 cr bv order idx _ [] iv hgi e ?_ hport
            refine List.mem_filter.mpr ⟨he, by simpa using hto⟩
        · exact ih _ _ _ r h x hm node hnode e he hto hport

/--
Claim C2, counterexample: an edge whose destination node is absent from
the graph is silently tolerated — `execute` completes successfully and
no error names the missing id `Z`.
-/
theorem cld_C2_counterexample :
    eXZ ∈ gDangDst.edges ∧ eXZ.toNodeId ∉ gDangDst.nodeIds ∧
    execute (MultiPassStrategy 1) () gDangDst none 2 =
      some (.ok ⟨[("X", .obj [])], [("X", .obj [("o", .num 3)])], 1⟩) :=
  ⟨by decide, by decide, by rfl⟩

/--
Claim C2 (amended): an edge whose source node is absent from the graph,
while its destination node exists and carries the targeted input port,
does abort the run: `execute` returns `sourceNotFoundInOrder` naming a
missing id that is the source of such an edge.  (Edges with a missing
destination node, by contrast, are silently skipped — see the
counterexample.)
-/
theorem cld_C2_theorem (g : Graph) (n fuel : Nat) (hfuel : 1 ≤ fuel)
    (init : Option (List (NodeId × Value))) (e : Edge) (he : e ∈ g.edges)
    (node : NodeDefinition) (hnode : jsGet g.nodes e.toNodeId = some node)
    (hport : (node.inputs.find? (fun port => port.id = e.toPortId)).isSome)
    (hmiss : e.fromNodeId ∉ g.nodeIds) :
    ∃ id, id ∉ g.nodeIds ∧
      (∃ e' ∈ g.edges, e'.fromNodeId = id ∧ ∃ node',
        jsGet g.nodes e'.toNodeId = some node' ∧
        (node'.inputs.find? (fun port => port.id = e'.toPortId)).isSome) ∧
      execute (MultiPassStrategy n) () g init fuel =
        some (.error (.sourceNotFoundInOrder id)) := by
  obtain ⟨hnd, hmem, _, _, _, _⟩ := mts_spec g
  obtain ⟨fuel0, rfl⟩ : ∃ f0, fuel = f0 + 1 := ⟨fuel - 1, by omega⟩
  have hordmem : ∀ x ∈ modifiedTopologicalSort g, x ∈ g.nodeIds :=
    fun x hx => (hmem x).mp hx
  cases hrn : runNodes g 1 (multiPassGetBackEdgeValues 1 none)
      (modifiedTopologicalSort g) (modifiedTopologicalSort g)
      (initStateMap g init) [] [] with
  | error err =>
    obtain ⟨id, h1, h2, h3⟩ := runNodes_error_char g 1 _ _ _ _ _ _ err
      hordmem (fun x hx => hx) hrn
    refine ⟨id, fun hid => h2 ((hmem id).mpr hid), h3, ?_⟩
    subst h1
    show runLoop (MultiPassStrategy n) g (fuel0 + 1) 0 () (initStateMap g init)
      [] none = _
    simp only [runLoop, MultiPassStrategy, hrn]
  | ok r =>
    exfalso
    have htok : e.toNodeId ∈ g.nodeIds := by
      show e.toNodeId ∈ g.nodes.map Prod.fst
      rw [← jsGet_isSome_iff, hnode]
      rfl
    have := runNodes_ok_char g 1 _ _ _ _ _ _ r hrn e.toNodeId
      ((hmem _).mpr htok) node hnode e he rfl hport
    exact hmiss ((hmem _).mp this)

/--
Claim C2, witness: the dangling-source graph aborts with
`sourceNotFoundInOrder` naming a missing id.
-/
theorem cld_C2_witness :
    ∃ id, id ∉ gDangSrc.nodeIds ∧
      (∃ e' ∈ gDangSrc.edges, e'.fromNodeId = id ∧ ∃ node',
        jsGet gDangSrc.nodes e'.toNodeId = some node' ∧
        (node'.inputs.find? (fun port => port.id = e'.toPortId)).isSome) ∧
      execute (MultiPassStrategy 1) () gDangSrc none 1 =
        some (.error (.sourceNotFoundInOrder id)) :=
  cld_C2_theorem gDangSrc 1 1 (by decide) none eZY (by decide) nodeY (by rfl)
    (by rfl) (by decide)

/-! ## The convergence strategy along the iteration trace -/

theorem iterTrace_zero (g : Graph) (init : Option (List (NodeId × Value))) :
    iterTrace g init 0 = .ok (initStateMap g init, [], [], none) := rfl

theorem iterTrace_prev (g : Graph) (init : Option (List (NodeId × Value)))
    (k : Nat) (st : List (NodeId × Value) × List (NodeId × Value) ×
      List (NodeId × Value) × Option (List (NodeId × Value))) (hk : 1 ≤ k)
    (h : iterTrace g init k = .ok st) : st.2.2.2 = some st.2.1 := by
  obtain ⟨j, rfl⟩ : ∃ j, k = j + 1 := ⟨k - 1, by omega⟩
  cases ht : iterTrace g init j with
  | error e =>
    simp only [iterTrace, ht] at h
    exact Except.noConfusion h
  | ok r =>
    simp only [iterTrace, ht] at h
    cases hrn : runNodes g (j + 1) (convergenceGetBackEdgeValues (j + 1) r.2.2.2)
        (modifiedTopologicalSort g) (modifiedTopologicalSort g) r.1 [] r.2.2.1 with
    | error e =>
      simp only [hrn] at h
      exact Except.noConfusion h
    | ok s =>
      simp only [hrn] at h
      injection h with h
      rw [← h]

theorem iterTrace_succ (g : Graph) (init : Option (List (NodeId × Value)))
    (k : Nat) (st st' : List (NodeId × Value) × List (NodeId × Value) ×
      List (NodeId × Value) × Option (List (NodeId × Value)))
    (h : iterTrace g init k = .ok st) (h' : iterTrace g init (k + 1) = .ok st') :
    ∃ s, runNodes g (k + 1) (convergenceGetBackEdgeValues (k + 1) st.2.2.2)
        (modifiedTopologicalSort g) (modifiedTopologicalSort g) st.1 [] st.2.2.1 =
        .ok s ∧ st' = (s.1, s.2.1, s.2.2, some s.2.1) := by
  simp only [iterTrace, h] at h'
  cases hrn : runNodes g (k + 1) (convergenceGetBackEdgeValues (k + 1) st.2.2.2)
      (modifiedTopologicalSort g) (modifiedTopologicalSort g) st.1 [] st.2.2.1 with
  | error e =>
    simp only [hrn] at h'
    exact Except.noConfusion h'
  | ok s =>
    simp only [hrn] at h'
    injection h' with h'
    exact ⟨s, rfl, h'.symm⟩

theorem convergence_run_stab (θ : ℚ) (m : Nat) (g : Graph)
    (init : Option (List (NodeId × Value))) (i : Nat) (hi2 : 2 ≤ i) (him : i < m)
    (htr : ∀ j, j ≤ i → ∃ stj, iterTrace g init j = .ok stj)
    (hcv : ∀ sti1 sti, iterTrace g init (i - 1) = .ok sti1 →
      iterTrace g init i = .ok sti → checkConvergence θ sti1.2.1 sti.2.1 = true) :
    ∀ (fuel k : Nat) (st : List (NodeId × Value) × List (NodeId × Value) ×
      List (NodeId × Value) × Option (List (NodeId × Value))),
      iterTrace g init k = .ok st → k < i → i ≤ fuel + k →
      ∃ r, runLoop (ConvergenceStrategy θ m) g fuel k st.2.2.2 st.1 st.2.2.1
        st.2.2.2 = some (.ok r) ∧ r.iterations < m := by
  intro fuel
  induction fuel with
  | zero =>
    intro k st _ hk hf
    omega
  | succ fuel ih =>
    intro k st hst hk hf
    obtain ⟨st', hst'⟩ := htr (k + 1) (by omega)
    obtain ⟨s, hrn, hsts⟩ := iterTrace_succ g init k st st' hst hst'
    have hnotstop : ¬ m ≤ k + 1 := by omega
    by_cases hk0 : k = 0
    · subst hk0
      have hstval : st = (initStateMap g init, [], [], none) := by
        have := hst.symm.trans (iterTrace_zero g init)
        injection this
      subst hstval
      have hcont : convergenceShouldContinue θ m none 1 s.2.1 =
          (true, some s.2.1) := by
        unfold convergenceShouldContinue
        rw [if_neg hnotstop]
      obtain ⟨r, hr, hrit⟩ := ih 1 st' hst' (by omega) (by omega)
      refine ⟨r, ?_, hrit⟩
      simp only [runLoop, ConvergenceStrategy, hrn]
      rw [if_pos (by rw [hcont])]
      rw [hcont]
      rw [hsts] at hr
      exact hr
    · have hprev : st.2.2.2 = some st.2.1 :=
        iterTrace_prev g init k st (by omega) hst
      rw [hprev] at hrn
      rw [hprev]
      cases hch : checkConvergence θ st.2.1 s.2.1 with
      | true =>
        have hcont : convergenceShouldContinue θ m (some st.2.1) (k + 1) s.2.1 =
            (false, some s.2.1) := by
          unfold convergenceShouldContinue
          rw [if_neg hnotstop]
          show (!checkConvergence θ st.2.1 s.2.1, some s.2.1) = (false, some s.2.1)
          rw [hch]
          rfl
        refine ⟨⟨s.1, s.2.2, k + 1⟩, ?_, ?_⟩
        · simp only [runLoop, ConvergenceStrategy, hrn]
          rw [if_neg (by rw [hcont]; simp)]
        · show k + 1 < m
          omega
      | false =>
        have hki : k + 1 < i := by
          rcases lt_or_eq_of_le (Nat.succ_le_of_lt hk) with h | h
          · exact h
          · exfalso
            have hst1 : iterTrace g init (i - 1) = .ok st := by
              rw [← h]
              simpa using hst
            have hsti : iterTrace g init i = .ok st' := by
              rw [← h]
              exact hst'
            have := hcv st st' hst1 hsti
            rw [hsts] at this
            rw [hch] at this
            exact Bool.noConfusion this
        have hcont : convergenceShouldContinue θ m (some st.2.1) (k + 1) s.2.1 =
            (true, some s.2.1) := by
          unfold convergenceShouldContinue
          rw [if_neg hnotstop]
          show (!checkConvergence θ st.2.1 s.2.1, some s.2.1) = (true, some s.2.1)
          rw [hch]
          rfl
        obtain ⟨r, hr, hrit⟩ := ih (k + 1) st' hst' hki (by omega)
        refine ⟨r, ?_, hrit⟩
        simp only [runLoop, ConvergenceStrategy, hrn]
        rw [if_pos (by rw [hcont])]
        rw [hcont]
        rw [hsts] at hr
        exact hr

theorem convergence_run_nostab (θ : ℚ) (m : Nat) (g : Graph)
    (init : Option (List (NodeId × Value)))
    (htr : ∀ j, j ≤ m → ∃ stj, iterTrace g init j = .ok stj)
    (hnc : ∀ i, 2 ≤ i → i < m → ∀ sti1 sti, iterTrace g init (i - 1) = .ok sti1 →
      iterTrace g init i = .ok sti → checkConvergence θ sti1.2.1 sti.2.1 = false) :
    ∀ (fuel k : Nat) (st : List (NodeId × Value) × List (NodeId × Value) ×
      List (NodeId × Value) × Option (List (NodeId × Value))),
      iterTrace g init k = .ok st → k < m → m ≤ fuel + k →
      ∃ r, runLoop (ConvergenceStrategy θ m) g fuel k st.2.2.2 st.1 st.2.2.1
        st.2.2.2 = some (.ok r) ∧ r.iterations = m := by
  intro fuel
  induction fuel with
  | zero =>
    intro k st _ hk hf
    omega
  | succ fuel ih =>
    intro k st hst hk hf
    obtain ⟨st', hst'⟩ := htr (k + 1) (by omega)
    obtain ⟨s, hrn, hsts⟩ := iterTrace_succ g init k st st' hst hst'
    by_cases hstop : m ≤ k + 1
    · have hkm : k + 1 = m := by omega
      have hcont : (convergenceShouldContinue θ m st.2.2.2 (k + 1) s.2.1).1 =
          false := by
        unfold convergenceShouldContinue
        rw [if_pos hstop]
      refine ⟨⟨s.1, s.2.2, k + 1⟩, ?_, hkm⟩
      simp only [runLoop, ConvergenceStrategy, hrn]
      rw [if_neg (by rw [hcont]; simp)]
    · have hcont : convergenceShouldContinue θ m st.2.2.2 (k + 1) s.2.1 =
          (true, some s.2.1) := by
        unfold convergenceShouldContinue
        rw [if_neg hstop]
        cases hsn : st.2.2.2 with
        | none => rfl
        | some prevR =>
          have hk1 : 1 ≤ k := by
            by_contra hk0
            have : k = 0 := by omega
            subst this
            have h0 := iterTrace_zero g init
            have := hst.symm.trans h0
            injection this with hh
            rw [hh] at hsn
            exact Option.noConfusion hsn
          have hprev := iterTrace_prev g init k st hk1 hst
          rw [hsn] at hprev
          injection hprev with hprev
          have hch : checkConvergence θ st.2.1 s.2.1 = false := by
            have := hnc (k + 1) (by omega) (by omega) st st'
              (by simpa using hst) hst'
            rw [hsts] at this
            exact this
          show (!checkConvergence θ prevR s.2.1, some s.2.1) = (true, some s.2.1)
          rw [hprev, hch]
          rfl
      obtain ⟨r, hr, hrit⟩ := ih (k + 1) st' hst' (by omega) (by omega)
      refine ⟨r, ?_, hrit⟩
      simp only [runLoop, ConvergenceStrategy, hrn]
      rw [if_pos (by rw [hcont])]
      rw [hcont]
      rw [hsts] at hr
      exact hr

theorem checkConvergence_single (θ a b : ℚ) :
    checkConvergence θ [("N", .obj [("o", .num a)])] [("N", .obj [("o", .num b)])] =
      (decide (|b - a| < θ) && true && true && true) := rfl

theorem iterTrace_gC6 (k : Nat) :
    iterTrace gC6 none (k + 1) =
      .ok ([("N", .obj [])], c6res (k + 1), c6res (k + 1), some (c6res (k + 1))) := by
  induction k with
  | zero => rfl
  | succ k ih =>
    have h : iterTrace gC6 none (k + 1 + 1) =
        match iterTrace gC6 none (k + 1) with
        | .error e => .error e
        | .ok r =>
          match runNodes gC6 (k + 1 + 1)
              (convergenceGetBackEdgeValues (k + 1 + 1) r.2.2.2)
              (modifiedTopologicalSort gC6) (modifiedTopologicalSort gC6)
              r.1 [] r.2.2.1 with
          | .error e => .error e
          | .ok s => .ok (s.1, s.2.1, s.2.2, some s.2.1) := rfl
    rw [h, ih]
    rfl

/-- Claim C6, counterexample to the original statement: on `gC6` with
`ConvergenceStrategy(1/2, 3)` the numeric outputs stabilize exactly (zero
change) from iteration 5 on, yet `execute` returns `iterations = 3 = max`,
not `iterations < max`: the claim's premise "from some iteration on" does
not bound the iteration count when stabilization begins at or after max. -/
theorem cld_C6_counterexample :
    (∀ k, 5 ≤ k → iterResults gC6 none k = iterResults gC6 none (k + 1)) ∧
    (∃ r, execute (ConvergenceStrategy (1/2) 3) none gC6 none 3 = some (.ok r) ∧
      r.iterations = 3 ∧ ¬ r.iterations < 3) := by
  constructor
  · intro k hk
    obtain ⟨k', rfl⟩ : ∃ k', k = k' + 1 := ⟨k - 1, by omega⟩
    unfold iterResults
    rw [iterTrace_gC6 k', iterTrace_gC6 (k' + 1)]
    have h5 : min (k' + 1) 5 = 5 := by omega
    have h5' : min (k' + 1 + 1) 5 = 5 := by omega
    unfold c6res
    rw [h5, h5']
  · obtain ⟨r, hr, hit⟩ := convergence_run_nostab (1/2) 3 gC6 none
      (fun j _ => match j with
        | 0 => ⟨_, rfl⟩
        | jj + 1 => ⟨_, iterTrace_gC6 jj⟩)
      (fun i h2i hi3 sti1 sti h1 h2 => by
        have hieq : i = 2 := by omega
        subst hieq
        have e1 : (Except.ok (([("N", Value.obj [])], c6res 1, c6res 1,
            some (c6res 1))) : Except EngineError _) = .ok sti1 :=
          (iterTrace_gC6 0).symm.trans h1
        have e2 : (Except.ok (([("N", Value.obj [])], c6res 2, c6res 2,
            some (c6res 2))) : Except EngineError _) = .ok sti :=
          (iterTrace_gC6 1).symm.trans h2
        injection e1 with e1
        injection e2 with e2
        rw [← e1, ← e2]
        show checkConvergence (1/2) (c6res 1) (c6res 2) = false
        rw [show c6res 1 = [("N", .obj [("o", .num ((1 : Nat) : ℚ))])] from rfl,
            show c6res 2 = [("N", .obj [("o", .num ((2 : Nat) : ℚ))])] from rfl]
        rw [checkConvergence_single]
        rw [show (decide (|((2 : Nat) : ℚ) - ((1 : Nat) : ℚ)| < (1/2 : ℚ))) = false
          from decide_eq_false (by norm_num)]
        rfl)
      3 0 (initStateMap gC6 none, [], [], none) rfl (by omega) (by omega)
    exact ⟨r, hr, hit, by omega⟩

/-- Claim C6 (amended): for `ConvergenceStrategy(threshold, max)`, (a) if the
engine's iteration trace is error-free up to some `i` with `2 ≤ i < max` and
the convergence check passes between the results of iterations `i-1` and `i`,
then `execute` returns with `iterations < max`; (b) if the trace is error-free
up to `max ≥ 1` and the convergence check fails between every consecutive pair
of result maps among the first `max` iterations, then `execute` returns with
`iterations = max`.  (Stabilization that begins only at or after `max`
iterations does not reduce the count — see the counterexample.) -/
theorem cld_C6_theorem (θ : ℚ) (m : Nat) (g : Graph)
    (init : Option (List (NodeId × Value))) (fuel : Nat) (hfm : m ≤ fuel) :
    (∀ i, 2 ≤ i → i < m →
      (∀ j, j ≤ i → ∃ stj, iterTrace g init j = .ok stj) →
      (∀ sti1 sti, iterTrace g init (i - 1) = .ok sti1 →
        iterTrace g init i = .ok sti →
        checkConvergence θ sti1.2.1 sti.2.1 = true) →
      ∃ r, execute (ConvergenceStrategy θ m) none g init fuel = some (.ok r) ∧
        r.iterations < m) ∧
    (1 ≤ m →
      (∀ j, j ≤ m → ∃ stj, iterTrace g init j = .ok stj) →
      (∀ i, 2 ≤ i → i < m → ∀ sti1 sti, iterTrace g init (i - 1) = .ok sti1 →
        iterTrace g init i = .ok sti →
        checkConvergence θ sti1.2.1 sti.2.1 = false) →
      ∃ r, execute (ConvergenceStrategy θ m) none g init fuel = some (.ok r) ∧
        r.iterations = m) := by
  constructor
  · intro i hi2 him htr hcv
    obtain ⟨r, hr, hrit⟩ := convergence_run_stab θ m g init i hi2 him htr hcv
      fuel 0 (initStateMap g init, [], [], none) rfl (by omega) (by omega)
    exact ⟨r, hr, hrit⟩
  · intro hm1 htr hnc
    obtain ⟨r, hr, hrit⟩ := convergence_run_nostab θ m g init htr hnc
      fuel 0 (initStateMap g init, [], [], none) rfl (by omega) (by omega)
    exact ⟨r, hr, hrit⟩

/-- Witness for C6: part (a) on `gConv` (whose node repeats a non-numeric
output record, so the convergence check passes from iteration 2 on) with
`ConvergenceStrategy(0, 3)`, and part (b) on `gNConv` (whose node's output is
not a record, so the check never passes) with `ConvergenceStrategy(0, 2)`. -/
theorem cld_C6_witness :
    (∃ r, execute (ConvergenceStrategy 0 3) none gConv none 3 = some (.ok r) ∧
      r.iterations < 3) ∧
    (∃ r, execute (ConvergenceStrategy 0 2) none gNConv none 2 = some (.ok r) ∧
      r.iterations = 2) := by
  constructor
  · exact (cld_C6_theorem 0 3 gConv none 3 (by decide)).1 2 (by decide) (by decide)
      (fun j hj => match j, hj with
        | 0, _ => ⟨_, rfl⟩
        | 1, _ => ⟨_, rfl⟩
        | 2, _ => ⟨_, rfl⟩
        | n + 3, hj => absurd hj (by omega))
      (fun sti1 sti h1 h2 => by
        have e1 : iterResults gConv none (2 - 1) =
            .ok [("P", .obj [("o", .prim true)])] := rfl
        have e2 : iterResults gConv none 2 =
            .ok [("P", .obj [("o", .prim true)])] := rfl
        unfold iterResults at e1 e2
        rw [h1] at e1
        rw [h2] at e2
        simp only [Except.map] at e1 e2
        injection e1 with e1
        injection e2 with e2
        rw [e1, e2]
        rfl)
  · exact (cld_C6_theorem 0 2 gNConv none 2 (by decide)).2 (by decide)
      (fun j hj => match j, hj with
        | 0, _ => ⟨_, rfl⟩
        | 1, _ => ⟨_, rfl⟩
        | 2, _ => ⟨_, rfl⟩
        | n + 3, hj => absurd hj (by omega))
      (fun i h2i hi2 sti1 sti h1 h2 =>
        absurd (h2i.trans_lt hi2) (lt_irrefl 2))

/-! ## Claim C8: the back-edge field scan -/

theorem extract_fields_append (nid : NodeId) (fields : List (String × Value))
    (acc : List (String × ℚ))
    (h : (acc.map Prod.fst ++ (fieldPairs nid fields).map Prod.fst).Nodup) :
    fields.foldl (fun acc2 f =>
        match f.2 with
        | .num q => jsSet acc2 (nid ++ "." ++ f.1) q
        | _ => acc2) acc = acc ++ fieldPairs nid fields := by
  induction fields generalizing acc with
  | nil => simp [fieldPairs]
  | cons f fs ih =>
    obtain ⟨fname, fval⟩ := f
    cases fval with
    | num q =>
      have hpairs : fieldPairs nid ((fname, .num q) :: fs) =
          (nid ++ "." ++ fname, q) :: fieldPairs nid fs := by
        simp [fieldPairs]
      rw [hpairs] at h
      have hkey : (nid ++ "." ++ fname) ∉ acc.map Prod.fst := by
        intro hmem
        rw [List.nodup_append] at h
        exact (h.2.2 hmem) (by simp)
      simp only [List.foldl_cons]
      rw [jsSet_of_not_mem _ _ _ hkey]
      have h' : ((acc ++ [(nid ++ "." ++ fname, q)]).map Prod.fst ++
          (fieldPairs nid fs).map Prod.fst).Nodup := by
        simp only [List.map_append, List.map_cons, List.map_nil, List.append_assoc] at h ⊢
        simpa using h
      rw [ih _ h', hpairs]
      simp
    | obj o =>
      have hpairs : fieldPairs nid ((fname, .obj o) :: fs) = fieldPairs nid fs := by
        simp [fieldPairs]
      rw [hpairs] at h
      simpa [hpairs] using ih acc h
    | prim b =>
      have hpairs : fieldPairs nid ((fname, .prim b) :: fs) = fieldPairs nid fs := by
        simp [fieldPairs]
      rw [hpairs] at h
      simpa [hpairs] using ih acc h

theorem extract_nodes_append (m : List (NodeId × Value)) (acc : List (String × ℚ))
    (h : (acc.map Prod.fst ++ (backEdgePairs m).map Prod.fst).Nodup) :
    m.foldl (fun acc p =>
        match p.2 with
        | .obj fields =>
          fields.foldl (fun acc2 f =>
            match f.2 with
            | .num q => jsSet acc2 (p.1 ++ "." ++ f.1) q
            | _ => acc2) acc
        | _ => acc) acc = acc ++ backEdgePairs m := by
  induction m generalizing acc with
  | nil => simp [backEdgePairs]
  | cons p rest ih =>
    obtain ⟨nid, out⟩ := p
    have hsplit : backEdgePairs ((nid, out) :: rest) =
        nodePairs (nid, out) ++ backEdgePairs rest := by
      simp [backEdgePairs]
    rw [hsplit] at h
    cases out with
    | obj fields =>
      have hnp : nodePairs (nid, .obj fields) = fieldPairs nid fields := rfl
      rw [hnp] at h
      have hsub : (acc.map Prod.fst ++ (fieldPairs nid fields).map Prod.fst).Nodup := by
        refine List.Nodup.sublist ?_ (by simpa using h)
        exact (List.sublist_append_left _ _).append_left _
      simp only [List.foldl_cons]
      rw [extract_fields_append nid fields acc hsub]
      have h' : ((acc ++ fieldPairs nid fields).map Prod.fst ++
          (backEdgePairs rest).map Prod.fst).Nodup := by
        simp only [List.map_append, List.append_assoc] at h ⊢
        exact h
      rw [ih _ h', hsplit, hnp]
      simp
    | num q =>
      have hnp : nodePairs (nid, Value.num q) = [] := rfl
      rw [hnp] at h
      simp only [List.foldl_cons]
      rw [ih acc (by simpa using h), hsplit, hnp]
      simp
    | prim b =>
      have hnp : nodePairs (nid, Value.prim b) = [] := rfl
      rw [hnp] at h
      simp only [List.foldl_cons]
      rw [ih acc (by simpa using h), hsplit, hnp]
      simp

/-- When the generated keys are pairwise distinct, the implementation's
field scan produces exactly the specified pair list. -/
theorem extractBackEdgeValues_eq (m : List (NodeId × Value))
    (h : ((backEdgePairs m).map Prod.fst).Nodup) :
    extractBackEdgeValues m = backEdgePairs m := by
  have := extract_nodes_append m [] (by simpa using h)
  simpa [extractBackEdgeValues] using this

/--
Claim C8: for both `MultiPassStrategy` and `ConvergenceStrategy`,
`getBackEdgeValues` returns the empty mapping on iteration 1 or when
previous outputs are absent; for iteration ≥ 2 (with pairwise-distinct
generated keys) it returns exactly the mapping binding `nodeId.fieldName`
to every numeric field value of the previous results, and nothing else;
and the two implementations are one and the same field-scan algorithm.
-/
theorem cld_C8_theorem (it : Nat) (m : List (NodeId × Value)) :
    multiPassGetBackEdgeValues 1 (some m) = [] ∧
    multiPassGetBackEdgeValues it none = [] ∧
    convergenceGetBackEdgeValues 1 (some m) = [] ∧
    convergenceGetBackEdgeValues it none = [] ∧
    (2 ≤ it → ((backEdgePairs m).map Prod.fst).Nodup →
      multiPassGetBackEdgeValues it (some m) = backEdgePairs m) ∧
    convergenceGetBackEdgeValues = multiPassGetBackEdgeValues := by
  refine ⟨rfl, rfl, rfl, rfl, ?_, rfl⟩
  intro hit hnd
  have h1 : it ≠ 1 := by omega
  simp [multiPassGetBackEdgeValues, h1, extractBackEdgeValues_eq m hnd]

/--
Claim C8, witness: on a previous-results map with numeric fields `x`,
`y` on node `N`, `z` on node `M`, a non-numeric field and a non-object
output, iteration 2 yields exactly the three specified bindings.
-/
theorem cld_C8_witness :
    multiPassGetBackEdgeValues 2 (some mW) = backEdgePairs mW ∧
    backEdgePairs mW = [("N.x", 3), ("N.y", 4), ("M.z", 5)] := by
  refine ⟨(cld_C8_theorem 2 mW).2.2.2.2.1 (by omega) (by decide), by decide⟩

end CLD
